import Mathlib

/-!
# Verification of the RPC repository core (entity store, deep merge, relations, change events)

This file gives a shallow embedding, in Lean 4, of the core of the
`RpcRepository` TypeScript library:

* `src/core/rpc/RpcRepository.ts` — the two-level entity store (`Map<type, Map<id, record>>`),
  CRUD (`save`, `update`, `remove`, `findAll`, `findById`, `findBy`),
  the deep-merge engine (`mergeRpc` / `mergeArrayDeep` / `mergeDeep` /
  `getIdFieldForPath`), relation resolution (`getRelated`,
  `getFullRelatedData`) and per-mutation change notification;
* `src/core/rpc/Rpc.ts` — per-type descriptors (identity ("foreign key") field,
  merge-path table, relations, related-field renames);
* `src/core/event/EventEmitter.ts` — the pending-event queue and the
  deferred flush (`emitDataChanged` / `flushPendingEvents`).

Records are JSON-like JavaScript values; we embed them as the inductive
type `Value` below, together with executable models of the JavaScript
primitives the code relies on (strict equality `===`, truthiness,
`String(·)` and `Number(·)` coercions, own-property enumeration order).

Modelling boundaries (each noted again at the definition it concerns):
* schema validation (`zod`) is an external capability per the design;
  it is modelled as the identity on records;
* the optional asynchronous loader callback in `findById` is fire-and-forget
  and has no synchronous effect, so the model of `findById` is pure;
* `Number(s)` is modelled for (whitespace-trimmed, optionally signed)
  decimal integer literals, including a trailing zero fraction
  (`"1.0"` ↦ 1); other numeric syntaxes (`"1e2"`, hex, non-integral
  fractions, `Infinity`) are mapped to `NaN`;
* `===` on two object/array operands is JavaScript reference equality;
  the model returns `false` for such comparisons (the code only compares
  fields against numbers and scalars on the paths verified here);
* `for…in` enumeration over an array value and index properties created
  by assigning past an array's length are not modelled (patch sources in
  the merge engine are objects).
-/

set_option linter.unusedVariables false

namespace RpcSpec

/-- A JavaScript (JSON-like) runtime value: `null`, `undefined`, `NaN`,
integral numbers, strings, booleans, arrays and plain objects (own
enumerable string-keyed properties, in insertion order). -/
inductive Value where
  | vNull : Value
  | vUndef : Value
  | vNaN : Value
  | vNum : Int → Value
  | vStr : String → Value
  | vBool : Bool → Value
  | vArr : List Value → Value
  | vObj : List (String × Value) → Value
deriving Repr

namespace Value

/-- `v === null` (constructor test). -/
def isNull : Value → Bool
  | vNull => true
  | _ => false

/-- `v === undefined` (constructor test). -/
def isUndef : Value → Bool
  | vUndef => true
  | _ => false

/-- `v` is a plain object (`typeof v === "object" && v !== null && !Array.isArray(v)`). -/
def isObj : Value → Bool
  | vObj _ => true
  | _ => false

/-- JavaScript truthiness: `null`, `undefined`, `NaN`, `0`, `""` and
`false` are falsy; every other value (including all objects and arrays)
is truthy. -/
def jsTruthy : Value → Bool
  | vNull => false
  | vUndef => false
  | vNaN => false
  | vNum n => n != 0
  | vStr s => s != ""
  | vBool b => b
  | vArr _ => true
  | vObj _ => true

/-- JavaScript strict equality `===` restricted to the comparisons the
embedded code performs: primitive values compare by type and value,
`NaN` is unequal to everything (including itself), and two object/array
operands are modelled as distinct references (`false`). -/
def jsStrictEq : Value → Value → Bool
  | vNum a, vNum b => a == b
  | vStr a, vStr b => a == b
  | vBool a, vBool b => a == b
  | vNull, vNull => true
  | vUndef, vUndef => true
  | _, _ => false

end Value

/-- Decimal representation of a natural number (kernel-reducible). -/
def natRepr (n : Nat) : String := Nat.repr n

/-- Decimal representation of an integer, as JavaScript `String(n)`
prints an integral number. -/
def intRepr (n : Int) : String :=
  if n < 0 then "-" ++ natRepr n.natAbs else natRepr n.natAbs

/-- JavaScript `String(v)` for non-array values: `null ↦ "null"`,
`undefined ↦ "undefined"`, numbers in decimal, objects as
`"[object Object]"`.  (For an array *element* inside a join, `null` and
`undefined` print as `""` instead; see `arrElemStr`.) -/
def jsScalarStr : Value → String
  | .vNull => "null"
  | .vUndef => "undefined"
  | .vNaN => "NaN"
  | .vNum n => intRepr n
  | .vStr s => s
  | .vBool b => if b then "true" else "false"
  | .vArr _ => ""
  | .vObj _ => "[object Object]"

/-- An array element inside `Array.prototype.toString`: `null` and
`undefined` print as the empty string.  A *nested array* element is a
modelling boundary (it prints as `""` rather than recursively joining —
only reachable when an identity value is an array of arrays, which no
schema produces). -/
def arrElemStr : Value → String
  | .vNull => ""
  | .vUndef => ""
  | v => jsScalarStr v

/-- JavaScript `String(v)` coercion: scalars per `jsScalarStr`, arrays
joined by `","`. -/
def jsToString : Value → String
  | .vArr xs => String.intercalate "," (xs.map arrElemStr)
  | v => jsScalarStr v

/-- Characters treated as whitespace by `Number(·)` (the common ones). -/
def isJsSpace (c : Char) : Bool :=
  c == ' ' || c == '\t' || c == '\n' || c == '\r'

/-- Digit list to natural number. -/
def digitsToNat (cs : List Char) : Nat :=
  cs.foldl (fun a c => a * 10 + (c.toNat - '0'.toNat)) 0

/-- JavaScript `Number(s)` coercion, modelled on integral decimal
literals: the string is trimmed; the empty string is `0`; an optional
sign followed by digits, optionally followed by `"."` and a (possibly
empty) run of zeros, parses to the written integer; anything else
(including `"1e2"`, hex and non-integral fractions) is modelled as
`NaN`. -/
def jsToNumber (s : String) : Value :=
  let t := (s.toList.dropWhile isJsSpace).reverse.dropWhile isJsSpace |>.reverse
  if t = [] then Value.vNum 0
  else
    let (neg, cs) :=
      match t with
      | '-' :: r => (true, r)
      | '+' :: r => (false, r)
      | r => (false, r)
    let ip := cs.takeWhile Char.isDigit
    let rest := cs.drop ip.length
    let ok :=
      match rest with
      | [] => !ip.isEmpty
      | '.' :: fr => (!ip.isEmpty || !fr.isEmpty) && fr.all (· == '0')
      | _ => false
    if ok then
      let n : Int := (digitsToNat ip : Nat)
      Value.vNum (if neg then -n else n)
    else Value.vNaN

/-- `!isNaN(Number(key))`: the key parses as a number. -/
def isNumericStr (s : String) : Bool :=
  match jsToNumber s with
  | .vNaN => false
  | _ => true

/-- `s` is the canonical decimal form of a natural number
(no sign, no leading zeros except `"0"` itself). -/
def isCanonicalNat (s : String) : Bool :=
  match s.toList with
  | [] => false
  | c :: rest => (c :: rest).all Char.isDigit && (rest = [] || c ≠ '0')

/-- Parse a canonical natural-number string (it is only ever applied
under an `isCanonicalNat` guard, where every character is a digit). -/
def keyNat (s : String) : Nat := digitsToNat s.toList

/-- `s` is a JavaScript array-index property key: the canonical form of
an integer in `[0, 2^32 − 2]`.  Such keys are enumerated first, in
ascending numeric order, when iterating an object's own properties. -/
def isArrayIndex (s : String) : Bool :=
  isCanonicalNat s && keyNat s < 4294967295

section EntriesOrder

variable {α : Type}

/-- Stable ascending insertion (by numeric key value) used to model the
array-index portion of JavaScript property enumeration order. -/
def insertIndexed (x : String × α) : List (String × α) → List (String × α)
  | [] => [x]
  | y :: ys => if keyNat y.1 ≤ keyNat x.1 then y :: insertIndexed x ys else x :: y :: ys

/-- Stable insertion sort by numeric key value. -/
def sortIndexed (l : List (String × α)) : List (String × α) :=
  l.foldl (fun acc x => insertIndexed x acc) []

/-- JavaScript own-property enumeration order (`Object.entries`,
`for…in`): array-index keys first in ascending numeric order, then the
remaining string keys in insertion order. -/
def jsEntriesOrder (l : List (String × α)) : List (String × α) :=
  sortIndexed (l.filter (fun kv => isArrayIndex kv.1)) ++
    l.filter (fun kv => !isArrayIndex kv.1)

end EntriesOrder

section Assoc

variable {α : Type}

/-- First-match association lookup (JavaScript `Map.get` / own-property read). -/
def lookupA : List (String × α) → String → Option α
  | [], _ => none
  | (k', v) :: rest, k => if k' = k then some v else lookupA rest k

/-- Association update: replace the first entry with this key in place,
else append (JavaScript `Map.set` and `obj[k] = v` both preserve the
position of an existing key and append a fresh one). -/
def setA : List (String × α) → String → α → List (String × α)
  | [], k, v => [(k, v)]
  | (k', v') :: rest, k, v =>
      if k' = k then (k, v) :: rest else (k', v') :: setA rest k v

/-- Association delete (`Map.delete` / `delete obj[k]`). -/
def delA (l : List (String × α)) (k : String) : List (String × α) :=
  l.filter (fun kv => kv.1 ≠ k)

end Assoc

namespace Value

/-- The own enumerable properties of a value (insertion order).
Primitives have none; `for…in` over an array (index keys) is outside the
model, see the header note. -/
def ownFields : Value → List (String × Value)
  | vObj fs => fs
  | _ => []

/-- Property read distinguishing an absent property (`none`) from a
present one; array reads resolve array-index keys within bounds. -/
def vGetRaw : Value → String → Option Value
  | vObj fs, k => lookupA fs k
  | vArr xs, k => if isArrayIndex k then xs.get? (keyNat k) else none
  | _, _ => none

/-- JavaScript property read `v[k]`: an absent property reads as `undefined`. -/
def vGet (v : Value) (k : String) : Value := (vGetRaw v k).getD vUndef

/-- JavaScript property write `v[k] = x` (existing keys keep their
position; array writes only within bounds are modelled). -/
def vSet : Value → String → Value → Value
  | vObj fs, k, x => vObj (setA fs k x)
  | vArr xs, k, x =>
      if isArrayIndex k && keyNat k < xs.length then vArr (xs.set (keyNat k) x)
      else vArr xs
  | v, _, _ => v

/-- JavaScript `delete v[k]`. -/
def vDelete : Value → String → Value
  | vObj fs, k => vObj (delA fs k)
  | v, _ => v

/-- Object spread `{...a, ...b}`: the fields of `a`, then the fields of
`b` written over them one by one. -/
def objSpread2 (a b : Value) : Value :=
  (ownFields b).foldl (fun acc kv => vSet acc kv.1 kv.2) (vObj (ownFields a))

end Value

/-- JavaScript `a || b` for strings (`""` is falsy). -/
def orElseStr (a b : String) : String := if a = "" then b else a

/-- `opt || b` where a present empty string still falls through
(both `undefined` and `""` are falsy). -/
def orElseOptStr (a : Option String) (b : String) : String :=
  match a with
  | some s => orElseStr s b
  | none => b

/-! ## Merge-path (identity-field-per-path) resolution

`Rpc.setMergePath` stores a table from dotted paths to either an
identity-field name (string) or a configuration object
`{idField, children?, recursive?}`; `RpcRepository.getIdFieldForPath`
resolves the identity field to use when addressing elements of the
array/object found at a path. -/

/-- An entry of the merge-path table (`IdFieldMap` in `types.ts`):
either a plain identity-field name or a
`{idField, children?, recursive?}` configuration. -/
inductive IdFieldEntry where
  | str : String → IdFieldEntry
  | cfg : String → Option String → Bool → IdFieldEntry
deriving Repr

/-- The identity field carried by a merge-path entry
(`typeof e === "string" ? e : e.idField`). -/
def entryIdField : IdFieldEntry → String
  | .str s => s
  | .cfg f _ _ => f

/-- JavaScript truthiness of a merge-path entry: a plain `""` is falsy,
every configuration object is truthy. -/
def entryTruthy : IdFieldEntry → Bool
  | .str s => s ≠ ""
  | .cfg _ _ _ => true

/-- The merge-path table, in insertion order. -/
abbrev IdFieldMap := List (String × IdFieldEntry)

/-- `String.prototype.startsWith`, over character lists. -/
def strStartsWith (s p : String) : Bool := p.toList.isPrefixOf s.toList

/-- `s.substring(n)`, over character lists. -/
def strDrop (s : String) (n : Nat) : String := ⟨s.toList.drop n⟩

/-- Number of characters of `s`. -/
def strLen (s : String) : Nat := s.toList.length

/-- `key.startsWith(root + ".") ? key.substring(root.length + 1) : key` —
the prefix-stripping used by `getIdFieldForPath` and `isChildPath` when a
non-empty `rootPath` is given. -/
def stripIfRoot (rootPath s : String) : String :=
  if rootPath ≠ "" && strStartsWith s (rootPath ++ ".") then
    strDrop s (strLen rootPath + 1)
  else s

/-- `RpcRepository.isChildPath`: after normalising both paths relative to
`rootPath`, `currentPath` matches `parentPath` itself or the regular
expression `^P\.[^.]+\.C(\.|$)` (parent, one dot-free segment, the
`children` field, then end or a dot), with `P` and `C` taken literally. -/
def isChildPath (currentPath parentPath childrenField rootPath : String) : Bool :=
  let c := stripIfRoot rootPath currentPath
  let p := stripIfRoot rootPath parentPath
  c = p ||
    (strStartsWith c (p ++ ".") &&
      let rest := strDrop c (strLen p + 1)
      let seg := rest.toList.takeWhile (· ≠ '.')
      decide (0 < seg.length) && decide (seg.length < rest.toList.length) &&
        (let tail := strDrop rest (seg.length + 1)
         tail = childrenField || strStartsWith tail (childrenField ++ ".")))

/-- Backtracking matcher for the regular expression built by
`matchesWildcard` from a merge-path pattern: `*` becomes `.*` (any
sequence), `.` is the regex any-character, all other characters are
literal (the code does not escape the pattern, so a pattern's dots match
any character). -/
def reMatch : List Char → List Char → Bool
  | [], s => s.isEmpty
  | '*' :: ps, s =>
      reMatch ps s ||
        (match s with
         | [] => false
         | _ :: s' => reMatch ('*' :: ps) s')
  | '.' :: ps, s =>
      (match s with
       | [] => false
       | _ :: s' => reMatch ps s')
  | c :: ps, s =>
      (match s with
       | [] => false
       | c' :: s' => c = c' && reMatch ps s')
termination_by ps s => (s.length, ps.length)

/-- `RpcRepository.matchesWildcard`: the pattern (with `*` as a
wildcard) is matched, anchored at both ends, against
`rootPath + "." + path` (when a root is given) and against `path`. -/
def matchesWildcard (path pattern rootPath : String) : Bool :=
  (rootPath ≠ "" && reMatch pattern.toList (rootPath ++ "." ++ path).toList) ||
    reMatch pattern.toList path.toList

/-- Direct-match step of `getIdFieldForPath`: `idFieldMap[path]`, only
when the stored entry is truthy. -/
def gifpDirect (m : IdFieldMap) (path : String) : Option String :=
  match lookupA m path with
  | some e => if entryTruthy e then some (entryIdField e) else none
  | none => none

/-- Root-relative steps of `getIdFieldForPath` (only with a non-empty
`rootPath`): first `idFieldMap[rootPath + "." + path]` (if truthy),
then the first table key that equals `path` once the root prefix is
stripped. -/
def gifpRoot (m : IdFieldMap) (path rootPath : String) : Option String :=
  if rootPath = "" then none
  else
    match gifpDirect m (rootPath ++ "." ++ path) with
    | some f => some f
    | none =>
        (m.find? (fun kv => stripIfRoot rootPath kv.1 = path)).map
          (fun kv => entryIdField kv.2)

/-- Recursive-children step of `getIdFieldForPath`: the first entry
whose configuration is `recursive` with a truthy `children` field and
whose key is an ancestor of `path` in the `isChildPath` sense. -/
def gifpRecursive (m : IdFieldMap) (path rootPath : String) : Option String :=
  (m.find? (fun kv =>
      match kv.2 with
      | .cfg _ (some ch) true => ch ≠ "" && isChildPath path kv.1 ch rootPath
      | _ => false)).map (fun kv => entryIdField kv.2)

/-- Wildcard step of `getIdFieldForPath`: the first entry whose key
contains `*` and matches `path` as a wildcard pattern. -/
def gifpWildcard (m : IdFieldMap) (path rootPath : String) : Option String :=
  (m.find? (fun kv =>
      kv.1.toList.contains '*' && matchesWildcard path kv.1 rootPath)).map
    (fun kv => entryIdField kv.2)

/-- `RpcRepository.getIdFieldForPath`: direct match, then root-relative
matches, then recursive-children ancestors, then wildcard patterns;
`none` when nothing matches (callers apply `|| "id"` or `|| idField`). -/
def getIdFieldForPath (m : IdFieldMap) (path rootPath : String) : Option String :=
  (gifpDirect m path).orElse fun _ =>
    (gifpRoot m path rootPath).orElse fun _ =>
      (gifpRecursive m path rootPath).orElse fun _ =>
        gifpWildcard m path rootPath

/-! ## Structural size measures (for the termination of `mergeDeep`) -/

mutual

/-- Structural size of a value. -/
def vsize : Value → Nat
  | .vArr xs => 1 + asize xs
  | .vObj fs => 1 + esize fs
  | _ => 1

/-- Structural size of a list of values. -/
def asize : List Value → Nat
  | [] => 0
  | v :: vs => 1 + vsize v + asize vs

/-- Structural size of a property list. -/
def esize : List (String × Value) → Nat
  | [] => 0
  | (_, v) :: es => 1 + vsize v + esize es

end

theorem esize_insertIndexed (x : String × Value) (l : List (String × Value)) :
    esize (insertIndexed x l) = 1 + vsize x.2 + esize l := by
  induction l with
  | nil => simp [insertIndexed, esize]
  | cons y ys ih =>
      simp only [insertIndexed]
      by_cases h : keyNat y.1 ≤ keyNat x.1
      · simp [h, esize, ih]; omega
      · simp [h, esize]

theorem esize_sortIndexed_aux (l acc : List (String × Value)) :
    esize (l.foldl (fun a x => insertIndexed x a) acc) = esize acc + esize l := by
  induction l generalizing acc with
  | nil => simp [esize]
  | cons y ys ih =>
      simp only [List.foldl_cons, ih, esize_insertIndexed, esize]
      omega

theorem esize_sortIndexed (l : List (String × Value)) :
    esize (sortIndexed l) = esize l := by
  simpa [sortIndexed, esize] using esize_sortIndexed_aux l []

theorem esize_append (l₁ l₂ : List (String × Value)) :
    esize (l₁ ++ l₂) = esize l₁ + esize l₂ := by
  induction l₁ with
  | nil => simp [esize]
  | cons x xs ih => simp [esize, ih]; omega

theorem esize_filter_partition (p : String × Value → Bool) (l : List (String × Value)) :
    esize (l.filter p) + esize (l.filter (fun x => !p x)) = esize l := by
  induction l with
  | nil => simp [esize]
  | cons x xs ih =>
      by_cases h : p x <;> simp [List.filter_cons, h, esize] <;> omega


theorem esize_jsEntriesOrder (l : List (String × Value)) :
    esize (jsEntriesOrder l) = esize l := by
  simp only [jsEntriesOrder, esize_append, esize_sortIndexed]
  exact esize_filter_partition _ l

theorem esize_ownFields_lt (v : Value) : esize v.ownFields < vsize v := by
  cases v <;> simp [Value.ownFields, vsize, esize]

/-! ## The deep-merge engine (`RpcRepository.mergeDeep`) -/

/-- The copy `Array.isArray(target) ? [...target] : {...target}` taken
at the top of `mergeDeep` (`{...primitive}` is `{}`). -/
def copyOf : Value → Value
  | .vArr xs => .vArr xs
  | .vObj fs => .vObj fs
  | _ => .vObj []

/-- The identity field `mergeDeep` resolves for a path:
`getIdFieldForPath(idFieldMap, path, "") || dflt`. -/
def idFieldAt (m : IdFieldMap) (path dflt : String) : String :=
  orElseOptStr (getIdFieldForPath m path "") dflt

mutual

/-- The `for (const key in source)` loop body of
`RpcRepository.mergeDeep` (lines 579–712), `rootPath` specialised to
`""` as at every call site: a `null` patch value overwrites; a non-empty
all-numeric-keyed object patch edits the existing array (`mergeNumArr`)
or object (`mergeNumObj`) keyed by resolved identity fields; any other
object recurses (the recursive `mergeDeep(newNestedObj, sourceVal, …)`
call appears here inlined as `mergeFields` over the copied target and
the enumerated patch fields — `mergeDeep` itself is the non-recursive
wrapper defined below); everything else overwrites. -/
def mergeFields (m : IdFieldMap) (idField currentPath : String) (res : Value) :
    List (String × Value) → Value
  | [] => res
  | (key, sv) :: rest =>
    let newPath := if currentPath = "" then key else currentPath ++ "." ++ key
    let res' : Value :=
      if sv.isNull then res.vSet key .vNull
      else if sv.isObj && !sv.ownFields.isEmpty
            && sv.ownFields.all (fun kv => isNumericStr kv.1) then
        match res.vGetRaw key with
        | some (.vArr arr) =>
            let arrayIdField := orElseOptStr (getIdFieldForPath m newPath "") idField
            res.vSet key
              (.vArr (mergeNumArr m arrayIdField newPath arr (jsEntriesOrder sv.ownFields)))
        | _ =>
            let newObj0 : Value :=
              match res.vGetRaw key with
              | some (.vObj fs) => .vObj fs
              | _ => .vObj []
            res.vSet key (mergeNumObj m newPath newObj0 (jsEntriesOrder sv.ownFields))
      else if sv.isObj then
        let nested0 : Value :=
          match res.vGetRaw key with
          | some (.vObj fs) => .vObj fs
          | _ => .vObj []
        res.vSet key
          (mergeFields m (idFieldAt m newPath "id") newPath (copyOf nested0)
            (jsEntriesOrder sv.ownFields))
      else res.vSet key sv
    mergeFields m idField currentPath res' rest
termination_by l => esize l
decreasing_by
  all_goals simp only [esize_jsEntriesOrder, esize]
  all_goals first
    | omega
    | exact Nat.lt_of_lt_of_le (esize_ownFields_lt _) (by omega)

/-- Indexed-collection edit of an array field: for each numeric patch
key, locate the element whose `arrayIdField` strictly equals the parsed
number; `null` removes it, a match merges recursively in place (the
recursive `mergeDeep(newArray[index], sourceVal[numKey], …)` call
appears inlined), a miss prepends `{...patch, [arrayIdField]: numericId}`. -/
def mergeNumArr (m : IdFieldMap) (arrayIdField newPath : String) (arr : List Value) :
    List (String × Value) → List Value
  | [] => arr
  | (numKey, pv) :: rest =>
    let numericId := jsToNumber numKey
    let index := arr.findIdx? (fun item => Value.jsStrictEq (item.vGet arrayIdField) numericId)
    let arr' : List Value :=
      if pv.isNull then
        match index with
        | some i => arr.eraseIdx i
        | none => arr
      else
        match index with
        | some i =>
            arr.set i
              (mergeFields m (idFieldAt m (newPath ++ "." ++ numKey) "id")
                (newPath ++ "." ++ numKey) (copyOf (arr.getD i .vNull))
                (jsEntriesOrder pv.ownFields))
        | none => (Value.vObj pv.ownFields).vSet arrayIdField numericId :: arr
    mergeNumArr m arrayIdField newPath arr' rest
termination_by l => esize l
decreasing_by
  all_goals simp only [esize_jsEntriesOrder, esize]
  all_goals first
    | omega
    | exact Nat.lt_of_lt_of_le (esize_ownFields_lt _) (by omega)

/-- Indexed-collection edit of a non-array object field: for each
numeric patch key, `null` deletes the key, anything else recursively
merges into `newObj[numKey] || {}` (recursive call inlined as in
`mergeNumArr`). -/
def mergeNumObj (m : IdFieldMap) (newPath : String) (obj : Value) :
    List (String × Value) → Value
  | [] => obj
  | (numKey, pv) :: rest =>
    let obj' : Value :=
      if pv.isNull then obj.vDelete numKey
      else
        let tgt : Value :=
          match obj.vGetRaw numKey with
          | some v => if v.jsTruthy then v else Value.vObj []
          | none => Value.vObj []
        obj.vSet numKey
          (mergeFields m (idFieldAt m (newPath ++ "." ++ numKey) "id")
            (newPath ++ "." ++ numKey) (copyOf tgt) (jsEntriesOrder pv.ownFields))
    mergeNumObj m newPath obj' rest
termination_by l => esize l
decreasing_by
  all_goals simp only [esize_jsEntriesOrder, esize]
  all_goals first
    | omega
    | exact Nat.lt_of_lt_of_le (esize_ownFields_lt _) (by omega)

end

/-- `RpcRepository.mergeDeep` (lines 579–712), `rootPath` specialised to
`""` as at every call site: copy the target, resolve the identity field
for the current path, and process each enumerated own property of the
patch with `mergeFields`. -/
def mergeDeep (m : IdFieldMap) (target source : Value) (currentPath : String) : Value :=
  mergeFields m (idFieldAt m currentPath "id") currentPath (copyOf target)
    (jsEntriesOrder (Value.ownFields source))

/-! ## The repository (`RpcRepository.ts` + `Rpc.ts`)

The repository state bundles the registered per-type descriptors
(`rpcs`), the two-level entity store (`data`, a `Map` from type name to
a `Map` from string identity to record) and the event emitter's pending
queue (`EventEmitter.pendingEvents`).  Schema validation
(`rpc.validate`, a `zod` parse) is an external capability per the
design and is modelled as the identity on records.  Operations that
call `getRpc` on an unregistered type throw in the source; they return
`none` here. -/

/-- A declared relation (`TypedRpcRelation` in `types.ts`), as stored by
`Rpc.hasMany` / `Rpc.belongsTo`. -/
structure Relation where
  targetType : String
  relationType : String
  foreignKey : String
  localKey : String
  arrayKey : String
deriving Repr

/-- A registered per-type descriptor (the `Rpc` class): the identity
("foreign key") field, the merge-path table (`setMergePath`), the
relation table keyed by target type, and the related-field rename
table. -/
structure RpcDef where
  foreignKey : String
  mergePath : IdFieldMap
  relations : List (String × Relation)
  relatedFields : List (String × String)
deriving Repr

/-- A pending change event: the mutated type and the full list of that
type's records at emission time (`{type, payload: findAll(type)}`). -/
abbrev Event := String × List Value

/-- The repository state: descriptors, the two-level store and the
pending event queue. -/
structure Repo where
  rpcs : List (String × RpcDef)
  data : List (String × List (String × Value))
  pending : List Event
deriving Repr

/-- `RpcRepository.registerRpc` (the optional loader callback is an
external capability with no synchronous effect and is not modelled). -/
def registerRpc (repo : Repo) (name : String) (rpc : RpcDef) : Repo :=
  { repo with
      rpcs := setA repo.rpcs name rpc
      data := setA repo.data name [] }

/-- `RpcRepository.findAll`: the values of the type's store map, in
insertion order (`Array.from(map.values())`). -/
def findAll (repo : Repo) (type : String) : List Value :=
  ((lookupA repo.data type).getD []).map (fun kv => kv.2)

/-- `RpcRepository.findById` without the fire-and-forget loader side
effect (which has no synchronous consequence): look up
`String(id)`; `typeData.get(id) || null` turns a falsy stored value
into `null`. -/
def findById (repo : Repo) (type : String) (id : Value) : Option Value :=
  match lookupA ((lookupA repo.data type).getD []) (jsToString id) with
  | some v => if v.jsTruthy then some v else none
  | none => none

/-- `RpcRepository.findBy`: equality scan (`record[field] === value`). -/
def findBy (repo : Repo) (type : String) (field : String) (value : Value) : List Value :=
  (findAll repo type).filter (fun r => Value.jsStrictEq (r.vGet field) value)

/-- Append one `{type, payload: findAll(type)}` event to the pending
queue (`EventEmitter.emitDataChanged`; the deferred flush is modelled
separately by `flushDeliver`). -/
def emitEvent (repo : Repo) (type : String) : Repo :=
  { repo with pending := repo.pending ++ [(type, findAll repo type)] }

/-- `RpcRepository.save` given the type's descriptor: validate (modelled
as identity — `rpc.validate({...data})`), key by `String(data[foreignKey])`,
overwrite unconditionally, and emit a change event carrying the updated
full list. -/
def saveCore (repo : Repo) (type : String) (rpc : RpcDef) (data : Value) : Repo :=
  let validated := data
  let id := jsToString (data.vGet rpc.foreignKey)
  let typeData := (lookupA repo.data type).getD []
  let typeData' := setA typeData id validated
  let repo' := { repo with data := setA repo.data type typeData' }
  emitEvent repo' type

/-- `RpcRepository.save`: throws (`none`) on an unregistered type. -/
def save (repo : Repo) (type : String) (data : Value) : Option Repo :=
  (lookupA repo.rpcs type).map (fun rpc => saveCore repo type rpc data)

/-- `RpcRepository.update`: `null` result (and no mutation) when the
record is absent; else shallow-merge the patch over the existing record
(`{...existing, ...data}`), re-validate (identity), store under the
string form of the *caller's* `id`, and emit.  `getRpc` is only reached
when a record was found. -/
def update (repo : Repo) (type : String) (id : Value) (patch : Value) :
    Option (Repo × Option Value) :=
  match findById repo type id with
  | none => some (repo, none)
  | some existing =>
      match lookupA repo.rpcs type with
      | none => none
      | some _rpc =>
          let validated := Value.objSpread2 existing patch
          let typeData := (lookupA repo.data type).getD []
          let typeData' := setA typeData (jsToString id) validated
          let repo' := { repo with data := setA repo.data type typeData' }
          some (emitEvent repo' type, some validated)

/-- `RpcRepository.remove`: delete `String(id)`; emit only when the
delete succeeded *and* the previous record was truthy
(`if (result && previousData)`). -/
def remove (repo : Repo) (type : String) (id : Value) : Repo × Bool :=
  match lookupA repo.data type with
  | none => (repo, false)
  | some m =>
      let sid := jsToString id
      match lookupA m sid with
      | none => (repo, false)
      | some prev =>
          let m' := delA m sid
          let repo' := { repo with data := setA repo.data type m' }
          if prev.jsTruthy then (emitEvent repo' type, true) else (repo', true)

/-! ### `mergeRpc` -/

/-- The two input shapes of `mergeRpc`: an array of full records, or a
mapping from identity string to patch-or-`null` (`null` is encoded as
`none`).  A mapping's entries are given in insertion order;
`jsEntriesOrder` is applied wherever the code enumerates them. -/
inductive MergeTarget where
  | arr : List Value → MergeTarget
  | obj : List (String × Option Value) → MergeTarget

/-- `RpcRepository.arrayToRecord`: key each array element by the string
form of its identity-field value, skipping elements where it is
`undefined` (later duplicates overwrite in place). -/
def arrayToRecord (rpc : RpcDef) (array : List Value) : List (String × Option Value) :=
  array.foldl
    (fun rec item =>
      let id := item.vGet rpc.foreignKey
      if id.isUndef then rec else setA rec (jsToString id) (some item))
    []

/-- The `for (const [itemId, updatedItem] of Object.entries(updates))`
loop of `mergeArrayDeep`: parse the key numerically, locate the first
element whose `mainIdField` strictly equals it; `null`-ish patches
remove a located element, located elements are deep-merged in place, and
otherwise `{...updatedItem, [mainIdField]: numericItemId}` is prepended. -/
def processUpdates (m : IdFieldMap) (mainIdField : String) :
    List Value → List (String × Option Value) → List Value
  | result, [] => result
  | result, (itemId, upd) :: rest =>
    let numericItemId := jsToNumber itemId
    let index := result.findIdx?
      (fun item => Value.jsStrictEq (item.vGet mainIdField) numericItemId)
    let isNullish :=
      match upd with
      | none => true
      | some u => u.isNull || u.isUndef
    let result' : List Value :=
      if isNullish then
        match index with
        | some i => result.eraseIdx i
        | none => result
      else
        let u := upd.getD Value.vNull
        match index with
        | some i => result.set i (mergeDeep m (result.getD i Value.vNull) u "")
        | none => (Value.vObj u.ownFields).vSet mainIdField numericItemId :: result
    processUpdates m mainIdField result' rest

/-- `RpcRepository.mergeArrayDeep` given the type's descriptor: process
the updates over `findAll`, then re-`save` every surviving record whose
identity field is defined (each save emitting an event), then purge the
store entries whose key does not occur among the string forms of the
result's `mainIdField` values. -/
def mergeArrayDeep (repo : Repo) (type : String) (rpc : RpcDef)
    (updates : List (String × Option Value)) : List Value × Repo :=
  let existing := findAll repo type
  let m := rpc.mergePath
  let mainIdField := orElseOptStr (getIdFieldForPath m "" "") "id"
  let result := processUpdates m mainIdField existing (jsEntriesOrder updates)
  let repo1 := result.foldl
    (fun r item =>
      if (item.vGet rpc.foreignKey).isUndef then r else saveCore r type rpc item)
    repo
  let typeData := (lookupA repo1.data type).getD []
  let resultIds := result.map (fun item => jsToString (item.vGet mainIdField))
  let typeData' := typeData.filter (fun kv => resultIds.contains kv.1)
  let repo2 := { repo1 with data := setA repo1.data type typeData' }
  (result, repo2)

/-- `RpcRepository.mergeRpc`: normalize array input via `arrayToRecord`,
run `mergeArrayDeep`, then emit one final change event with the full
current list.  Throws (`none`) on an unregistered type. -/
def mergeRpc (repo : Repo) (type : String) (target : MergeTarget) :
    Option (List Value × Repo) :=
  match lookupA repo.rpcs type with
  | none => none
  | some rpc =>
      let step :=
        match target with
        | .arr xs => mergeArrayDeep repo type rpc (arrayToRecord rpc xs)
        | .obj es => mergeArrayDeep repo type rpc es
      some (step.1, emitEvent step.2 type)

/-! ### Relations -/

/-- `RpcRepository.defineRelation(source, target, name).hasMany({field, key}, localKey)`:
stores, on the source descriptor, a one-to-many relation whose
`foreignKey` is the `hasMany` *local key* argument, whose `localKey` is
the stub-array field, and whose `arrayKey` is the stub identity field;
also records the related-field rename.  Throws (`none`) when the source
type is unregistered. -/
def defineRelationHasMany (repo : Repo) (sourceType targetType relatedFieldName : String)
    (field key localKey : String) : Option Repo :=
  match lookupA repo.rpcs sourceType with
  | none => none
  | some srpc =>
      let rel : Relation :=
        { targetType := targetType
          relationType := "one-to-many"
          foreignKey := localKey
          localKey := field
          arrayKey := key }
      let srpc' :=
        { srpc with
            relations := setA srpc.relations targetType rel
            relatedFields := setA srpc.relatedFields targetType relatedFieldName }
      some { repo with rpcs := setA repo.rpcs sourceType srpc' }

/-- `RpcRepository.getRelated`: empty on a missing source record or
undeclared relation; for one-to-many over an array field, resolve each
stub through `item[arrayKey] || item.id` and `findById`, dropping
misses; for a scalar field, fall back to an equality scan on the
relation's foreign key; for one-to-one, resolve the scalar local key.
`none` models the `getRpc` throw on an unregistered source type (only
reachable when the source record exists). -/
def getRelated (repo : Repo) (sourceType : String) (sourceId : Value)
    (targetType : String) : Option (List Value) :=
  match findById repo sourceType sourceId with
  | none => some []
  | some sourceRecord =>
      match lookupA repo.rpcs sourceType with
      | none => none
      | some srpc =>
          match lookupA srpc.relations targetType with
          | none => some []
          | some relation =>
              if relation.relationType = "one-to-many" then
                match sourceRecord.vGet relation.localKey with
                | .vArr items =>
                    let arrayKey := orElseStr relation.arrayKey "id"
                    let targetIds := items.map (fun item =>
                      let v := item.vGet arrayKey
                      if v.jsTruthy then v else item.vGet "id")
                    some (targetIds.filterMap (fun i => findById repo targetType i))
                | sv => some (findBy repo targetType relation.foreignKey sv)
              else
                some
                  (match findById repo targetType (sourceRecord.vGet relation.localKey) with
                   | some r => [r]
                   | none => [])

/-- `RpcRepository.getRelationsForType`: the source descriptor's
relation table, or empty when the type is unregistered. -/
def getRelationsForType (repo : Repo) (type : String) : List (String × Relation) :=
  match lookupA repo.rpcs type with
  | none => []
  | some rpc => rpc.relations

/-! ### Change-notification pipeline (`EventEmitter`) -/

/-- `EventEmitter.shouldEmitToListener`: an unfiltered listener receives
every event; a filter restricts delivery to the listed type names. -/
def shouldEmitToListener (filter : Option (List String)) (event : Event) : Bool :=
  match filter with
  | none => true
  | some types => types.contains event.1

/-- The batch a listener receives when `flushPendingEvents` runs: the
subsequence of the pending queue matching its filter, in emission
order. -/
def flushDeliver (pending : List Event) (filter : Option (List String)) : List Event :=
  pending.filter (shouldEmitToListener filter)

/-- The payloads of the pending events for one type, in order. -/
def eventsFor (type : String) : List Event → List (List Value)
  | [] => []
  | (t, payload) :: rest =>
      if t = type then payload :: eventsFor type rest else eventsFor type rest

/-! ### Mutation sequences -/

/-- A synchronous mutating operation on the repository. -/
inductive Op where
  | opSave : String → Value → Op
  | opUpdate : String → Value → Value → Op
  | opRemove : String → Value → Op
  | opMerge : String → MergeTarget → Op

/-- Is the operation a `save` or a `mergeRpc`? -/
def Op.isSaveOrMerge : Op → Bool
  | .opSave _ _ => true
  | .opMerge _ _ => true
  | _ => false

/-- Run one operation (`none` models an exception escaping the call). -/
def runOp (repo : Repo) : Op → Option Repo
  | .opSave t v => save repo t v
  | .opUpdate t id p => (update repo t id p).map (fun r => r.1)
  | .opRemove t id => some (remove repo t id).1
  | .opMerge t tgt => (mergeRpc repo t tgt).map (fun r => r.2)

/-- Run a sequence of operations left to right. -/
def runOps (repo : Repo) : List Op → Option Repo
  | [] => some repo
  | op :: ops =>
      match runOp repo op with
      | none => none
      | some repo' => runOps repo' ops

/-! ### Full relation materialization (`getFullRelatedData`)

The source function recursively expands every declared outgoing
relation, sharing a mutable `visited` set of `"type:id"` keys across the
whole traversal; a node already visited is returned as its raw record.
The model threads the visited set explicitly and uses a fuel parameter
for the recursion; `getFullRelatedData` instantiates the fuel with
(store size + 1), which theorem `C8` proves sufficient for every input,
so the fuel-out case (`none`) is unreachable from the wrapper. -/

/-- All `"type:id"` keys present in the store. -/
def storeKeys (repo : Repo) : List String :=
  repo.data.flatMap (fun tm => tm.2.map (fun kv => tm.1 ++ ":" ++ kv.1))

/-- Number of records in the store. -/
def storeCount (repo : Repo) : Nat := (storeKeys repo).length

/-- Store keys not yet visited. -/
def unvisitedCount (repo : Repo) (visited : List String) : Nat :=
  ((storeKeys repo).filter (fun k => !visited.contains k)).length

/-- Every type that has a store entry is registered (true of every
state reachable through `registerRpc`, which creates both entries
together). -/
def wfRepo (repo : Repo) : Bool :=
  repo.data.all (fun tm => (lookupA repo.rpcs tm.1).isSome)

mutual

/-- `RpcRepository.getFullRelatedData(type, id, visited)` for a present
`id`: `null` when the record is missing; the raw record when
`"type:id"` was already visited; otherwise mark it visited and expand
every declared relation via `goRels`. -/
def goFull (repo : Repo) (fuel : Nat) (type : String) (id : Value)
    (visited : List String) : Option (Value × List String) :=
  match fuel with
  | 0 => none
  | fuel' + 1 =>
      match findById repo type id with
      | none => some (Value.vNull, visited)
      | some rootRecord =>
          let visitedKey := type ++ ":" ++ jsToString id
          if visited.contains visitedKey then some (rootRecord, visited)
          else
            goRels repo fuel' type id (visitedKey :: visited) rootRecord
              (getRelationsForType repo type)
termination_by (fuel, 0, 0)

/-- The `for (const [targetType, relation] of Object.entries(relations))`
loop: skip relations with no related data; otherwise delete the raw
local-key field, and attach the recursively expanded related data under
the (possibly renamed) field.  `none` models the `getRpc` throws, which
are unreachable in well-formed states. -/
def goRels (repo : Repo) (fuel : Nat) (type : String) (id : Value)
    (key : List String) (acc : Value) :
    List (String × Relation) → Option (Value × List String)
  | [] => some (acc, key)
  | (targetType, relation) :: rest =>
      match getRelated repo type id targetType with
      | none => none
      | some relatedData =>
          if relatedData.isEmpty then goRels repo fuel type id key acc rest
          else
            match lookupA repo.rpcs type with
            | none => none
            | some rpc =>
                let newFieldName :=
                  orElseOptStr (lookupA rpc.relatedFields targetType) targetType
                let acc1 := acc.vDelete relation.localKey
                match lookupA repo.rpcs targetType with
                | none => none
                | some trpc =>
                    if relation.relationType = "one-to-many" then
                      match goItems repo fuel targetType trpc.foreignKey relatedData key with
                      | none => none
                      | some (mapped, visited') =>
                          goRels repo fuel type id visited'
                            (acc1.vSet newFieldName
                              (Value.vArr (mapped.filter (fun v => !v.isNull))))
                            rest
                    else
                      let relatedItem := relatedData.headD Value.vNull
                      let relatedId := relatedItem.vGet trpc.foreignKey
                      if relatedId.isUndef then
                        goRels repo fuel type id key (acc1.vSet newFieldName relatedItem) rest
                      else
                        match goFull repo fuel targetType relatedId key with
                        | none => none
                        | some (expanded, visited') =>
                            goRels repo fuel type id visited'
                              (acc1.vSet newFieldName expanded) rest
termination_by rels => (fuel, 2, rels.length)

/-- The `relatedData.map(...)` of the one-to-many branch: items whose
target identity is `undefined` stay raw, others are expanded recursively
(the caller filters out `null`s afterwards). -/
def goItems (repo : Repo) (fuel : Nat) (targetType fkT : String) :
    List Value → List String → Option (List Value × List String)
  | [], visited => some ([], visited)
  | item :: rest, visited =>
      let relatedId := item.vGet fkT
      if relatedId.isUndef then
        (goItems repo fuel targetType fkT rest visited).map
          (fun r => (item :: r.1, r.2))
      else
        match goFull repo fuel targetType relatedId visited with
        | none => none
        | some (expanded, visited') =>
            (goItems repo fuel targetType fkT rest visited').map
              (fun r => (expanded :: r.1, r.2))
termination_by items visited => (fuel, 1, items.length)

end

/-- The record loop of the `id === undefined` mode of
`getFullRelatedData`: each record's identity is read
(`record[getRpc(type).getForeignKey()]`, throwing — `none` — on an
unregistered type) and dispatched through `getFullRelatedData` again.
A record that *lacks* its identity field dispatches with
`recordId === undefined` and so re-enters the enumerate-all branch
itself — `reenter` is that re-entry (the source recursion is unbounded
there; see `goAll`); its array result is never `null`, so it is kept.
Scalar identities go through `goFull`; `null` expansions are
filtered out. -/
def goAllList (repo : Repo) (type : String) (fuel : Nat)
    (reenter : List String → Option (List Value × List String)) :
    List Value → List String → Option (List Value × List String)
  | [], visited => some ([], visited)
  | record :: rest, visited =>
      match lookupA repo.rpcs type with
      | none => none
      | some rpc =>
          let expanded? :=
            if (record.vGet rpc.foreignKey).isUndef then
              (reenter visited).map (fun r => (Value.vArr r.1, r.2))
            else goFull repo fuel type (record.vGet rpc.foreignKey) visited
          match expanded? with
          | none => none
          | some (expanded, visited') =>
              (goAllList repo type fuel reenter rest visited').map
                (fun r => ((if expanded.isNull then r.1 else expanded :: r.1), r.2))

/-- The `id === undefined` mode of `getFullRelatedData`: map every
record of the type through the full function (sharing the visited set).
A record without its identity field re-enters this very mode on the
full collection — the source recursion is unbounded there, which the
fuel models by decreasing on every re-entry (theorem `C8` shows the
fuel-out `none` is reachable from the wrapper exactly because of it). -/
def goAll (repo : Repo) : Nat → String → List Value → List String →
    Option (List Value × List String)
  | 0, type, records, visited =>
      goAllList repo type 0 (fun _ => none) records visited
  | fuel' + 1, type, records, visited =>
      goAllList repo type (fuel' + 1)
        (fun vis => goAll repo fuel' type (findAll repo type) vis) records visited

/-- `RpcRepository.getFullRelatedData`, with the recursion fuel fixed at
(store size + 1) — sufficient for the present-`id` mode on every
well-formed input, and for the all-records mode when every record
carries its identity field (theorem `C8`). -/
def getFullRelatedData (repo : Repo) (type : String) (id? : Option Value)
    (visited : List String) : Option (Value × List String) :=
  match id? with
  | some id => goFull repo (storeCount repo + 1) type id visited
  | none =>
      (goAll repo (storeCount repo + 1) type (findAll repo type) visited).map
        (fun r => (Value.vArr r.1, r.2))

/-! ## Concrete instances used by the per-claim theorems -/

/-- The empty repository. -/
def emptyRepo : Repo := { rpcs := [], data := [], pending := [] }

/-- A descriptor with identity field `"id"` and no merge path, relations
or renames (the common default). -/
def idRpc : RpcDef := { foreignKey := "id", mergePath := [], relations := [], relatedFields := [] }

/-- A descriptor with identity field `"cell_id"` (as the `"cell"` type of
the repository's own example code) and no merge path. -/
def cellIdRpc : RpcDef :=
  { foreignKey := "cell_id", mergePath := [], relations := [], relatedFields := [] }

/-- A repository with a single registered type `"user"` keyed by `"id"`. -/
def userRepo : Repo := registerRpc emptyRepo "user" idRpc

/-- A repository with a single registered type `"cell"` keyed by `"cell_id"`. -/
def cellRepo : Repo := registerRpc emptyRepo "cell" cellIdRpc

/-- The record `{id: 1, n: "a"}`. -/
def c10Ex : Value := Value.vObj [("id", Value.vNum 1), ("n", Value.vStr "a")]

/-- `userRepo` with `{id: 1, n: "a"}` saved. -/
def c10Repo : Repo := saveCore userRepo "user" idRpc c10Ex

/-- The spec's relation scenario: types `"cell"` (identity `cell_id`) and
`"product"` (identity `id`), with `cell → product` declared `hasMany` via
field `products_ids` / array key `id`, before any record is saved. -/
def c7Repo : Repo :=
  (defineRelationHasMany (registerRpc (registerRpc emptyRepo "cell" cellIdRpc)
      "product" idRpc)
    "cell" "product" "products" "products_ids" "id" "id").getD emptyRepo

/-- The `"cell"` descriptor as `defineRelationHasMany` leaves it in `c7Repo`. -/
def c7CellRpc : RpcDef :=
  { foreignKey := "cell_id"
    mergePath := []
    relations := [("product",
      { targetType := "product"
        relationType := "one-to-many"
        foreignKey := "id"
        localKey := "products_ids"
        arrayKey := "id" })]
    relatedFields := [("product", "products")] }

/-- The product record `{id: 1}`. -/
def c7Product : Value := Value.vObj [("id", Value.vNum 1)]

/-- The cell record `{cell_id: 1, products_ids: [{id: 1}]}`. -/
def c7Cell : Value :=
  Value.vObj [("cell_id", Value.vNum 1),
    ("products_ids", Value.vArr [Value.vObj [("id", Value.vNum 1)]])]

/-- A counterexample setup for the universal relation round-trip claim:
source type `"s"` (identity `sid`) relates `hasMany` to `"t"` (identity
`tid`) via stub field `stubs` / array key `k`; the saved target's
identity is the *falsy* number `0` and the source holds the stub
`{k: 0}`. -/
def c7xRepo : Repo :=
  let base := registerRpc (registerRpc emptyRepo "s"
      { foreignKey := "sid", mergePath := [], relations := [], relatedFields := [] })
    "t" { foreignKey := "tid", mergePath := [], relations := [], relatedFields := [] }
  let withRel := (defineRelationHasMany base "s" "t" "ts" "stubs" "k" "tid").getD emptyRepo
  let withT := (save withRel "t" (Value.vObj [("tid", Value.vNum 0)])).getD emptyRepo
  (save withT "s" (Value.vObj [("sid", Value.vNum 1),
      ("stubs", Value.vArr [Value.vObj [("k", Value.vNum 0)]])])).getD emptyRepo

/-- The (saved) target record `{tid: 0}` of the counterexample. -/
def c7xTarget : Value := Value.vObj [("tid", Value.vNum 0)]

/-- The cell record `{cell_id: 1, a: 1}`. -/
def c2Old : Value := Value.vObj [("cell_id", Value.vNum 1), ("a", Value.vNum 1)]

/-- `cellRepo` with `{cell_id: 1, a: 1}` saved (stored under key `"1"`). -/
def c2Repo : Repo := saveCore cellRepo "cell" cellIdRpc c2Old

/-- The patch `{cell_id: 1, a: 2}` for the mapping-form merge. -/
def c2Patch : Value := Value.vObj [("cell_id", Value.vNum 1), ("a", Value.vNum 2)]

/-- A second cell record `{cell_id: 2, a: 5}`. -/
def c4Old2 : Value := Value.vObj [("cell_id", Value.vNum 2), ("a", Value.vNum 5)]

/-- `cellRepo` with cells 1 and 2 saved. -/
def c4Repo : Repo := saveCore c2Repo "cell" cellIdRpc c4Old2

/-- `userRepo` with `{id: 1}` and `{id: 2}` saved. -/
def c4uRepo : Repo :=
  saveCore (saveCore userRepo "user" idRpc (Value.vObj [("id", Value.vNum 1)]))
    "user" idRpc (Value.vObj [("id", Value.vNum 2)])

/-- The nested `products` array of the repository's own nested-merge
test: two products with their barcode lists. -/
def c9Products : List Value :=
  [Value.vObj [("id", Value.vNum 1),
      ("barcodes", Value.vArr [Value.vObj [("id", Value.vNum 1)],
        Value.vObj [("id", Value.vNum 2)]])],
   Value.vObj [("id", Value.vNum 2),
      ("barcodes", Value.vArr [Value.vObj [("id", Value.vNum 5)]])]]

/-- The fields of the cell record holding `c9Products`. -/
def c9CellFields : List (String × Value) :=
  [("id", Value.vNum 1), ("name", Value.vStr "Cell A"),
   ("products", Value.vArr c9Products)]

/-- The record `{id: "1"}` — a *string* identity, as the server often
sends. -/
def c6Item : Value := Value.vObj [("id", Value.vStr "1")]

/-- The repository state after merging `[{id: "1"}]` into a fresh
`"user"` repository: the stored record's identity was *numerified* to
`{id: 1}` by the synthesis step, and two change events are pending. -/
def c6Repo1 : Repo :=
  { rpcs := [("user", idRpc)]
    data := [("user", [("1", Value.vObj [("id", Value.vNum 1)])])]
    pending := [("user", [Value.vObj [("id", Value.vNum 1)]]),
                ("user", [Value.vObj [("id", Value.vNum 1)]])] }

/-- A self-referential `"node"` descriptor: one-to-many to `"node"`
itself via stub field `children_ids` / array key `id`. -/
def c8NodeRpc : RpcDef :=
  { foreignKey := "id"
    mergePath := []
    relations := [("node",
      { targetType := "node"
        relationType := "one-to-many"
        foreignKey := "id"
        localKey := "children_ids"
        arrayKey := "id" })]
    relatedFields := [("node", "children")] }

/-- The node record `{id: 1, children_ids: [{id: 2}]}`. -/
def c8Node1 : Value :=
  Value.vObj [("id", Value.vNum 1),
    ("children_ids", Value.vArr [Value.vObj [("id", Value.vNum 2)]])]

/-- The node record `{id: 2, children_ids: [{id: 1}]}` — closing the
cycle `1 → 2 → 1`. -/
def c8Node2 : Value :=
  Value.vObj [("id", Value.vNum 2),
    ("children_ids", Value.vArr [Value.vObj [("id", Value.vNum 1)]])]

/-- A repository whose `"node"` instances form a two-node cycle through
the self relation. -/
def c8Repo : Repo :=
  saveCore
    (saveCore { rpcs := [("node", c8NodeRpc)], data := [("node", [])], pending := [] }
      "node" c8NodeRpc c8Node1)
    "node" c8NodeRpc c8Node2

/-- A record with *no* identity field. -/
def c8BadRec : Value := Value.vObj [("n", Value.vStr "a")]

/-- `userRepo` after saving the identity-less record: `save` keys it by
`String(undefined)`, so the store holds `{"undefined": {n:"a"}}` — a
state the public API produces under a permissive validator. -/
def c8BadRepo : Repo := saveCore userRepo "user" idRpc c8BadRec

/-! ## Lemmas about the association-list primitives -/

theorem lookupA_setA_self {α : Type} (l : List (String × α)) (k : String) (v : α) :
    lookupA (setA l k v) k = some v := by
  induction l with
  | nil => simp [setA, lookupA]
  | cons hd tl ih =>
      obtain ⟨k', v'⟩ := hd
      by_cases h : k' = k
      · simp [setA, h, lookupA]
      · simp [setA, h, lookupA, ih]

theorem lookupA_setA_ne {α : Type} (l : List (String × α)) (k k' : String) (v : α)
    (h : k' ≠ k) : lookupA (setA l k v) k' = lookupA l k' := by
  induction l with
  | nil => simp [setA, lookupA, Ne.symm h]
  | cons hd tl ih =>
      obtain ⟨k₀, v₀⟩ := hd
      by_cases hk : k₀ = k
      · subst hk
        have : k₀ ≠ k' := Ne.symm h
        simp [setA, lookupA, this]
      · by_cases hk' : k₀ = k'
        · simp [setA, hk, lookupA, hk', h]
        · simp [setA, hk, lookupA, hk', ih]

theorem setA_of_lookupA {α : Type} {l : List (String × α)} {k : String} {v : α}
    (h : lookupA l k = some v) : setA l k v = l := by
  induction l with
  | nil => simp [lookupA] at h
  | cons hd tl ih =>
      obtain ⟨k', v'⟩ := hd
      by_cases hk : k' = k
      · subst hk
        simp [lookupA] at h
        simp [setA, h]
      · simp [lookupA, hk] at h
        simp [setA, hk, ih h]

theorem mem_of_lookupA {α : Type} {l : List (String × α)} {k : String} {v : α}
    (h : lookupA l k = some v) : (k, v) ∈ l := by
  induction l with
  | nil => simp [lookupA] at h
  | cons hd tl ih =>
      obtain ⟨k', v'⟩ := hd
      by_cases hk : k' = k
      · subst hk
        simp [lookupA] at h
        simp [h]
      · simp [lookupA, hk] at h
        simp [ih h]

theorem lookupA_eq_none_of_forall {α : Type} {l : List (String × α)} {k : String}
    (h : ∀ kv ∈ l, kv.1 ≠ k) : lookupA l k = none := by
  induction l with
  | nil => rfl
  | cons hd tl ih =>
      obtain ⟨k', v'⟩ := hd
      have h1 : k' ≠ k := h (k', v') (by simp)
      simp [lookupA, h1]
      exact ih fun kv hkv => h kv (by simp [hkv])

/-- `emitEvent` only touches the pending queue. -/
theorem emitEvent_data (repo : Repo) (type : String) :
    (emitEvent repo type).data = repo.data := rfl

theorem emitEvent_rpcs (repo : Repo) (type : String) :
    (emitEvent repo type).rpcs = repo.rpcs := rfl

/-- `saveCore` leaves the descriptors untouched. -/
theorem saveCore_rpcs (repo : Repo) (type : String) (rpc : RpcDef) (v : Value) :
    (saveCore repo type rpc v).rpcs = repo.rpcs := rfl

/-- `saveCore` leaves every other type's store untouched. -/
theorem saveCore_data_ne (repo : Repo) (type : String) (rpc : RpcDef) (v : Value)
    (u : String) (h : u ≠ type) :
    lookupA (saveCore repo type rpc v).data u = lookupA repo.data u := by
  simp [saveCore, emitEvent, lookupA_setA_ne _ _ _ _ h]

/-- The store entry written by `saveCore`. -/
theorem saveCore_data_self (repo : Repo) (type : String) (rpc : RpcDef) (v : Value) :
    lookupA (saveCore repo type rpc v).data type =
      some (setA ((lookupA repo.data type).getD [])
        (jsToString (v.vGet rpc.foreignKey)) v) := by
  simp [saveCore, emitEvent, lookupA_setA_self]

/-- The event appended by `saveCore`. -/
theorem saveCore_pending (repo : Repo) (type : String) (rpc : RpcDef) (v : Value) :
    (saveCore repo type rpc v).pending =
      repo.pending ++ [(type, findAll (saveCore repo type rpc v) type)] := by
  simp [saveCore, emitEvent, findAll]

/-- A single-entry mapping enumerates as itself. -/
theorem jsEntriesOrder_singleton {α : Type} (x : String × α) :
    jsEntriesOrder [x] = [x] := by
  by_cases h : isArrayIndex x.1 <;>
    simp [jsEntriesOrder, sortIndexed, insertIndexed, List.filter_cons, h]

/-- A fold of property writes starting from an object stays an object. -/
theorem foldl_vSet_vObj (l : List (String × Value)) (fs : List (String × Value)) :
    ∃ gs, l.foldl (fun acc kv => acc.vSet kv.1 kv.2) (Value.vObj fs) = Value.vObj gs := by
  induction l generalizing fs with
  | nil => exact ⟨fs, rfl⟩
  | cons kv rest ih => simpa [Value.vSet] using ih (setA fs kv.1 kv.2)

/-- An object spread always yields a plain object. -/
theorem objSpread2_isObj (a b : Value) : ∃ fs, Value.objSpread2 a b = Value.vObj fs :=
  foldl_vSet_vObj _ _

/-! ## C10 — `update` keys by the caller's id, not the merged identity -/

/-- C10: for a registered type, `update(type, id, patch)` stores the
shallow-merged, re-validated record under the string form of the caller's
`id` argument, never under the merged record's own identity-field value;
consequently, when the patch changes the identity field (and no record
sits at the new identity's key), `findById` with the new identity returns
`null` while `findById` with the old id returns the changed record. -/
theorem C10_theorem (repo : Repo) (type : String) (id patch : Value) (rpc : RpcDef)
    (ex : Value)
    (hrpc : lookupA repo.rpcs type = some rpc)
    (hex : findById repo type id = some ex)
    (hkey : jsToString ((Value.objSpread2 ex patch).vGet rpc.foreignKey) ≠ jsToString id)
    (hmiss : findById repo type ((Value.objSpread2 ex patch).vGet rpc.foreignKey) = none) :
    ∃ repo',
      update repo type id patch = some (repo', some (Value.objSpread2 ex patch)) ∧
      lookupA ((lookupA repo'.data type).getD []) (jsToString id)
        = some (Value.objSpread2 ex patch) ∧
      findById repo' type id = some (Value.objSpread2 ex patch) ∧
      findById repo' type ((Value.objSpread2 ex patch).vGet rpc.foreignKey) = none := by
  obtain ⟨fs, hobj⟩ := objSpread2_isObj ex patch
  refine ⟨emitEvent { repo with
      data := setA repo.data type
        (setA ((lookupA repo.data type).getD []) (jsToString id)
          (Value.objSpread2 ex patch)) } type, ?_, ?_, ?_, ?_⟩
  · simp only [update, hex, hrpc]
  · simp [emitEvent_data, lookupA_setA_self]
  · simp [findById, emitEvent_data, lookupA_setA_self, hobj, Value.jsTruthy]
  · simp only [findById, emitEvent_data, lookupA_setA_self, Option.getD_some,
      lookupA_setA_ne _ _ _ _ hkey]
    simpa [findById] using hmiss

/-- C10 witness: updating `{id:1, n:"a"}` with the patch `{id:2}` stores
`{id:2, n:"a"}` under the key `"1"`; looking up id `2` finds nothing and
looking up id `1` finds the changed record. -/
theorem C10_witness :
    ∃ repo',
      update c10Repo "user" (Value.vNum 1) (Value.vObj [("id", Value.vNum 2)])
        = some (repo', some (Value.objSpread2 c10Ex (Value.vObj [("id", Value.vNum 2)]))) ∧
      lookupA ((lookupA repo'.data "user").getD []) (jsToString (Value.vNum 1))
        = some (Value.objSpread2 c10Ex (Value.vObj [("id", Value.vNum 2)])) ∧
      findById repo' "user" (Value.vNum 1)
        = some (Value.objSpread2 c10Ex (Value.vObj [("id", Value.vNum 2)])) ∧
      findById repo' "user"
          ((Value.objSpread2 c10Ex (Value.vObj [("id", Value.vNum 2)])).vGet
            idRpc.foreignKey) = none :=
  C10_theorem c10Repo "user" (Value.vNum 1) (Value.vObj [("id", Value.vNum 2)]) idRpc
    c10Ex rfl rfl (by decide) rfl

/-! ## C7 — relation round-trip (`getRelated`) -/

/-- C7 counterexample: with a one-to-many relation whose array key is
`"k"` (not `"id"`), a saved target of identity `0` and a saved source
whose relation field holds the stub `{k: 0}`, `getRelated` returns `[]`,
not the target: the resolver reads `item[arrayKey] || item.id`, and the
falsy stub value `0` falls through to the stub's absent `id` field.  This
refutes the claim for arbitrary declared relations and identities. -/
theorem C7_counterexample :
    (findById c7xRepo "s" (Value.vNum 1)).map (fun r => r.vGet "stubs")
        = some (Value.vArr [Value.vObj [("k", Value.vNum 0)]]) ∧
    findById c7xRepo "t" (Value.vNum 0) = some c7xTarget ∧
    getRelated c7xRepo "s" (Value.vNum 1) "t" = some [] :=
  ⟨rfl, rfl, rfl⟩

/-- C7 (amended): for a declared one-to-many relation via an
array-of-stubs field, saving a target record with *truthy* identity `x`
and then a source record whose relation field contains the single stub
`{arrayKey: x}` makes `getRelated(sourceType, sourceId, targetType)`
return exactly that target record (stubs with falsy array-key values
instead fall back to the stub's `id` field). -/
theorem C7_theorem (repo : Repo) (S T : String) (hST : S ≠ T)
    (srpc trpc : RpcDef) (rel : Relation)
    (hs : lookupA repo.rpcs S = some srpc)
    (ht : lookupA repo.rpcs T = some trpc)
    (hrel : lookupA srpc.relations T = some rel)
    (hkind : rel.relationType = "one-to-many")
    (hKne : rel.arrayKey ≠ "")
    (target source stub : Value)
    (hxt : (target.vGet trpc.foreignKey).jsTruthy = true)
    (hstub : stub.vGet rel.arrayKey = target.vGet trpc.foreignKey)
    (hsource : source.vGet rel.localKey = Value.vArr [stub])
    (hsobj : source.jsTruthy = true)
    (htobj : target.jsTruthy = true) :
    ∃ repo1 repo2,
      save repo T target = some repo1 ∧
      save repo1 S source = some repo2 ∧
      getRelated repo2 S (source.vGet srpc.foreignKey) T = some [target] := by
  refine ⟨saveCore repo T trpc target,
    saveCore (saveCore repo T trpc target) S srpc source, ?_, ?_, ?_⟩
  · simp [save, ht]
  · simp [save, saveCore_rpcs, hs]
  · have hfidS : findById (saveCore (saveCore repo T trpc target) S srpc source) S
        (source.vGet srpc.foreignKey) = some source := by
      simp [findById, saveCore_data_self, lookupA_setA_self, hsobj]
    have hdT : lookupA (saveCore (saveCore repo T trpc target) S srpc source).data T
        = lookupA (saveCore repo T trpc target).data T :=
      saveCore_data_ne _ _ _ _ _ (Ne.symm hST)
    have hfidT : findById (saveCore (saveCore repo T trpc target) S srpc source) T
        (target.vGet trpc.foreignKey) = some target := by
      simp [findById, hdT, saveCore_data_self, lookupA_setA_self, htobj]
    have hrpcs2 : lookupA (saveCore (saveCore repo T trpc target) S srpc source).rpcs S
        = some srpc := by simp [saveCore_rpcs, hs]
    simp [getRelated, hfidS, hrpcs2, hrel, hkind, hsource, orElseStr, hKne, hstub,
      hxt, hfidT]

/-- C7 witness: the spec's concrete scenario — after saving product
`{id:1}` and cell `{cell_id:1, products_ids:[{id:1}]}` with the declared
`cell → product` relation, `getRelated("cell", 1, "product")` returns
exactly `[{id:1}]`. -/
theorem C7_witness :
    ∃ repo1 repo2,
      save c7Repo "product" c7Product = some repo1 ∧
      save repo1 "cell" c7Cell = some repo2 ∧
      getRelated repo2 "cell" (c7Cell.vGet c7CellRpc.foreignKey) "product"
        = some [c7Product] :=
  C7_theorem c7Repo "cell" "product" (by decide) c7CellRpc idRpc
    { targetType := "product", relationType := "one-to-many", foreignKey := "id",
      localKey := "products_ids", arrayKey := "id" }
    rfl rfl rfl rfl (by decide) c7Product c7Cell (Value.vObj [("id", Value.vNum 1)])
    rfl rfl rfl rfl rfl

/-! ## C9 — nested deletion through the merge-path table (`mergeDeep`) -/

/-- C9: for a record with a nested array field `f` whose elements are
addressed via the per-type identity-field table (the resolved array
identity field being `cf`), merging `{f: {"<childKey>": null}}` removes
exactly the first array element whose `cf` field strictly equals the
parsed numeric child key — preserving all sibling elements (`eraseIdx`)
and every other top-level field of the record — and leaves the array
unchanged when no element matches. -/
theorem C9_theorem (m : IdFieldMap) (fs : List (String × Value)) (f ck cf : String)
    (xs : List Value) (n : Int)
    (hfield : lookupA fs f = some (Value.vArr xs))
    (hck : isNumericStr ck = true)
    (hcf : orElseOptStr (getIdFieldForPath m f "")
        (orElseOptStr (getIdFieldForPath m "" "") "id") = cf)
    (hn : jsToNumber ck = Value.vNum n) :
    ∃ xs',
      mergeDeep m (Value.vObj fs) (Value.vObj [(f, Value.vObj [(ck, Value.vNull)])]) ""
        = Value.vObj (setA fs f (Value.vArr xs')) ∧
      ((∃ i, xs.findIdx? (fun it => Value.jsStrictEq (it.vGet cf) (Value.vNum n)) = some i ∧
          xs' = xs.eraseIdx i) ∨
        (xs.findIdx? (fun it => Value.jsStrictEq (it.vGet cf) (Value.vNum n)) = none ∧
          xs' = xs)) ∧
      (∀ g, g ≠ f → lookupA (setA fs f (Value.vArr xs')) g = lookupA fs g) ∧
      lookupA (setA fs f (Value.vArr xs')) f = some (Value.vArr xs') := by
  have hmain : mergeDeep m (Value.vObj fs)
      (Value.vObj [(f, Value.vObj [(ck, Value.vNull)])]) ""
      = Value.vObj (setA fs f (Value.vArr
          (match xs.findIdx? (fun it => Value.jsStrictEq (it.vGet cf) (Value.vNum n)) with
           | some i => xs.eraseIdx i
           | none => xs))) := by
    rw [mergeDeep]
    simp only [Value.ownFields, jsEntriesOrder_singleton]
    rw [mergeFields]
    simp only [Value.isNull, Value.isObj, Value.ownFields, List.isEmpty_cons,
      Bool.not_false, Bool.true_and, List.all_cons, List.all_nil, hck, Bool.and_true,
      Value.vGetRaw, hfield, jsEntriesOrder_singleton]
    rw [mergeFields]
    simp only [if_true, if_false, Bool.false_eq_true, ite_true, ite_false]
    simp only [copyOf, hfield, idFieldAt]
    rw [mergeNumArr, mergeNumArr]
    simp only [Value.isNull, hn, hcf, Value.vSet]
    simp
  refine ⟨_, hmain, ?_, ?_, ?_⟩
  · cases hidx : xs.findIdx? (fun it => Value.jsStrictEq (it.vGet cf) (Value.vNum n)) with
    | none => exact Or.inr ⟨rfl, by simp [hidx]⟩
    | some i => exact Or.inl ⟨i, rfl, by simp [hidx]⟩
  · intro g hg
    exact lookupA_setA_ne _ _ _ _ hg
  · exact lookupA_setA_self _ _ _

/-- C9 witness: merging `{products: {"1": null}}` into the test cell
record removes exactly the product with `id` 1, preserving its sibling
and the other top-level fields. -/
theorem C9_witness :
    ∃ xs',
      mergeDeep [] (Value.vObj c9CellFields)
          (Value.vObj [("products", Value.vObj [("1", Value.vNull)])]) ""
        = Value.vObj (setA c9CellFields "products" (Value.vArr xs')) ∧
      ((∃ i, c9Products.findIdx?
            (fun it => Value.jsStrictEq (it.vGet "id") (Value.vNum 1)) = some i ∧
          xs' = c9Products.eraseIdx i) ∨
        (c9Products.findIdx?
            (fun it => Value.jsStrictEq (it.vGet "id") (Value.vNum 1)) = none ∧
          xs' = c9Products)) ∧
      (∀ g, g ≠ "products" →
        lookupA (setA c9CellFields "products" (Value.vArr xs')) g
          = lookupA c9CellFields g) ∧
      lookupA (setA c9CellFields "products" (Value.vArr xs')) "products"
        = some (Value.vArr xs') :=
  C9_theorem [] c9CellFields "products" "1" "id" c9Products 1 rfl rfl rfl rfl

/-! ## Helper lemmas for the `mergeRpc` claims -/

theorem lookupA_of_mem_nodup {α : Type} {l : List (String × α)} {kv : String × α}
    (h : kv ∈ l) (hnd : (l.map Prod.fst).Nodup) : lookupA l kv.1 = some kv.2 := by
  induction l with
  | nil => cases h
  | cons hd tl ih =>
      simp only [List.map_cons, List.nodup_cons] at hnd
      rcases List.mem_cons.mp h with h | h
      · subst h
        simp [lookupA]
      · have hne : hd.1 ≠ kv.1 := by
          intro he
          exact hnd.1 (he ▸ List.mem_map_of_mem Prod.fst h)
        simp [lookupA, hne, ih h hnd.2]

theorem eq_of_mem_nodup_keys {α : Type} {l : List (String × α)} {kv kv' : String × α}
    (h : kv ∈ l) (h' : kv' ∈ l) (hk : kv.1 = kv'.1)
    (hnd : (l.map Prod.fst).Nodup) : kv = kv' := by
  have h1 := lookupA_of_mem_nodup h hnd
  have h2 := lookupA_of_mem_nodup h' hnd
  rw [hk, h2] at h1
  obtain ⟨a, b⟩ := kv
  obtain ⟨a', b'⟩ := kv'
  simp_all

/-- When at most one element satisfies `p`, removing the element found by
`findIdx?` (if any) is exactly filtering `p` out. -/
theorem eraseIdx_findIdx?_eq_filter {α : Type} (p : α → Bool) (l : List α)
    (hc : l.countP p ≤ 1) :
    (match l.findIdx? p with
     | some i => l.eraseIdx i
     | none => l) = l.filter (fun a => !p a) := by
  induction l with
  | nil => rfl
  | cons a as ih =>
      by_cases hp : p a
      · have h0 : List.findIdx? p (a :: as) = some 0 := by
          simp [List.findIdx?_cons, hp]
        have hcnt : as.countP p = 0 := by
          rw [List.countP_cons, if_pos hp] at hc
          omega
        have hall : ∀ x ∈ as, p x = false := by
          intro x hx
          by_contra hcon
          have : 0 < as.countP p :=
            List.countP_pos_iff.mpr ⟨x, hx, by revert hcon; cases p x <;> simp⟩
          omega
        have hfa : as.filter (fun a => !p a) = as :=
          List.filter_eq_self.mpr (fun x hx => by simp [hall x hx])
        simp [h0, List.filter_cons, hp, hfa]
      · have h1 : List.findIdx? p (a :: as) = (List.findIdx? p as).map (· + 1) := by
          rw [List.findIdx?_cons]
          simp [hp, List.findIdx?_succ]
        have hc' : as.countP p ≤ 1 := by
          rw [List.countP_cons] at hc
          omega
        have := ih hc'
        cases hidx : List.findIdx? p as with
        | none =>
            rw [hidx] at this
            simp at this
            simp [h1, hidx, List.filter_cons, hp]
            exact this
        | some j =>
            rw [hidx] at this
            simp at this
            simp [h1, hidx, List.filter_cons, hp, List.eraseIdx_cons_succ]
            exact this

/-- `w === item[fk]` with an integral number on the record side holds
exactly when `w` is that number. -/
theorem jsStrictEq_vNum_iff (n : Int) (w : Value) :
    Value.jsStrictEq (Value.vNum n) w = true ↔ w = Value.vNum n := by
  cases w <;> first
    | (simp [Value.jsStrictEq]; omega)
    | simp [Value.jsStrictEq]

/-- Integer-well-keyed store maps with `Nodup` keys hold at most one
record whose identity field strictly equals any given value. -/
theorem countP_idMatch_le_one (fk : String) (msto : List (String × Value)) (w : Value)
    (hwk : ∀ kv ∈ msto, ∃ n : Int, kv.2.vGet fk = Value.vNum n ∧ kv.1 = intRepr n)
    (hnd : (msto.map Prod.fst).Nodup) :
    (msto.map Prod.snd).countP (fun item => Value.jsStrictEq (item.vGet fk) w) ≤ 1 := by
  induction msto with
  | nil => simp
  | cons kv rest ih =>
      simp only [List.map_cons, List.nodup_cons] at hnd
      simp only [List.map_cons, List.countP_cons]
      by_cases hp : Value.jsStrictEq (kv.2.vGet fk) w
      · obtain ⟨n, hn, hk⟩ := hwk kv (by simp)
        rw [hn] at hp
        have hw : w = Value.vNum n := (jsStrictEq_vNum_iff n w).mp hp
        have h0 : (rest.map Prod.snd).countP
            (fun item => Value.jsStrictEq (item.vGet fk) w) = 0 := by
          rw [List.countP_eq_zero]
          intro item hitem
          obtain ⟨kv', hkv', hv'⟩ := List.mem_map.mp hitem
          obtain ⟨n', hn', hk'⟩ := hwk kv' (by simp [hkv'])
          subst hv'
          rw [hn', hw]
          simp only [Value.jsStrictEq]
          intro hcon
          have hnn : n' = n := by simpa using hcon
          exact hnd.1 (hk ▸ hnn ▸ hk' ▸ List.mem_map_of_mem Prod.fst hkv')
        simp [h0]
        split <;> omega
      · have := ih (fun kv' h' => hwk kv' (by simp [h'])) hnd.2
        simpa [hp] using this

/-- Re-saving records that are already stored under their own keys
leaves the whole store untouched (each `Map.set` replaces an entry with
itself). -/
theorem saveFold_data_noop (t : String) (rpc : RpcDef) (msto : List (String × Value))
    (items : List Value)
    (hitems : ∀ item ∈ items, ∃ kv ∈ msto,
      item = kv.2 ∧ jsToString (item.vGet rpc.foreignKey) = kv.1)
    (hnd : (msto.map Prod.fst).Nodup) :
    ∀ repo : Repo, lookupA repo.data t = some msto →
      (items.foldl (fun r item =>
        if (item.vGet rpc.foreignKey).isUndef then r else saveCore r t rpc item)
        repo).data = repo.data := by
  induction items with
  | nil => intro repo _; rfl
  | cons item rest ih =>
      intro repo hrepo
      obtain ⟨kv, hkv, hv, hs⟩ := hitems item (by simp)
      have hstep : (if (item.vGet rpc.foreignKey).isUndef then repo
          else saveCore repo t rpc item).data = repo.data := by
        by_cases hu : (item.vGet rpc.foreignKey).isUndef
        · simp [hu]
        · have hlk : lookupA msto kv.1 = some kv.2 := lookupA_of_mem_nodup hkv hnd
          have hset : setA msto kv.1 item = msto := by
            rw [hv]
            exact setA_of_lookupA hlk
          simp only [hu, if_false, Bool.false_eq_true, ite_false, saveCore, emitEvent,
            hrepo, Option.getD_some, hs, hset]
          exact setA_of_lookupA hrepo
      have hrest := ih (fun i hi => hitems i (by simp [hi]))
        (if (item.vGet rpc.foreignKey).isUndef then repo else saveCore repo t rpc item)
        (by rw [hstep]; exact hrepo)
      calc (List.foldl _ repo (item :: rest)).data
          = (List.foldl _ (if (item.vGet rpc.foreignKey).isUndef then repo
              else saveCore repo t rpc item) rest).data := by
                rw [List.foldl_cons]
        _ = repo.data := by rw [hrest, hstep]

/-- Keeping exactly the entries whose key occurs among the keys of a
filtered copy is the same as filtering directly (given `Nodup` keys). -/
theorem filter_contains_keys (msto : List (String × Value)) (q : String × Value → Bool)
    (hnd : (msto.map Prod.fst).Nodup) :
    msto.filter (fun kv => ((msto.filter q).map Prod.fst).contains kv.1)
      = msto.filter q := by
  apply List.filter_congr
  intro kv hkv
  by_cases hq : q kv
  · have : kv.1 ∈ (msto.filter q).map Prod.fst :=
      List.mem_map_of_mem Prod.fst (List.mem_filter.mpr ⟨hkv, hq⟩)
    simp [List.elem_iff, this, hq]
  · have hqf : q kv = false := by revert hq; cases q kv <;> simp
    rw [hqf]
    have hnotin : kv.1 ∉ (msto.filter q).map Prod.fst := by
      intro hmem
      obtain ⟨kv', hkv', hv'⟩ := List.mem_map.mp hmem
      have hkvf := List.mem_filter.mp hkv'
      have heq : kv = kv' := eq_of_mem_nodup_keys hkv hkvf.1 hv'.symm hnd
      rw [heq, hkvf.2] at hqf
      cases hqf
    cases hcon : ((msto.filter q).map Prod.fst).contains kv.1 with
    | false => rfl
    | true => exact absurd (List.elem_iff.mp hcon) hnotin

/-- `mergeArrayDeep` on no updates, by unfolding: the result is the
current list; every record is re-saved; the purge keeps the store keys
occurring among the string forms of the records' root-merge-field
values. -/
theorem mergeArrayDeep_nil (repo : Repo) (t : String) (rpc : RpcDef) :
    mergeArrayDeep repo t rpc [] =
      (findAll repo t,
        { ((findAll repo t).foldl (fun r item =>
            if (item.vGet rpc.foreignKey).isUndef then r else saveCore r t rpc item)
            repo) with
          data := setA ((findAll repo t).foldl (fun r item =>
              if (item.vGet rpc.foreignKey).isUndef then r else saveCore r t rpc item)
              repo).data t
            (((lookupA ((findAll repo t).foldl (fun r item =>
                if (item.vGet rpc.foreignKey).isUndef then r
                else saveCore r t rpc item) repo).data t).getD []).filter (fun kv =>
              ((findAll repo t).map (fun item => jsToString (item.vGet
                (orElseOptStr (getIdFieldForPath rpc.mergePath "" "") "id")))).contains
                kv.1)) }) := rfl

/-- `mergeArrayDeep` by unfolding (naming its intermediate lists). -/
theorem mergeArrayDeep_eq (repo : Repo) (t : String) (rpc : RpcDef)
    (updates : List (String × Option Value)) :
    mergeArrayDeep repo t rpc updates =
      (let result := processUpdates rpc.mergePath
          (orElseOptStr (getIdFieldForPath rpc.mergePath "" "") "id")
          (findAll repo t) (jsEntriesOrder updates)
       let repo1 := result.foldl (fun r item =>
          if (item.vGet rpc.foreignKey).isUndef then r else saveCore r t rpc item) repo
       (result,
        { repo1 with data := (setA repo1.data t
            (((lookupA repo1.data t).getD []).filter (fun kv =>
              (result.map (fun item => jsToString (item.vGet
                (orElseOptStr (getIdFieldForPath rpc.mergePath "" "") "id")))).contains
                kv.1))) })) := rfl

/-- Processing a single `null` update: remove the first element whose
root-merge-field value strictly equals the parsed key, if any. -/
theorem processUpdates_singleton_null (m : IdFieldMap) (mif : String)
    (existing : List Value) (s : String) :
    processUpdates m mif existing [(s, none)] =
      (match existing.findIdx?
          (fun item => Value.jsStrictEq (item.vGet mif) (jsToNumber s)) with
       | some i => existing.eraseIdx i
       | none => existing) := by
  simp only [processUpdates]
  rw [if_pos trivial]

/-- Processing a single non-null update: deep-merge in place at the
first element whose root-merge-field value strictly equals the parsed
key, else prepend `{...patch, [mif]: Number(s)}`. -/
theorem processUpdates_singleton_some (m : IdFieldMap) (mif : String)
    (existing : List Value) (s : String) (p : Value)
    (hp : p.isNull = false) (hpu : p.isUndef = false) :
    processUpdates m mif existing [(s, some p)] =
      (match existing.findIdx?
          (fun item => Value.jsStrictEq (item.vGet mif) (jsToNumber s)) with
       | some i => existing.set i (mergeDeep m (existing.getD i Value.vNull) p "")
       | none => (Value.vObj p.ownFields).vSet mif (jsToNumber s) :: existing) := by
  simp only [processUpdates, hp, hpu, Bool.or_self, Bool.false_eq_true, if_false,
    Option.getD_some]

/-! ## C3 — empty-array merge -/

/-- C3 counterexample: on the type `"cell"` whose declared identity field
is `cell_id` (and whose merge-path table is empty), merging the *empty
array* returns the current list but *wipes the store*: the purge step
keys the result by the root merge field (`"id"`, which the records do not
carry) while the store is keyed by `cell_id`. -/
theorem C3_counterexample :
    findAll c2Repo "cell" = [c2Old] ∧
    (mergeRpc c2Repo "cell" (.arr [])).map (fun pr => (pr.1, findAll pr.2 "cell"))
      = some ([c2Old], []) :=
  ⟨rfl, rfl⟩

/-- C3 (amended): merging an empty array returns the current list
unchanged, and — provided every stored record stringifies to its own
store key under both the declared identity field and the root
merge-path identity field (as holds for types whose declared identity
field is the root merge field, e.g. the default `"id"`) — leaves the
store untouched. -/
theorem C3_theorem (repo : Repo) (t : String) (rpc : RpcDef)
    (msto : List (String × Value))
    (hrpc : lookupA repo.rpcs t = some rpc)
    (hdata : lookupA repo.data t = some msto)
    (hnd : (msto.map Prod.fst).Nodup)
    (hwk : ∀ kv ∈ msto, jsToString (kv.2.vGet rpc.foreignKey) = kv.1)
    (hwk2 : ∀ kv ∈ msto,
      jsToString (kv.2.vGet (orElseOptStr (getIdFieldForPath rpc.mergePath "" "") "id"))
        = kv.1) :
    ∃ res repo', mergeRpc repo t (.arr []) = some (res, repo') ∧
      res = findAll repo t ∧ repo'.data = repo.data := by
  have hfa : findAll repo t = msto.map (fun kv => kv.2) := by
    simp [findAll, hdata]
  have hitems : ∀ item ∈ findAll repo t, ∃ kv ∈ msto,
      item = kv.2 ∧ jsToString (item.vGet rpc.foreignKey) = kv.1 := by
    intro item hitem
    rw [hfa] at hitem
    obtain ⟨kv, hkv, hv⟩ := List.mem_map.mp hitem
    exact ⟨kv, hkv, hv.symm, by rw [← hv]; exact hwk kv hkv⟩
  have hfold := saveFold_data_noop t rpc msto (findAll repo t) hitems hnd repo hdata
  have hids : (findAll repo t).map (fun item => jsToString (item.vGet
      (orElseOptStr (getIdFieldForPath rpc.mergePath "" "") "id")))
      = msto.map Prod.fst := by
    rw [hfa, List.map_map]
    exact List.map_congr_left (fun kv hkv => hwk2 kv hkv)
  have hfilter : msto.filter (fun kv => (msto.map Prod.fst).contains kv.1) = msto :=
    List.filter_eq_self.mpr
      (fun kv hkv => List.elem_iff.mpr (List.mem_map_of_mem Prod.fst hkv))
  refine ⟨(mergeArrayDeep repo t rpc []).1, emitEvent (mergeArrayDeep repo t rpc []).2 t,
    ?_, ?_, ?_⟩
  · simp only [mergeRpc, hrpc]
    rfl
  · rw [mergeArrayDeep_nil]
  · rw [emitEvent_data, mergeArrayDeep_nil]
    simp only [hids, hfold, hdata, Option.getD_some, hfilter]
    exact setA_of_lookupA hdata

/-- C3 witness: a `"user"` store holding `{id:1, n:"a"}`; the empty-array
merge returns `[{id:1, n:"a"}]` and leaves the store untouched. -/
theorem C3_witness :
    ∃ res repo', mergeRpc c10Repo "user" (.arr []) = some (res, repo') ∧
      res = findAll c10Repo "user" ∧ repo'.data = c10Repo.data :=
  C3_theorem c10Repo "user" idRpc [("1", c10Ex)] rfl rfl (by simp)
    (by intro kv hkv; rw [List.mem_singleton] at hkv; subst hkv; rfl)
    (by intro kv hkv; rw [List.mem_singleton] at hkv; subst hkv; rfl)

/-! ## C4 — single-id `null` merge -/

/-- Filtering the values of a store map commutes with projecting them. -/
theorem filter_map_snd (q : Value → Bool) (l : List (String × Value)) :
    (l.map Prod.snd).filter q = (l.filter (fun kv => q kv.2)).map Prod.snd := by
  induction l with
  | nil => rfl
  | cons kv rest ih =>
      simp only [List.map_cons, List.filter_cons]
      cases hq : q kv.2 <;> simp [hq, ih]

/-- The result list of `mergeArrayDeep`, by unfolding. -/
theorem mergeArrayDeep_fst (repo : Repo) (t : String) (rpc : RpcDef)
    (updates : List (String × Option Value)) :
    (mergeArrayDeep repo t rpc updates).1 =
      processUpdates rpc.mergePath
        (orElseOptStr (getIdFieldForPath rpc.mergePath "" "") "id")
        (findAll repo t) (jsEntriesOrder updates) := rfl

/-- The store left by `mergeArrayDeep`, by unfolding: re-save every
result record whose identity field is defined, then keep exactly the
entries of the type's map whose key occurs among the string forms of the
result's root-merge-field values. -/
theorem mergeArrayDeep_data (repo : Repo) (t : String) (rpc : RpcDef)
    (updates : List (String × Option Value)) :
    (mergeArrayDeep repo t rpc updates).2.data =
      setA ((processUpdates rpc.mergePath
          (orElseOptStr (getIdFieldForPath rpc.mergePath "" "") "id")
          (findAll repo t) (jsEntriesOrder updates)).foldl (fun r item =>
            if (item.vGet rpc.foreignKey).isUndef then r else saveCore r t rpc item)
          repo).data t
        (((lookupA ((processUpdates rpc.mergePath
            (orElseOptStr (getIdFieldForPath rpc.mergePath "" "") "id")
            (findAll repo t) (jsEntriesOrder updates)).foldl (fun r item =>
              if (item.vGet rpc.foreignKey).isUndef then r else saveCore r t rpc item)
            repo).data t).getD []).filter (fun kv =>
          ((processUpdates rpc.mergePath
              (orElseOptStr (getIdFieldForPath rpc.mergePath "" "") "id")
              (findAll repo t) (jsEntriesOrder updates)).map (fun item =>
                jsToString (item.vGet
                  (orElseOptStr (getIdFieldForPath rpc.mergePath "" "") "id")))).contains
            kv.1)) := rfl

/-- C4 counterexample: on the type `"cell"` whose declared identity
field is `cell_id` (and whose merge-path table is empty), the mapping
merge `{"999": null}` — an id no cell has — is *not* a no-op: the purge
step keys the surviving result by the root merge field `"id"`, which the
record does not carry, so the whole store is wiped. -/
theorem C4_counterexample :
    findAll c2Repo "cell" = [c2Old] ∧
    (mergeRpc c2Repo "cell" (.obj [("999", none)])).map (fun pr => findAll pr.2 "cell")
      = some [] :=
  ⟨rfl, rfl⟩

/-- C4 (amended): provided the root merge-path identity field agrees
with the declared identity field, and the type's store is
integer-well-keyed with distinct keys, `mergeRpc(T, {"<id>": null})`
removes exactly the record whose identity strictly equals
`Number(id)` — keeping every other record of `T` — and leaves every
other type's store untouched; when no record matches, the filter keeps
everything and the collection is unchanged. -/
theorem C4_theorem (repo : Repo) (t s : String) (rpc : RpcDef)
    (msto : List (String × Value))
    (hrpc : lookupA repo.rpcs t = some rpc)
    (hroot : orElseOptStr (getIdFieldForPath rpc.mergePath "" "") "id" = rpc.foreignKey)
    (hdata : lookupA repo.data t = some msto)
    (hnd : (msto.map Prod.fst).Nodup)
    (hwk : ∀ kv ∈ msto, ∃ n : Int, kv.2.vGet rpc.foreignKey = Value.vNum n ∧
      kv.1 = intRepr n) :
    ∃ res repo', mergeRpc repo t (.obj [(s, none)]) = some (res, repo') ∧
      res = (msto.map Prod.snd).filter
        (fun item => !(Value.jsStrictEq (item.vGet rpc.foreignKey) (jsToNumber s))) ∧
      lookupA repo'.data t = some (msto.filter
        (fun kv => !(Value.jsStrictEq (kv.2.vGet rpc.foreignKey) (jsToNumber s)))) ∧
      ∀ u, u ≠ t → lookupA repo'.data u = lookupA repo.data u := by
  have hfa : findAll repo t = msto.map Prod.snd := by
    simp [findAll, hdata]
  have hcount : (msto.map Prod.snd).countP
      (fun item => Value.jsStrictEq (item.vGet rpc.foreignKey) (jsToNumber s)) ≤ 1 :=
    countP_idMatch_le_one rpc.foreignKey msto (jsToNumber s) hwk hnd
  have hres : processUpdates rpc.mergePath
      (orElseOptStr (getIdFieldForPath rpc.mergePath "" "") "id")
      (findAll repo t) (jsEntriesOrder [(s, none)]) =
      (msto.filter (fun kv => !(Value.jsStrictEq (kv.2.vGet rpc.foreignKey)
        (jsToNumber s)))).map Prod.snd := by
    rw [jsEntriesOrder_singleton, hroot, hfa, processUpdates_singleton_null,
      eraseIdx_findIdx?_eq_filter _ _ hcount]
    exact filter_map_snd _ msto
  have hitems : ∀ item ∈ (msto.filter (fun kv =>
        !(Value.jsStrictEq (kv.2.vGet rpc.foreignKey) (jsToNumber s)))).map Prod.snd,
      ∃ kv ∈ msto, item = kv.2 ∧ jsToString (item.vGet rpc.foreignKey) = kv.1 := by
    intro item hitem
    obtain ⟨kv, hkv, hv⟩ := List.mem_map.mp hitem
    have hkm : kv ∈ msto := List.mem_of_mem_filter hkv
    obtain ⟨n, hn, hk⟩ := hwk kv hkm
    refine ⟨kv, hkm, hv.symm, ?_⟩
    rw [← hv, hn, hk]
    rfl
  have hfold := saveFold_data_noop t rpc msto
    ((msto.filter (fun kv =>
      !(Value.jsStrictEq (kv.2.vGet rpc.foreignKey) (jsToNumber s)))).map Prod.snd)
    hitems hnd repo hdata
  have hids : ((msto.filter (fun kv =>
        !(Value.jsStrictEq (kv.2.vGet rpc.foreignKey) (jsToNumber s)))).map
          Prod.snd).map (fun item => jsToString (item.vGet rpc.foreignKey)) =
      (msto.filter (fun kv =>
        !(Value.jsStrictEq (kv.2.vGet rpc.foreignKey) (jsToNumber s)))).map
          Prod.fst := by
    rw [List.map_map]
    apply List.map_congr_left
    intro kv hkv
    obtain ⟨n, hn, hk⟩ := hwk kv (List.mem_of_mem_filter hkv)
    simp only [Function.comp_apply, hn]
    rw [hk]
    rfl
  refine ⟨(mergeArrayDeep repo t rpc [(s, none)]).1,
    emitEvent (mergeArrayDeep repo t rpc [(s, none)]).2 t, ?_, ?_, ?_, ?_⟩
  · simp only [mergeRpc, hrpc]
  · rw [mergeArrayDeep_fst, hres, filter_map_snd]
  · rw [emitEvent_data, mergeArrayDeep_data, hres, hroot, hfold, hdata,
      Option.getD_some, hids,
      filter_contains_keys msto
        (fun kv => !(Value.jsStrictEq (kv.2.vGet rpc.foreignKey) (jsToNumber s))) hnd]
    exact lookupA_setA_self repo.data t _
  · intro u hu
    rw [emitEvent_data, mergeArrayDeep_data, hres, hfold]
    exact lookupA_setA_ne repo.data t u _ hu

/-- C4 witness: on the `"user"` store holding `{id:1}` and `{id:2}`
(keys `"1"`, `"2"`), merging `{"1": null}` keeps exactly the records
whose identity does not strictly equal `1` and leaves other types'
stores untouched. -/
theorem C4_witness :
    ∃ res repo', mergeRpc c4uRepo "user" (.obj [("1", none)]) = some (res, repo') ∧
      res = (([("1", Value.vObj [("id", Value.vNum 1)]),
        ("2", Value.vObj [("id", Value.vNum 2)])].map Prod.snd).filter
          (fun item => !(Value.jsStrictEq (item.vGet idRpc.foreignKey)
            (jsToNumber "1")))) ∧
      lookupA repo'.data "user" = some ([("1", Value.vObj [("id", Value.vNum 1)]),
        ("2", Value.vObj [("id", Value.vNum 2)])].filter
          (fun kv => !(Value.jsStrictEq (kv.2.vGet idRpc.foreignKey)
            (jsToNumber "1")))) ∧
      ∀ u, u ≠ "user" → lookupA repo'.data u = lookupA c4uRepo.data u :=
  C4_theorem c4uRepo "user" "1" idRpc
    [("1", Value.vObj [("id", Value.vNum 1)]), ("2", Value.vObj [("id", Value.vNum 2)])]
    rfl rfl rfl (by simp)
    (by
      intro kv hkv
      rw [List.mem_cons, List.mem_singleton] at hkv
      rcases hkv with h | h
      · exact h ▸ ⟨1, rfl, rfl⟩
      · exact h ▸ ⟨2, rfl, rfl⟩)

/-! ## C2 — mapping-form lookup field and synthesis -/

/-- C2 counterexample: the type `"cell"` declares identity field
`cell_id` and holds `{cell_id:1, a:1}`; merging the mapping
`{"1": {cell_id:1, a:2}}` does *not* locate the record by its declared
identity field — the code compares the root merge-path field (`"id"`
by default), which the record lacks — so instead of merging, a phantom
record `{cell_id:1, a:2, id:1}` is synthesized and prepended while the
old record survives unmerged. -/
theorem C2_counterexample :
    findAll c2Repo "cell" = [c2Old] ∧
    (mergeRpc c2Repo "cell" (.obj [("1", some c2Patch)])).map Prod.fst
      = some [Value.vObj [("cell_id", Value.vNum 1), ("a", Value.vNum 2),
          ("id", Value.vNum 1)], c2Old] :=
  ⟨rfl, rfl⟩

/-- C2 (amended): in mapping form, the existing record to merge into is
located by comparing the *root merge-path identity field*
(`getIdFieldForPath(idFieldMap, "", "") || "id"`) — not, in general, the
type's declared identity field — numerically against `Number(key)`; a
located record is deep-merged in place, and otherwise a record
synthesized by spreading the patch with that field forced to
`Number(key)` is prepended to the result list. -/
theorem C2_theorem (repo : Repo) (t s : String) (rpc : RpcDef) (p : Value)
    (hrpc : lookupA repo.rpcs t = some rpc)
    (hp : p.isNull = false) (hpu : p.isUndef = false) :
    ∃ repo', mergeRpc repo t (.obj [(s, some p)]) = some (
      (match (findAll repo t).findIdx?
          (fun item => Value.jsStrictEq
            (item.vGet (orElseOptStr (getIdFieldForPath rpc.mergePath "" "") "id"))
            (jsToNumber s)) with
       | some i => (findAll repo t).set i
           (mergeDeep rpc.mergePath ((findAll repo t).getD i Value.vNull) p "")
       | none => (Value.vObj p.ownFields).vSet
           (orElseOptStr (getIdFieldForPath rpc.mergePath "" "") "id")
           (jsToNumber s) :: findAll repo t), repo') := by
  refine ⟨emitEvent (mergeArrayDeep repo t rpc [(s, some p)]).2 t, ?_⟩
  simp only [mergeRpc, hrpc]
  rw [mergeArrayDeep_fst, jsEntriesOrder_singleton,
    processUpdates_singleton_some _ _ _ _ _ hp hpu]

/-- C2 witness: the counterexample scenario through the amended theorem —
on the `"cell"` store holding `{cell_id:1, a:1}`, merging
`{"1": {cell_id:1, a:2}}` locates by the root merge field and, finding
no match, prepends the synthesized record. -/
theorem C2_witness :
    ∃ repo', mergeRpc c2Repo "cell" (.obj [("1", some c2Patch)]) = some (
      (match (findAll c2Repo "cell").findIdx?
          (fun item => Value.jsStrictEq
            (item.vGet (orElseOptStr (getIdFieldForPath cellIdRpc.mergePath "" "") "id"))
            (jsToNumber "1")) with
       | some i => (findAll c2Repo "cell").set i
           (mergeDeep cellIdRpc.mergePath ((findAll c2Repo "cell").getD i Value.vNull)
             c2Patch "")
       | none => (Value.vObj c2Patch.ownFields).vSet
           (orElseOptStr (getIdFieldForPath cellIdRpc.mergePath "" "") "id")
           (jsToNumber "1") :: findAll c2Repo "cell"), repo') :=
  C2_theorem c2Repo "cell" "1" cellIdRpc c2Patch rfl rfl rfl

/-! ## C1 — flush granularity and payloads -/

/-- An unfiltered listener receives the whole pending queue. -/
theorem flushDeliver_none (pending : List Event) :
    flushDeliver pending none = pending :=
  List.filter_eq_self.mpr (fun _ _ => rfl)

theorem eventsFor_append (T : String) (l1 l2 : List Event) :
    eventsFor T (l1 ++ l2) = eventsFor T l1 ++ eventsFor T l2 := by
  induction l1 with
  | nil => rfl
  | cons e rest ih =>
      obtain ⟨t, p⟩ := e
      by_cases h : t = T <;> simp [eventsFor, h, ih]

theorem eventsFor_single_eq (t : String) (p : List Value) :
    eventsFor t [(t, p)] = [p] := by
  simp [eventsFor]

theorem eventsFor_single_ne (T t : String) (p : List Value) (h : t ≠ T) :
    eventsFor T [(t, p)] = [] := by
  simp [eventsFor, h]

theorem eventsFor_of_all_eq (T t : String) (l : List Event)
    (hl : ∀ e ∈ l, e.1 = t) (h : t ≠ T) : eventsFor T l = [] := by
  induction l with
  | nil => rfl
  | cons e rest ih =>
      obtain ⟨t', p⟩ := e
      have ht' : t' = t := hl (t', p) (by simp)
      subst ht'
      simp only [eventsFor, if_neg h]
      exact ih (fun e he => hl e (by simp [he]))

theorem getLast?_app_single {α : Type} (l : List α) (a : α) :
    (l ++ [a]).getLast? = some a := by
  induction l with
  | nil => rfl
  | cons x xs ih =>
      cases xs with
      | nil => rfl
      | cons y ys =>
          simp only [List.cons_append] at ih ⊢
          rw [List.getLast?_cons_cons]
          exact ih

/-- Equal stores give equal collections. -/
theorem findAll_congr (r1 r2 : Repo) (T : String)
    (h : lookupA r1.data T = lookupA r2.data T) : findAll r1 T = findAll r2 T := by
  simp [findAll, h]

/-- A successful `save` is a `saveCore` on the looked-up descriptor. -/
theorem save_shape (repo repo' : Repo) (t : String) (v : Value)
    (h : save repo t v = some repo') :
    ∃ rpc, lookupA repo.rpcs t = some rpc ∧ repo' = saveCore repo t rpc v := by
  unfold save at h
  cases hl : lookupA repo.rpcs t with
  | none => rw [hl] at h; cases h
  | some rpc =>
      rw [hl] at h
      exact ⟨rpc, rfl, (Option.some.injEq _ _ ▸ h).symm⟩

/-- A successful `mergeRpc` runs `mergeArrayDeep` on the looked-up
descriptor (with array input normalized) and emits one final event. -/
theorem mergeRpc_shape (repo : Repo) (t : String) (tgt : MergeTarget)
    (pr : List Value × Repo) (h : mergeRpc repo t tgt = some pr) :
    ∃ rpc updates, lookupA repo.rpcs t = some rpc ∧
      pr = ((mergeArrayDeep repo t rpc updates).1,
        emitEvent (mergeArrayDeep repo t rpc updates).2 t) := by
  unfold mergeRpc at h
  cases hl : lookupA repo.rpcs t with
  | none => rw [hl] at h; cases h
  | some rpc =>
      rw [hl] at h
      cases tgt with
      | arr xs =>
          exact ⟨rpc, arrayToRecord rpc xs, rfl, (Option.some.injEq _ _ ▸ h).symm⟩
      | obj es =>
          exact ⟨rpc, es, rfl, (Option.some.injEq _ _ ▸ h).symm⟩

/-- The pending queue after `mergeArrayDeep`'s re-save fold, by
unfolding (the purge step only touches `data`). -/
theorem mergeArrayDeep_pending (repo : Repo) (t : String) (rpc : RpcDef)
    (updates : List (String × Option Value)) :
    (mergeArrayDeep repo t rpc updates).2.pending =
      ((processUpdates rpc.mergePath
          (orElseOptStr (getIdFieldForPath rpc.mergePath "" "") "id")
          (findAll repo t) (jsEntriesOrder updates)).foldl (fun r item =>
            if (item.vGet rpc.foreignKey).isUndef then r else saveCore r t rpc item)
          repo).pending := rfl

/-- The re-save fold of `mergeArrayDeep` only appends events, all of the
merged type. -/
theorem saveFold_pending (t : String) (rpc : RpcDef) (items : List Value) :
    ∀ repo : Repo, ∃ tail,
      (items.foldl (fun r item =>
        if (item.vGet rpc.foreignKey).isUndef then r else saveCore r t rpc item)
        repo).pending = repo.pending ++ tail ∧ ∀ e ∈ tail, e.1 = t := by
  induction items with
  | nil => exact fun repo => ⟨[], by simp, by simp⟩
  | cons item rest ih =>
      intro repo
      obtain ⟨tail, htail, hty⟩ :=
        ih (if (item.vGet rpc.foreignKey).isUndef then repo else saveCore repo t rpc item)
      by_cases hu : (item.vGet rpc.foreignKey).isUndef
      · refine ⟨tail, ?_, hty⟩
        rw [List.foldl_cons]
        simp only [hu, if_true] at htail ⊢
        exact htail
      · refine ⟨(t, findAll (saveCore repo t rpc item) t) :: tail, ?_, ?_⟩
        · rw [List.foldl_cons]
          simp only [hu, if_false, Bool.false_eq_true, ite_false] at htail ⊢
          rw [htail, saveCore_pending]
          simp
        · intro e he
          rcases List.mem_cons.mp he with h | h
          · rw [h]
          · exact hty e h

/-- The re-save fold of `mergeArrayDeep` leaves every other type's store
untouched. -/
theorem saveFold_data_ne (t : String) (rpc : RpcDef) (items : List Value) :
    ∀ (repo : Repo) (u : String), u ≠ t →
      lookupA ((items.foldl (fun r item =>
        if (item.vGet rpc.foreignKey).isUndef then r else saveCore r t rpc item)
        repo).data) u = lookupA repo.data u := by
  induction items with
  | nil => exact fun repo u _ => rfl
  | cons item rest ih =>
      intro repo u hu
      rw [List.foldl_cons]
      rw [ih _ u hu]
      by_cases h : (item.vGet rpc.foreignKey).isUndef
      · simp [h]
      · simp only [h, if_false, Bool.false_eq_true, ite_false]
        exact saveCore_data_ne repo t rpc item u hu

/-- One mutation step (`save` or `mergeRpc`) preserves the property
that each type's last pending event (if any) carries the type's current
full collection. -/
theorem runOp_preserves_lastEvent (repo repo' : Repo) (op : Op)
    (hop : op.isSaveOrMerge = true) (hrun : runOp repo op = some repo')
    (hP : ∀ T, eventsFor T repo.pending = [] ∨
      (eventsFor T repo.pending).getLast? = some (findAll repo T)) :
    ∀ T, eventsFor T repo'.pending = [] ∨
      (eventsFor T repo'.pending).getLast? = some (findAll repo' T) := by
  cases op with
  | opUpdate t id p => cases hop
  | opRemove t id => cases hop
  | opSave t v =>
      obtain ⟨rpc, hl, hrepo'⟩ := save_shape repo repo' t v hrun
      subst hrepo'
      intro T
      by_cases hT : T = t
      · subst hT
        right
        rw [saveCore_pending, eventsFor_append, eventsFor_single_eq,
          getLast?_app_single]
      · have hfa : findAll (saveCore repo t rpc v) T = findAll repo T :=
          findAll_congr _ _ T (saveCore_data_ne repo t rpc v T hT)
        rw [saveCore_pending, eventsFor_append,
          eventsFor_single_ne T t _ (fun h => hT h.symm), List.append_nil, hfa]
        exact hP T
  | opMerge t tgt =>
      have hrun' : (mergeRpc repo t tgt).map (fun r => r.2) = some repo' := hrun
      cases hpr : mergeRpc repo t tgt with
      | none => rw [hpr] at hrun'; cases hrun'
      | some pr =>
      rw [hpr] at hrun'
      obtain ⟨rpc, updates, hl, hshape⟩ := mergeRpc_shape repo t tgt pr hpr
      rw [hshape] at hrun'
      have hrepo' : repo' = emitEvent (mergeArrayDeep repo t rpc updates).2 t := by
        simpa using hrun'.symm
      subst hrepo'
      intro T
      obtain ⟨tail, htail, hty⟩ := saveFold_pending t rpc
        (processUpdates rpc.mergePath
          (orElseOptStr (getIdFieldForPath rpc.mergePath "" "") "id")
          (findAll repo t) (jsEntriesOrder updates)) repo
      have hpend : (emitEvent (mergeArrayDeep repo t rpc updates).2 t).pending =
          repo.pending ++ tail ++
            [(t, findAll (mergeArrayDeep repo t rpc updates).2 t)] := by
        show (mergeArrayDeep repo t rpc updates).2.pending ++ _ = _
        rw [mergeArrayDeep_pending, htail]
      have hfaemit : ∀ U, findAll (emitEvent (mergeArrayDeep repo t rpc updates).2 t) U
          = findAll (mergeArrayDeep repo t rpc updates).2 U :=
        fun U => findAll_congr _ _ U (by rw [emitEvent_data])
      by_cases hT : T = t
      · subst hT
        right
        rw [hpend, eventsFor_append, eventsFor_single_eq, getLast?_app_single, hfaemit]
      · have hfmd : findAll (mergeArrayDeep repo t rpc updates).2 T = findAll repo T := by
          apply findAll_congr
          rw [mergeArrayDeep_data]
          rw [lookupA_setA_ne _ _ _ _ hT]
          exact saveFold_data_ne t rpc _ repo T hT
        rw [hpend, eventsFor_append, eventsFor_append,
          eventsFor_single_ne T t _ (fun h => hT h.symm), List.append_nil,
          eventsFor_of_all_eq T t tail hty (fun h => hT h.symm), List.append_nil,
          hfaemit, hfmd]
        exact hP T

/-- C1 counterexample: two saves to the same type within one turn leave
*two* pending events for that type — the deferred flush delivers both to
an unfiltered listener (no per-type coalescing), and the first payload
is the intermediate, not the final, collection; moreover a single
`mergeRpc` call (here: merging the empty array over one stored record)
appends *two* events (one per re-saved record plus the final one), not
one. -/
theorem C1_counterexample :
    (flushDeliver c4uRepo.pending none).length = 2 ∧
    eventsFor "user" c4uRepo.pending =
      [[Value.vObj [("id", Value.vNum 1)]],
       [Value.vObj [("id", Value.vNum 1)], Value.vObj [("id", Value.vNum 2)]]] ∧
    findAll c4uRepo "user" =
      [Value.vObj [("id", Value.vNum 1)], Value.vObj [("id", Value.vNum 2)]] ∧
    c10Repo.pending.length = 1 ∧
    (mergeRpc c10Repo "user" (.arr [])).map (fun pr => pr.2.pending.length) = some 3 :=
  ⟨rfl, rfl, rfl, rfl, rfl⟩

/-- C1 (amended): after any successful sequence of `save`/`mergeRpc`
mutations started from an empty pending queue, the deferred flush
delivers to an unfiltered listener *every* pending event — one per
emission, in call order, with no per-type coalescing — and for each
type with at least one pending event, the *last* such event's payload
equals the type's final post-mutation collection (earlier events carry
intermediate snapshots). -/
theorem C1_theorem (ops : List Op) (repo0 repo : Repo)
    (hops : ∀ op ∈ ops, op.isSaveOrMerge = true)
    (hpend : repo0.pending = [])
    (hrun : runOps repo0 ops = some repo) :
    flushDeliver repo.pending none = repo.pending ∧
    ∀ T, eventsFor T repo.pending = [] ∨
      (eventsFor T repo.pending).getLast? = some (findAll repo T) := by
  refine ⟨flushDeliver_none repo.pending, ?_⟩
  have hP0 : ∀ T, eventsFor T repo0.pending = [] ∨
      (eventsFor T repo0.pending).getLast? = some (findAll repo0 T) := by
    intro T
    left
    rw [hpend]
    rfl
  clear hpend
  induction ops generalizing repo0 with
  | nil =>
      simp only [runOps, Option.some.injEq] at hrun
      subst hrun
      exact hP0
  | cons op rest ih =>
      simp only [runOps] at hrun
      cases hstep : runOp repo0 op with
      | none => rw [hstep] at hrun; cases hrun
      | some repo1 =>
          rw [hstep] at hrun
          exact ih repo1 (fun o ho => hops o (List.mem_cons_of_mem op ho)) hrun
            (runOp_preserves_lastEvent repo0 repo1 op
              (hops op (List.mem_cons_self op rest)) hstep hP0)

/-- C1 witness: the two-save sequence `[{id:1}, {id:2}]` on the `"user"`
type — the flush delivers the whole queue and the last `"user"` event
carries the final two-record collection. -/
theorem C1_witness :
    flushDeliver c4uRepo.pending none = c4uRepo.pending ∧
    ∀ T, eventsFor T c4uRepo.pending = [] ∨
      (eventsFor T c4uRepo.pending).getLast? = some (findAll c4uRepo T) :=
  C1_theorem
    [Op.opSave "user" (Value.vObj [("id", Value.vNum 1)]),
     Op.opSave "user" (Value.vObj [("id", Value.vNum 2)])]
    userRepo c4uRepo
    (by
      intro op hop
      rw [List.mem_cons, List.mem_singleton] at hop
      rcases hop with h | h
      · rw [h]; rfl
      · rw [h]; rfl)
    rfl rfl

/-! ## C5 — identity uniqueness across save/merge sequences -/

/-- Strict equality in the model is only true on equal scalar values. -/
theorem jsStrictEq_eq {x y : Value} (h : Value.jsStrictEq x y = true) : x = y := by
  cases x <;> cases y <;> simp_all [Value.jsStrictEq]

/-- An entry of `setA l k v` is the written pair or an original entry. -/
theorem mem_setA {α : Type} {l : List (String × α)} {k : String} {v : α}
    {kv : String × α} (h : kv ∈ setA l k v) : kv = (k, v) ∨ kv ∈ l := by
  induction l with
  | nil => simpa [setA] using h
  | cons hd tl ih =>
      obtain ⟨k', v'⟩ := hd
      by_cases hk : k' = k
      · simp only [setA, hk, if_true] at h
        rcases List.mem_cons.mp h with h | h
        · exact Or.inl h
        · exact Or.inr (List.mem_cons_of_mem _ h)
      · simp only [setA, hk, if_false] at h
        rcases List.mem_cons.mp h with h | h
        · exact Or.inr (h ▸ List.mem_cons_self _ _)
        · rcases ih h with h' | h'
          · exact Or.inl h'
          · exact Or.inr (List.mem_cons_of_mem _ h')

/-- `setA` preserves distinctness of keys. -/
theorem nodup_keys_setA {α : Type} (l : List (String × α)) (k : String) (v : α)
    (hnd : (l.map Prod.fst).Nodup) : ((setA l k v).map Prod.fst).Nodup := by
  induction l with
  | nil => simp [setA]
  | cons hd tl ih =>
      obtain ⟨k', v'⟩ := hd
      simp only [List.map_cons, List.nodup_cons] at hnd
      by_cases hk : k' = k
      · subst hk
        simp only [setA, if_true, List.map_cons, List.nodup_cons]
        exact ⟨hnd.1, hnd.2⟩
      · simp only [setA, hk, if_false, List.map_cons, List.nodup_cons]
        refine ⟨?_, ih hnd.2⟩
        intro hmem
        obtain ⟨kv, hkv, hfst⟩ := List.mem_map.mp hmem
        rcases mem_setA hkv with h | h
        · rw [h] at hfst
          exact hk hfst.symm
        · exact hnd.1 (hfst ▸ List.mem_map_of_mem Prod.fst h)

/-- A well-keyed store map with distinct keys holds at most one record
whose identity field strictly equals any given value. -/
theorem wellKeyed_count_le_one (fk : String) (msto : List (String × Value)) (w : Value)
    (hwk : ∀ kv ∈ msto, kv.1 = jsToString (kv.2.vGet fk))
    (hnd : (msto.map Prod.fst).Nodup) :
    (msto.map Prod.snd).countP (fun r => Value.jsStrictEq (r.vGet fk) w) ≤ 1 := by
  induction msto with
  | nil => simp
  | cons kv rest ih =>
      simp only [List.map_cons, List.nodup_cons] at hnd
      simp only [List.map_cons, List.countP_cons]
      by_cases hp : Value.jsStrictEq (kv.2.vGet fk) w
      · have hkw : kv.2.vGet fk = w := jsStrictEq_eq hp
        have h0 : (rest.map Prod.snd).countP
            (fun r => Value.jsStrictEq (r.vGet fk) w) = 0 := by
          rw [List.countP_eq_zero]
          intro r hr
          obtain ⟨kv', hkv', hv'⟩ := List.mem_map.mp hr
          subst hv'
          intro hcon
          have h2 : kv'.2.vGet fk = w := jsStrictEq_eq hcon
          have hkeys : kv.1 = kv'.1 := by
            rw [hwk kv (by simp), hwk kv' (by simp [hkv']), hkw, h2]
          exact hnd.1 (hkeys ▸ List.mem_map_of_mem Prod.fst hkv')
        simp [h0]
        split <;> omega
      · have := ih (fun kv' h' => hwk kv' (by simp [h'])) hnd.2
        simpa [hp] using this

/-- The re-save fold of `mergeArrayDeep` preserves well-keyedness and
key distinctness of the merged type's store map. -/
theorem saveFold_wk (t : String) (rpc : RpcDef) (items : List Value) :
    ∀ repo : Repo,
      (∀ kv ∈ (lookupA repo.data t).getD ([] : List (String × Value)),
        kv.1 = jsToString (kv.2.vGet rpc.foreignKey)) →
      ((((lookupA repo.data t).getD []).map Prod.fst).Nodup) →
      (∀ kv ∈ (lookupA ((items.foldl (fun r item =>
          if (item.vGet rpc.foreignKey).isUndef then r else saveCore r t rpc item)
          repo).data) t).getD ([] : List (String × Value)),
        kv.1 = jsToString (kv.2.vGet rpc.foreignKey)) ∧
      ((((lookupA ((items.foldl (fun r item =>
          if (item.vGet rpc.foreignKey).isUndef then r else saveCore r t rpc item)
          repo).data) t).getD []).map Prod.fst).Nodup) := by
  induction items with
  | nil => exact fun repo hwk hnd => ⟨hwk, hnd⟩
  | cons item rest ih =>
      intro repo hwk hnd
      rw [List.foldl_cons]
      by_cases hu : (item.vGet rpc.foreignKey).isUndef
      · simp only [hu, if_true]
        exact ih repo hwk hnd
      · simp only [hu, if_false, Bool.false_eq_true, ite_false]
        apply ih
        · rw [saveCore_data_self]
          simp only [Option.getD_some]
          intro kv hkv
          rcases mem_setA hkv with h | h
          · rw [h]
          · exact hwk kv h
        · rw [saveCore_data_self]
          simp only [Option.getD_some]
          exact nodup_keys_setA _ _ _ hnd

/-- The re-save fold leaves the registered descriptors untouched. -/
theorem saveFold_rpcs (t : String) (rpc : RpcDef) (items : List Value) :
    ∀ repo : Repo, (items.foldl (fun r item =>
      if (item.vGet rpc.foreignKey).isUndef then r else saveCore r t rpc item)
      repo).rpcs = repo.rpcs := by
  induction items with
  | nil => exact fun _ => rfl
  | cons item rest ih =>
      intro repo
      rw [List.foldl_cons, ih]
      by_cases hu : (item.vGet rpc.foreignKey).isUndef
      · simp [hu]
      · simp only [hu, if_false, Bool.false_eq_true, ite_false]
        exact saveCore_rpcs repo t rpc item

/-- `mergeArrayDeep` leaves the registered descriptors untouched. -/
theorem mergeArrayDeep_rpcs (repo : Repo) (t : String) (rpc : RpcDef)
    (updates : List (String × Option Value)) :
    (mergeArrayDeep repo t rpc updates).2.rpcs = repo.rpcs := by
  show ((processUpdates rpc.mergePath
      (orElseOptStr (getIdFieldForPath rpc.mergePath "" "") "id")
      (findAll repo t) (jsEntriesOrder updates)).foldl (fun r item =>
        if (item.vGet rpc.foreignKey).isUndef then r else saveCore r t rpc item)
      repo).rpcs = repo.rpcs
  exact saveFold_rpcs t rpc _ repo

/-- One `save`/`mergeRpc` step preserves well-keyedness and key
distinctness of every registered type's store map. -/
theorem runOp_preserves_wellKeyed (repo repo' : Repo) (op : Op)
    (hop : op.isSaveOrMerge = true) (hrun : runOp repo op = some repo')
    (hWK : ∀ u rpc, lookupA repo.rpcs u = some rpc →
      (∀ kv ∈ (lookupA repo.data u).getD ([] : List (String × Value)),
        kv.1 = jsToString (kv.2.vGet rpc.foreignKey)) ∧
      ((((lookupA repo.data u).getD []).map Prod.fst).Nodup)) :
    ∀ u rpc, lookupA repo'.rpcs u = some rpc →
      (∀ kv ∈ (lookupA repo'.data u).getD ([] : List (String × Value)),
        kv.1 = jsToString (kv.2.vGet rpc.foreignKey)) ∧
      ((((lookupA repo'.data u).getD []).map Prod.fst).Nodup) := by
  cases op with
  | opUpdate t id p => cases hop
  | opRemove t id => cases hop
  | opSave t v =>
      obtain ⟨rpc0, hl, hrepo'⟩ := save_shape repo repo' t v hrun
      subst hrepo'
      intro u rpc hru
      rw [saveCore_rpcs] at hru
      by_cases hu : u = t
      · subst hu
        have hr0 : rpc0 = rpc := by
          rw [hl] at hru
          exact Option.some.inj hru
        subst hr0
        rw [saveCore_data_self]
        simp only [Option.getD_some]
        obtain ⟨hwk0, hnd0⟩ := hWK u rpc0 hru
        refine ⟨?_, nodup_keys_setA _ _ _ hnd0⟩
        intro kv hkv
        rcases mem_setA hkv with h | h
        · rw [h]
        · exact hwk0 kv h
      · rw [saveCore_data_ne repo t rpc0 v u hu]
        exact hWK u rpc hru
  | opMerge t tgt =>
      have hrun' : (mergeRpc repo t tgt).map (fun r => r.2) = some repo' := hrun
      cases hpr : mergeRpc repo t tgt with
      | none => rw [hpr] at hrun'; cases hrun'
      | some pr =>
      rw [hpr] at hrun'
      obtain ⟨rpc0, updates, hl, hshape⟩ := mergeRpc_shape repo t tgt pr hpr
      rw [hshape] at hrun'
      have hrepo' : repo' = emitEvent (mergeArrayDeep repo t rpc0 updates).2 t := by
        simpa using hrun'.symm
      subst hrepo'
      intro u rpc hru
      rw [emitEvent_rpcs, mergeArrayDeep_rpcs] at hru
      rw [emitEvent_data]
      by_cases hu : u = t
      · subst hu
        have hr0 : rpc0 = rpc := by
          rw [hl] at hru
          exact Option.some.inj hru
        subst hr0
        rw [mergeArrayDeep_data, lookupA_setA_self]
        simp only [Option.getD_some]
        obtain ⟨hwk0, hnd0⟩ := hWK u rpc0 hru
        obtain ⟨hwk1, hnd1⟩ := saveFold_wk u rpc0
          (processUpdates rpc0.mergePath
            (orElseOptStr (getIdFieldForPath rpc0.mergePath "" "") "id")
            (findAll repo u) (jsEntriesOrder updates)) repo hwk0 hnd0
        refine ⟨?_, ?_⟩
        · intro kv hkv
          exact hwk1 kv (List.mem_of_mem_filter hkv)
        · exact List.Nodup.sublist
            (List.Sublist.map Prod.fst (List.filter_sublist _)) hnd1
      · rw [mergeArrayDeep_data, lookupA_setA_ne _ _ _ _ hu,
          saveFold_data_ne t rpc0 _ repo u hu]
        exact hWK u rpc hru

/-- C5: after any successful sequence of `save`/`mergeRpc` calls started
from a well-keyed repository (every store entry keyed by the string form
of its record's identity-field value, keys distinct — as holds for a
freshly registered repository), every registered type's collection holds
at most one record whose identity field strictly equals any given
value. -/
theorem C5_theorem (ops : List Op) (repo0 repo : Repo)
    (hops : ∀ op ∈ ops, op.isSaveOrMerge = true)
    (hrun : runOps repo0 ops = some repo)
    (hWK0 : ∀ u rpc, lookupA repo0.rpcs u = some rpc →
      (∀ kv ∈ (lookupA repo0.data u).getD ([] : List (String × Value)),
        kv.1 = jsToString (kv.2.vGet rpc.foreignKey)) ∧
      ((((lookupA repo0.data u).getD []).map Prod.fst).Nodup)) :
    ∀ t rpc w, lookupA repo.rpcs t = some rpc →
      (findAll repo t).countP
        (fun r => Value.jsStrictEq (r.vGet rpc.foreignKey) w) ≤ 1 := by
  have hWK : ∀ u rpc, lookupA repo.rpcs u = some rpc →
      (∀ kv ∈ (lookupA repo.data u).getD ([] : List (String × Value)),
        kv.1 = jsToString (kv.2.vGet rpc.foreignKey)) ∧
      ((((lookupA repo.data u).getD []).map Prod.fst).Nodup) := by
    induction ops generalizing repo0 with
    | nil =>
        simp only [runOps, Option.some.injEq] at hrun
        subst hrun
        exact hWK0
    | cons op rest ih =>
        simp only [runOps] at hrun
        cases hstep : runOp repo0 op with
        | none => rw [hstep] at hrun; cases hrun
        | some repo1 =>
            rw [hstep] at hrun
            exact ih repo1 (fun o ho => hops o (List.mem_cons_of_mem op ho)) hrun
              (runOp_preserves_wellKeyed repo0 repo1 op
                (hops op (List.mem_cons_self op rest)) hstep hWK0)
  intro t rpc w hrt
  obtain ⟨hwk, hnd⟩ := hWK t rpc hrt
  have hfa : findAll repo t = ((lookupA repo.data t).getD []).map Prod.snd := rfl
  rw [hfa]
  exact wellKeyed_count_le_one rpc.foreignKey _ w hwk hnd

/-- C5 witness: after saving `{id:1}` then `{id:2}` on a fresh `"user"`
repository, the `"user"` collection holds at most one record whose
identity strictly equals `1`. -/
theorem C5_witness :
    (findAll c4uRepo "user").countP
      (fun r => Value.jsStrictEq (r.vGet idRpc.foreignKey) (Value.vNum 1)) ≤ 1 :=
  C5_theorem
    [Op.opSave "user" (Value.vObj [("id", Value.vNum 1)]),
     Op.opSave "user" (Value.vObj [("id", Value.vNum 2)])]
    userRepo c4uRepo
    (by
      intro op hop
      rw [List.mem_cons, List.mem_singleton] at hop
      rcases hop with h | h
      · rw [h]; rfl
      · rw [h]; rfl)
    rfl
    (by
      intro u rpc _
      by_cases h : u = "user"
      · subst h
        exact ⟨fun kv hkv => absurd hkv (List.not_mem_nil kv), List.nodup_nil⟩
      · have hn : lookupA userRepo.data u = none := by
          show (if "user" = u then some ([] : List (String × Value)) else none) = none
          rw [if_neg (Ne.symm h)]
        rw [hn]
        exact ⟨fun kv hkv => absurd hkv (List.not_mem_nil kv), List.nodup_nil⟩)
    "user" idRpc (Value.vNum 1) rfl

/-! ## C8 — termination and cycle guard of `getFullRelatedData` -/

/-- Filtering with a stronger predicate keeps at most as many elements. -/
theorem length_filter_mono {α : Type} (l : List α) (p q : α → Bool)
    (h : ∀ x ∈ l, p x = true → q x = true) :
    (l.filter p).length ≤ (l.filter q).length := by
  induction l with
  | nil => exact Nat.le_refl 0
  | cons a l' ih =>
      have ih' := ih (fun x hx => h x (List.mem_cons_of_mem a hx))
      by_cases hp : p a
      · rw [List.filter_cons, if_pos hp, List.filter_cons,
          if_pos (h a (List.mem_cons_self a l') hp)]
        exact Nat.succ_le_succ ih'
      · rw [List.filter_cons, if_neg hp, List.filter_cons]
        by_cases hq : q a
        · rw [if_pos hq]
          exact Nat.le_succ_of_le ih'
        · rw [if_neg hq]
          exact ih'

/-- The filtered count drops strictly when a witnessed element passes
the weaker predicate but not the stronger one. -/
theorem length_filter_lt {α : Type} (l : List α) (p q : α → Bool) (k : α)
    (hk : k ∈ l) (h : ∀ x ∈ l, p x = true → q x = true)
    (hpk : p k = false) (hqk : q k = true) :
    (l.filter p).length < (l.filter q).length := by
  induction l with
  | nil => cases hk
  | cons a l' ih =>
      rcases List.mem_cons.mp hk with hka | hka
      · subst hka
        have hnp : ¬ p k = true := by simp [hpk]
        rw [List.filter_cons, if_neg hnp, List.filter_cons, if_pos hqk]
        exact Nat.lt_succ_of_le
          (length_filter_mono l' p q (fun x hx => h x (List.mem_cons_of_mem k hx)))
      · have hlt := ih hka (fun x hx => h x (List.mem_cons_of_mem a hx))
        by_cases hp : p a
        · rw [List.filter_cons, if_pos hp, List.filter_cons,
            if_pos (h a (List.mem_cons_self a l') hp)]
          exact Nat.succ_lt_succ hlt
        · rw [List.filter_cons, if_neg hp, List.filter_cons]
          by_cases hq : q a
          · rw [if_pos hq]
            exact Nat.lt_succ_of_lt hlt
          · rw [if_neg hq]
            exact hlt

/-- Growing the visited set cannot increase the unvisited count. -/
theorem unvisited_mono (repo : Repo) (v1 v2 : List String)
    (h : ∀ x ∈ v1, x ∈ v2) :
    unvisitedCount repo v2 ≤ unvisitedCount repo v1 := by
  apply length_filter_mono
  intro x _ hx
  rw [Bool.not_eq_true'] at hx
  rw [Bool.not_eq_true']
  cases hc : v1.contains x
  · rfl
  · have h2 : v2.contains x = true := List.elem_iff.mpr (h x (List.elem_iff.mp hc))
    exact absurd (hx ▸ h2) Bool.false_ne_true

/-- The unvisited count never exceeds the store size. -/
theorem unvisited_le_storeCount (repo : Repo) (visited : List String) :
    unvisitedCount repo visited ≤ storeCount repo :=
  List.length_filter_le _ _

/-- Marking an unvisited store key strictly decreases the unvisited
count. -/
theorem unvisited_cons_lt (repo : Repo) (k : String) (visited : List String)
    (hk : k ∈ storeKeys repo) (hv : visited.contains k = false) :
    unvisitedCount repo (k :: visited) < unvisitedCount repo visited := by
  apply length_filter_lt _ _ _ k hk
  · intro x _ hx
    rw [Bool.not_eq_true'] at hx
    rw [Bool.not_eq_true']
    rw [List.contains_cons] at hx
    exact (Bool.or_eq_false_iff.mp hx).2
  · simp [List.contains_cons]
  · rw [hv]
    rfl

/-- A found record pins down the store lookups behind it. -/
theorem findById_some_data {repo : Repo} {type : String} {id : Value} {r : Value}
    (h : findById repo type id = some r) :
    ∃ m, lookupA repo.data type = some m ∧ lookupA m (jsToString id) = some r := by
  cases hd : lookupA repo.data type with
  | none =>
      simp only [findById, hd, Option.getD_none] at h
      simp [lookupA] at h
  | some m =>
      simp only [findById, hd, Option.getD_some] at h
      cases hm : lookupA m (jsToString id) with
      | none =>
          rw [hm] at h
          simp at h
      | some v =>
          rw [hm] at h
          simp only [] at h
          by_cases ht : v.jsTruthy
          · simp only [ht, if_true] at h
            exact ⟨m, rfl, hm.trans (by rw [Option.some.inj h])⟩
          · simp [ht] at h

/-- Well-formedness: any type with a store entry has a descriptor. -/
theorem wf_registered {repo : Repo} {type : String} {m : List (String × Value)}
    (hwf : wfRepo repo = true) (hd : lookupA repo.data type = some m) :
    (lookupA repo.rpcs type).isSome = true :=
  List.all_eq_true.mp hwf (type, m) (mem_of_lookupA hd)

/-- In a well-formed state, a found record's type is registered. -/
theorem findById_registered {repo : Repo} {type : String} {id r : Value}
    (hwf : wfRepo repo = true) (h : findById repo type id = some r) :
    ∃ rpc, lookupA repo.rpcs type = some rpc := by
  obtain ⟨m, hd, _⟩ := findById_some_data h
  exact Option.isSome_iff_exists.mp (wf_registered hwf hd)

/-- A found record's `"type:id"` key is a store key. -/
theorem findById_storeKey {repo : Repo} {type : String} {id r : Value}
    (h : findById repo type id = some r) :
    (type ++ ":" ++ jsToString id) ∈ storeKeys repo := by
  obtain ⟨m, hd, hm⟩ := findById_some_data h
  have h1 : (jsToString id, r) ∈ m := mem_of_lookupA hm
  have h2 : (type, m) ∈ repo.data := mem_of_lookupA hd
  unfold storeKeys
  rw [List.mem_flatMap]
  exact ⟨(type, m), h2, List.mem_map_of_mem _ h1⟩

/-- A nonempty collection pins down a store entry. -/
theorem findAll_ne_nil_data {repo : Repo} {tt : String}
    (h : findAll repo tt ≠ []) : ∃ m, lookupA repo.data tt = some m := by
  cases hd : lookupA repo.data tt with
  | none => exact absurd (by simp [findAll, hd]) h
  | some m => exact ⟨m, rfl⟩

/-- A nonempty `filterMap` has a defined image somewhere. -/
theorem exists_isSome_of_filterMap_ne_nil {α β : Type} (f : α → Option β)
    (l : List α) (h : l.filterMap f ≠ []) : ∃ a ∈ l, (f a).isSome = true := by
  induction l with
  | nil => exact absurd rfl h
  | cons a l' ih =>
      cases hfa : f a with
      | none =>
          simp only [List.filterMap_cons, hfa] at h
          obtain ⟨b, hb, hbs⟩ := ih h
          exact ⟨b, List.mem_cons_of_mem a hb, hbs⟩
      | some b => exact ⟨a, List.mem_cons_self a l', by rw [hfa]; rfl⟩

/-- In a well-formed repository, `getRelated` never throws. -/
theorem getRelated_isSome (repo : Repo) (s : String) (id : Value) (tt : String)
    (hwf : wfRepo repo = true) : (getRelated repo s id tt).isSome = true := by
  cases hfb : findById repo s id with
  | none => simp [getRelated, hfb]
  | some r =>
      obtain ⟨srpc, hs⟩ := findById_registered hwf hfb
      simp only [getRelated, hfb, hs]
      cases hrel : lookupA srpc.relations tt with
      | none => rfl
      | some relation =>
          by_cases hot : relation.relationType = "one-to-many"
          · simp only [hot, if_true]
            cases r.vGet relation.localKey <;> rfl
          · simp [hot]

/-- Nonempty related data forces the source lookups to have succeeded. -/
theorem getRelated_nonempty_src {repo : Repo} {s : String} {id : Value} {tt : String}
    {l : List Value} (hgr : getRelated repo s id tt = some l) (hne : l ≠ []) :
    ∃ r srpc, findById repo s id = some r ∧ lookupA repo.rpcs s = some srpc := by
  cases hfb : findById repo s id with
  | none =>
      simp only [getRelated, hfb] at hgr
      exact absurd (Option.some.inj hgr).symm hne
  | some r =>
      cases hs : lookupA repo.rpcs s with
      | none =>
          simp only [getRelated, hfb, hs] at hgr
          exact Option.noConfusion hgr
      | some srpc => exact ⟨r, srpc, rfl, rfl⟩

/-- Nonempty related data forces the target type to be registered (its
records come out of the target's store). -/
theorem getRelated_nonempty_target {repo : Repo} {s : String} {id : Value}
    {tt : String} {l : List Value} (hwf : wfRepo repo = true)
    (hgr : getRelated repo s id tt = some l) (hne : l ≠ []) :
    ∃ trpc, lookupA repo.rpcs tt = some trpc := by
  obtain ⟨r, srpc, hfb, hs⟩ := getRelated_nonempty_src hgr hne
  simp only [getRelated, hfb, hs] at hgr
  cases hrel : lookupA srpc.relations tt with
  | none =>
      rw [hrel] at hgr
      simp at hgr
      exact absurd hgr hne
  | some relation =>
      simp only [hrel] at hgr
      by_cases hot : relation.relationType = "one-to-many"
      · rw [if_pos hot] at hgr
        cases hloc : r.vGet relation.localKey with
        | vArr items =>
            rw [hloc] at hgr
            simp at hgr
            obtain ⟨a, _, hsome⟩ :=
              exists_isSome_of_filterMap_ne_nil _ _ (hgr ▸ hne)
            obtain ⟨r', hr'⟩ := Option.isSome_iff_exists.mp hsome
            exact findById_registered hwf hr'
        | vNull => ?vNull
        | vUndef => ?vUndef
        | vNaN => ?vNaN
        | vNum n => ?vNum
        | vStr str => ?vStr
        | vBool b => ?vBool
        | vObj fs => ?vObj
        all_goals (
          rw [hloc] at hgr
          simp at hgr
          have hfa : findAll repo tt ≠ [] := by
            intro hcon
            exact (hgr ▸ hne) (by simp [findBy, hcon])
          obtain ⟨m, hd⟩ := findAll_ne_nil_data hfa
          exact Option.isSome_iff_exists.mp (wf_registered hwf hd))
      · rw [if_neg hot] at hgr
        cases hfb2 : findById repo tt (r.vGet relation.localKey) with
        | none =>
            rw [hfb2] at hgr
            simp at hgr
            exact absurd hgr hne
        | some r2 =>
            exact findById_registered hwf hfb2

/-- One-step unfolding of `goFull` at positive fuel. -/
theorem goFull_succ (repo : Repo) (f : Nat) (type : String) (id : Value)
    (visited : List String) :
    goFull repo (f + 1) type id visited =
      match findById repo type id with
      | none => some (Value.vNull, visited)
      | some rootRecord =>
          if visited.contains (type ++ ":" ++ jsToString id) then
            some (rootRecord, visited)
          else
            goRels repo f type id ((type ++ ":" ++ jsToString id) :: visited)
              rootRecord (getRelationsForType repo type) := by
  simp only [goFull]

/-- The one-to-many item expansion succeeds whenever the shared fuel
level is adequate, and only grows the visited set. -/
theorem goItems_adequate (repo : Repo) (f : Nat) (tt fkT : String)
    (hgf : ∀ (ty : String) (i : Value) (visited : List String),
      unvisitedCount repo visited < f →
      ∃ v vis', goFull repo f ty i visited = some (v, vis') ∧
        ∀ x ∈ visited, x ∈ vis') :
    ∀ (items : List Value) (visited : List String),
      unvisitedCount repo visited < f →
      ∃ l vis', goItems repo f tt fkT items visited = some (l, vis') ∧
        ∀ x ∈ visited, x ∈ vis' := by
  intro items
  induction items with
  | nil => exact fun visited _ => ⟨[], visited, by simp [goItems], fun x hx => hx⟩
  | cons item rest ih =>
      intro visited hlt
      by_cases hu : (item.vGet fkT).isUndef
      · obtain ⟨l, vis', heq, hsub⟩ := ih visited hlt
        refine ⟨item :: l, vis', ?_, hsub⟩
        simp [goItems, hu, heq]
      · obtain ⟨v, vis1, hfeq, hsub1⟩ := hgf tt (item.vGet fkT) visited hlt
        have hlt1 : unvisitedCount repo vis1 < f :=
          Nat.lt_of_le_of_lt (unvisited_mono repo visited vis1 hsub1) hlt
        obtain ⟨l, vis', heq, hsub2⟩ := ih vis1 hlt1
        refine ⟨v :: l, vis', ?_, fun x hx => hsub2 x (hsub1 x hx)⟩
        simp [goItems, hu, hfeq, heq]

/-- The relation loop succeeds at an adequate shared fuel level in a
well-formed repository, and only grows the visited set. -/
theorem goRels_adequate (repo : Repo) (f : Nat) (type : String) (id : Value)
    (hwf : wfRepo repo = true)
    (hgf : ∀ (ty : String) (i : Value) (visited : List String),
      unvisitedCount repo visited < f →
      ∃ v vis', goFull repo f ty i visited = some (v, vis') ∧
        ∀ x ∈ visited, x ∈ vis') :
    ∀ (rels : List (String × Relation)) (key : List String) (acc : Value),
      unvisitedCount repo key < f →
      ∃ v vis', goRels repo f type id key acc rels = some (v, vis') ∧
        ∀ x ∈ key, x ∈ vis' := by
  intro rels
  induction rels with
  | nil => exact fun key acc _ => ⟨acc, key, by simp [goRels], fun x hx => hx⟩
  | cons rel rest ih =>
      obtain ⟨targetType, relation⟩ := rel
      intro key acc hlt
      obtain ⟨relatedData, hgr⟩ :=
        Option.isSome_iff_exists.mp (getRelated_isSome repo type id targetType hwf)
      cases relatedData with
      | nil =>
          obtain ⟨v, vis', heq, hsub⟩ := ih key acc hlt
          exact ⟨v, vis', by simp [goRels, hgr, heq], hsub⟩
      | cons hd tl =>
          have hne : (hd :: tl : List Value) ≠ [] := by simp
          obtain ⟨r0, srpc, hfb, hs⟩ := getRelated_nonempty_src hgr hne
          obtain ⟨trpc, ht⟩ := getRelated_nonempty_target hwf hgr hne
          by_cases hot : relation.relationType = "one-to-many"
          · obtain ⟨mapped, vis1, heqI, hsub1⟩ :=
              goItems_adequate repo f targetType trpc.foreignKey hgf (hd :: tl) key hlt
            have hlt1 : unvisitedCount repo vis1 < f :=
              Nat.lt_of_le_of_lt (unvisited_mono repo key vis1 hsub1) hlt
            obtain ⟨v, vis', heqR, hsub2⟩ := ih vis1
              ((acc.vDelete relation.localKey).vSet
                (orElseOptStr (lookupA srpc.relatedFields targetType) targetType)
                (Value.vArr (mapped.filter (fun v => !v.isNull)))) hlt1
            refine ⟨v, vis', ?_, fun x hx => hsub2 x (hsub1 x hx)⟩
            simp [goRels, hgr, hs, ht, hot, heqI, heqR]
          · by_cases hid : (hd.vGet trpc.foreignKey).isUndef
            · obtain ⟨v, vis', heqR, hsub⟩ := ih key
                ((acc.vDelete relation.localKey).vSet
                  (orElseOptStr (lookupA srpc.relatedFields targetType) targetType)
                  hd) hlt
              exact ⟨v, vis', by simp [goRels, hgr, hs, ht, hot, hid, heqR], hsub⟩
            · obtain ⟨expanded, vis1, heqF, hsub1⟩ :=
                hgf targetType (hd.vGet trpc.foreignKey) key hlt
              have hlt1 : unvisitedCount repo vis1 < f :=
                Nat.lt_of_le_of_lt (unvisited_mono repo key vis1 hsub1) hlt
              obtain ⟨v, vis', heqR, hsub2⟩ := ih vis1
                ((acc.vDelete relation.localKey).vSet
                  (orElseOptStr (lookupA srpc.relatedFields targetType) targetType)
                  expanded) hlt1
              refine ⟨v, vis', ?_, fun x hx => hsub2 x (hsub1 x hx)⟩
              simp [goRels, hgr, hs, ht, hot, hid, heqF, heqR]

/-- `goFull` succeeds whenever the fuel strictly dominates the number of
unvisited store keys; the visited set only grows. -/
theorem goFull_adequate (repo : Repo) (hwf : wfRepo repo = true) :
    ∀ (f : Nat) (type : String) (id : Value) (visited : List String),
      unvisitedCount repo visited < f →
      ∃ v vis', goFull repo f type id visited = some (v, vis') ∧
        ∀ x ∈ visited, x ∈ vis' := by
  intro f
  induction f with
  | zero => exact fun type id visited h => absurd h (Nat.not_lt_zero _)
  | succ f ihf =>
      intro type id visited hlt
      cases hfb : findById repo type id with
      | none =>
          exact ⟨Value.vNull, visited, by rw [goFull_succ, hfb], fun x hx => hx⟩
      | some rootRecord =>
          by_cases hv : visited.contains (type ++ ":" ++ jsToString id)
          · refine ⟨rootRecord, visited, ?_, fun x hx => hx⟩
            rw [goFull_succ]
            simp only [hfb]
            rw [if_pos hv]
          · have hcontains : visited.contains (type ++ ":" ++ jsToString id) = false := by
              cases hc : visited.contains (type ++ ":" ++ jsToString id)
              · rfl
              · exact absurd hc hv
            have h1 := unvisited_cons_lt repo (type ++ ":" ++ jsToString id) visited
              (findById_storeKey hfb) hcontains
            have hlt' : unvisitedCount repo
                ((type ++ ":" ++ jsToString id) :: visited) < f := by omega
            obtain ⟨v, vis', heq, hsub⟩ := goRels_adequate repo f type id hwf ihf
              (getRelationsForType repo type)
              ((type ++ ":" ++ jsToString id) :: visited) rootRecord hlt'
            refine ⟨v, vis', ?_, fun x hx => hsub x (List.mem_cons_of_mem _ hx)⟩
            rw [goFull_succ]
            simp only [hfb]
            rw [if_neg hv]
            exact heq

/-- The all-records mode succeeds at the wrapper's fuel level. -/
theorem goAllList_adequate (repo : Repo) (hwf : wfRepo repo = true) (type : String)
    (reenter : List String → Option (List Value × List String)) :
    ∀ (records : List Value) (visited : List String),
      (records ≠ [] → (lookupA repo.rpcs type).isSome = true) →
      (∀ record ∈ records, ∀ rpc, lookupA repo.rpcs type = some rpc →
        (record.vGet rpc.foreignKey).isUndef = false) →
      ∃ l vis', goAllList repo type (storeCount repo + 1) reenter records visited
        = some (l, vis') := by
  intro records
  induction records with
  | nil => exact fun visited _ _ => ⟨[], visited, rfl⟩
  | cons record rest ih =>
      intro visited hreg hids
      obtain ⟨rpc, hr⟩ := Option.isSome_iff_exists.mp (hreg (by simp))
      have hid : (record.vGet rpc.foreignKey).isUndef = false :=
        hids record (List.mem_cons_self _ _) rpc hr
      obtain ⟨v, vis1, heqF, _⟩ := goFull_adequate repo hwf (storeCount repo + 1) type
        (record.vGet rpc.foreignKey) visited
        (Nat.lt_succ_of_le (unvisited_le_storeCount repo visited))
      obtain ⟨l, vis', heqR⟩ := ih vis1 (fun _ => hreg (by simp))
        (fun r hrm rpc' hrp => hids r (List.mem_cons_of_mem _ hrm) rpc' hrp)
      refine ⟨(if v.isNull then l else v :: l), vis', ?_⟩
      simp [goAllList, hr, hid, heqF, heqR]

/-- The all-records mode succeeds at the wrapper's fuel level when every
record carries its identity field (the re-entry branch is never taken). -/
theorem goAll_adequate (repo : Repo) (hwf : wfRepo repo = true) (type : String)
    (records : List Value) (visited : List String)
    (hreg : records ≠ [] → (lookupA repo.rpcs type).isSome = true)
    (hids : ∀ record ∈ records, ∀ rpc, lookupA repo.rpcs type = some rpc →
      (record.vGet rpc.foreignKey).isUndef = false) :
    ∃ l vis', goAll repo (storeCount repo + 1) type records visited
      = some (l, vis') := by
  obtain ⟨l, vis', heq⟩ := goAllList_adequate repo hwf type
    (fun vis => goAll repo (storeCount repo) type (findAll repo type) vis)
    records visited hreg hids
  refine ⟨l, vis', ?_⟩
  simp only [goAll]
  exact heq

/-- C8 counterexample: the all-records mode does *not* terminate for
every store state. With the identity-less record `{n: "a"}` saved (the
store key is `String(undefined)`), each pass over the collection reads
`record[foreignKey] === undefined` and re-enters the enumerate-all
branch on the same collection: in the fuel model every fuel level runs
out, so the wrapper returns `none` — the source recurses unboundedly. -/
theorem C8_counterexample :
    wfRepo c8BadRepo = true ∧
    findAll c8BadRepo "user" = [c8BadRec] ∧
    (∀ fuel, goAll c8BadRepo fuel "user" [c8BadRec] [] = none) ∧
    getFullRelatedData c8BadRepo "user" none [] = none := by
  have hlk : lookupA c8BadRepo.rpcs "user" = some idRpc := rfl
  have hu : ((c8BadRec).vGet idRpc.foreignKey).isUndef = true := rfl
  have hfa : findAll c8BadRepo "user" = [c8BadRec] := rfl
  have hdiv : ∀ fuel, goAll c8BadRepo fuel "user" [c8BadRec] [] = none := by
    intro fuel
    induction fuel with
    | zero =>
        simp only [goAll]
        simp [goAllList, hlk, hu]
    | succ f ihf =>
        simp only [goAll]
        rw [hfa]
        simp only [goAllList, hlk, hu, if_true]
        rw [ihf]
        rfl
  refine ⟨rfl, hfa, hdiv, ?_⟩
  show (goAll c8BadRepo (storeCount c8BadRepo + 1) "user" (findAll c8BadRepo "user")
      []).map (fun r => (Value.vArr r.1, r.2)) = none
  rw [hfa, hdiv]
  rfl

/-- C8 (amended): in a well-formed repository (every stored type
registered — true of every state the public API can produce),
`getFullRelatedData` with a *present* id always terminates with a
result, even when relation instances form cycles; the all-records mode
(`id === undefined`) terminates provided every record of the type
carries its identity field — a record lacking it re-enters the
enumerate-all branch unboundedly (see the counterexample); and a
`(type, id)` pair already in the visited set is returned as its raw
unexpanded record with the visited set unchanged. -/
theorem C8_theorem :
    (∀ (repo : Repo), wfRepo repo = true →
      ∀ (type : String) (id : Value) (visited : List String),
        (getFullRelatedData repo type (some id) visited).isSome = true) ∧
    (∀ (repo : Repo), wfRepo repo = true →
      ∀ (type : String) (visited : List String),
        (∀ record ∈ findAll repo type, ∀ rpc, lookupA repo.rpcs type = some rpc →
          (record.vGet rpc.foreignKey).isUndef = false) →
        (getFullRelatedData repo type none visited).isSome = true) ∧
    (∀ (repo : Repo) (type : String) (id : Value) (visited : List String) (r : Value),
      visited.contains (type ++ ":" ++ jsToString id) = true →
      findById repo type id = some r →
      getFullRelatedData repo type (some id) visited = some (r, visited)) := by
  refine ⟨?_, ?_, ?_⟩
  · intro repo hwf type id visited
    obtain ⟨v, vis', heq, _⟩ := goFull_adequate repo hwf (storeCount repo + 1)
      type id visited (Nat.lt_succ_of_le (unvisited_le_storeCount repo visited))
    simp [getFullRelatedData, heq]
  · intro repo hwf type visited hids
    have hreg : findAll repo type ≠ [] → (lookupA repo.rpcs type).isSome = true := by
      intro hne
      obtain ⟨m, hd⟩ := findAll_ne_nil_data hne
      exact wf_registered hwf hd
    obtain ⟨l, vis', heq⟩ :=
      goAll_adequate repo hwf type (findAll repo type) visited hreg hids
    simp [getFullRelatedData, heq]
  · intro repo type id visited r hv hfb
    show goFull repo (storeCount repo + 1) type id visited = some (r, visited)
    rw [goFull_succ]
    simp only [hfb]
    rw [if_pos hv]

/-- C8 witness: on the two-node cycle `1 → 2 → 1` of the self-related
`"node"` type, the traversal from node 1 terminates with a result, the
all-records mode terminates (both records carry `id`), and with
`"node:1"` already visited the raw record is returned unchanged. -/
theorem C8_witness :
    (getFullRelatedData c8Repo "node" (some (Value.vNum 1)) []).isSome = true ∧
    (getFullRelatedData c8Repo "node" none []).isSome = true ∧
    getFullRelatedData c8Repo "node" (some (Value.vNum 1)) ["node:1"] =
      some (c8Node1, ["node:1"]) :=
  ⟨C8_theorem.1 c8Repo rfl "node" (Value.vNum 1) [],
   C8_theorem.2.1 c8Repo rfl "node" []
     (by
       intro r hr rpc hrp
       have hc : lookupA c8Repo.rpcs "node" = some c8NodeRpc := rfl
       rw [hc] at hrp
       cases Option.some.inj hrp
       have hfa : findAll c8Repo "node" = [c8Node1, c8Node2] := rfl
       rw [hfa] at hr
       rcases List.mem_cons.mp hr with h | h
       · rw [h]
         rfl
       · rw [List.mem_singleton] at h
         rw [h]
         rfl),
   C8_theorem.2.2 c8Repo "node" (Value.vNum 1) ["node:1"] c8Node1 rfl rfl⟩

/-! ## C6 — idempotence of the array merge -/

theorem mem_insertIndexed {α : Type} {x y : String × α} {l : List (String × α)}
    (h : y ∈ insertIndexed x l) : y = x ∨ y ∈ l := by
  induction l with
  | nil => simpa [insertIndexed] using h
  | cons z zs ih =>
      simp only [insertIndexed] at h
      by_cases hk : keyNat z.1 ≤ keyNat x.1
      · rw [if_pos hk] at h
        rcases List.mem_cons.mp h with h | h
        · exact Or.inr (h ▸ List.mem_cons_self _ _)
        · rcases ih h with h' | h'
          · exact Or.inl h'
          · exact Or.inr (List.mem_cons_of_mem _ h')
      · rw [if_neg hk] at h
        rcases List.mem_cons.mp h with h | h
        · exact Or.inl h
        · exact Or.inr h

theorem mem_sortIndexed_aux {α : Type} {y : String × α} :
    ∀ (l acc : List (String × α)),
      y ∈ l.foldl (fun a x => insertIndexed x a) acc → y ∈ acc ∨ y ∈ l := by
  intro l
  induction l with
  | nil => exact fun acc h => Or.inl h
  | cons x xs ih =>
      intro acc h
      rw [List.foldl_cons] at h
      rcases ih (insertIndexed x acc) h with h' | h'
      · rcases mem_insertIndexed h' with h'' | h''
        · exact Or.inr (h'' ▸ List.mem_cons_self _ _)
        · exact Or.inl h''
      · exact Or.inr (List.mem_cons_of_mem _ h')

/-- Enumeration order is a rearrangement: members come from the
original property list. -/
theorem mem_jsEntriesOrder {α : Type} {y : String × α} {l : List (String × α)}
    (h : y ∈ jsEntriesOrder l) : y ∈ l := by
  rcases List.mem_append.mp h with h' | h'
  · rcases mem_sortIndexed_aux _ [] h' with h'' | h''
    · cases h''
    · exact List.mem_of_mem_filter h''
  · exact List.mem_of_mem_filter h'

/-- `insertIndexed` is a rearrangement of consing. -/
theorem insertIndexed_perm {α : Type} (x : String × α) :
    ∀ l : List (String × α), List.Perm (insertIndexed x l) (x :: l) := by
  intro l
  induction l with
  | nil => exact List.Perm.refl _
  | cons y ys ih =>
      simp only [insertIndexed]
      by_cases hk : keyNat y.1 ≤ keyNat x.1
      · rw [if_pos hk]
        exact (List.Perm.cons y ih).trans (List.Perm.swap x y ys)
      · rw [if_neg hk]

theorem sortIndexed_perm_aux {α : Type} :
    ∀ (l acc : List (String × α)),
      List.Perm (l.foldl (fun a x => insertIndexed x a) acc) (acc ++ l) := by
  intro l
  induction l with
  | nil =>
      intro acc
      rw [List.append_nil]
      exact List.Perm.refl _
  | cons x xs ih =>
      intro acc
      rw [List.foldl_cons]
      refine ((ih (insertIndexed x acc)).trans
        (List.Perm.append_right xs (insertIndexed_perm x acc))).trans ?_
      rw [List.cons_append]
      exact List.perm_middle.symm

/-- Insertion sort by numeric key is a rearrangement. -/
theorem sortIndexed_perm {α : Type} (l : List (String × α)) :
    List.Perm (sortIndexed l) l := by
  have h := sortIndexed_perm_aux l []
  simpa [sortIndexed] using h

/-- JavaScript enumeration order is a rearrangement of the property list. -/
theorem jsEntriesOrder_perm {α : Type} (l : List (String × α)) :
    List.Perm (jsEntriesOrder l) l := by
  unfold jsEntriesOrder
  exact (List.Perm.append_right _ (sortIndexed_perm _)).trans
    (List.filter_append_perm _ l)

/-- Enumeration order preserves distinctness of keys. -/
theorem nodup_keys_jsEntriesOrder {α : Type} {l : List (String × α)}
    (h : (l.map Prod.fst).Nodup) : ((jsEntriesOrder l).map Prod.fst).Nodup :=
  (List.Perm.nodup_iff (List.Perm.map Prod.fst (jsEntriesOrder_perm l))).mpr h

/-- Every property occurs in its enumeration order. -/
theorem mem_jsEntriesOrder_of_mem {α : Type} {y : String × α} {l : List (String × α)}
    (h : y ∈ l) : y ∈ jsEntriesOrder l :=
  (List.Perm.mem_iff (jsEntriesOrder_perm l)).mpr h

theorem lookupA_append_none {α : Type} {l1 l2 : List (String × α)} {k : String}
    (h1 : lookupA l1 k = none) (h2 : lookupA l2 k = none) :
    lookupA (l1 ++ l2) k = none := by
  induction l1 with
  | nil => simpa using h2
  | cons hd tl ih =>
      obtain ⟨k', v⟩ := hd
      by_cases hk : k' = k
      · simp [lookupA, hk] at h1
      · simp only [lookupA, hk, if_false] at h1
        simp only [List.cons_append, lookupA, hk, if_false]
        exact ih h1

/-- Writing a fresh key appends the entry (JavaScript `Map.set`). -/
theorem setA_fresh {α : Type} {l : List (String × α)} {k : String} (v : α)
    (h : lookupA l k = none) : setA l k v = l ++ [(k, v)] := by
  induction l with
  | nil => rfl
  | cons hd tl ih =>
      obtain ⟨k', v'⟩ := hd
      by_cases hk : k' = k
      · simp [lookupA, hk] at h
      · simp only [lookupA, hk, if_false] at h
        simp [setA, hk, ih h]

theorem arrayToRecord_fold (rpc : RpcDef) :
    ∀ (items : List Value) (acc : List (String × Option Value)),
      (∀ it ∈ items, (it.vGet rpc.foreignKey).isUndef = false) →
      (∀ it ∈ items, lookupA acc (jsToString (it.vGet rpc.foreignKey)) = none) →
      ((items.map (fun it => jsToString (it.vGet rpc.foreignKey))).Nodup) →
      items.foldl
        (fun rec item =>
          let id := item.vGet rpc.foreignKey
          if id.isUndef then rec else setA rec (jsToString id) (some item)) acc
        = acc ++ items.map (fun it => (jsToString (it.vGet rpc.foreignKey), some it)) := by
  intro items
  induction items with
  | nil => intro acc _ _ _; simp
  | cons it rest ih =>
      intro acc hdef hfresh hnd
      simp only [List.map_cons, List.nodup_cons] at hnd
      have hd : (it.vGet rpc.foreignKey).isUndef = false :=
        hdef it (List.mem_cons_self _ _)
      rw [List.foldl_cons]
      simp only [hd, Bool.false_eq_true, if_false]
      rw [setA_fresh (some it) (hfresh it (List.mem_cons_self _ _))]
      have hfresh' : ∀ i ∈ rest,
          lookupA (acc ++ [(jsToString (it.vGet rpc.foreignKey), some it)])
            (jsToString (i.vGet rpc.foreignKey)) = none := by
        intro i hi
        apply lookupA_append_none (hfresh i (List.mem_cons_of_mem _ hi))
        have hne : jsToString (it.vGet rpc.foreignKey)
            ≠ jsToString (i.vGet rpc.foreignKey) := by
          intro hcon
          exact hnd.1 (by rw [hcon]; exact List.mem_map_of_mem _ hi)
        simp [lookupA, hne]
      rw [ih _ (fun i hi => hdef i (List.mem_cons_of_mem _ hi)) hfresh' hnd.2]
      simp

/-- With defined, pairwise-distinct identity strings, `arrayToRecord`
keys each element by its stringified identity in order. -/
theorem arrayToRecord_map (rpc : RpcDef) (items : List Value)
    (hdef : ∀ it ∈ items, (it.vGet rpc.foreignKey).isUndef = false)
    (hnd : (items.map (fun it => jsToString (it.vGet rpc.foreignKey))).Nodup) :
    arrayToRecord rpc items
      = items.map (fun it => (jsToString (it.vGet rpc.foreignKey), some it)) := by
  have h := arrayToRecord_fold rpc items [] hdef (fun i _ => rfl) hnd
  simpa [arrayToRecord] using h

theorem countP_pos_of_mem {α : Type} (p : α → Bool) {l : List α} {a : α}
    (ha : a ∈ l) (hp : p a = true) : 0 < l.countP p := by
  induction l with
  | nil => cases ha
  | cons x xs ih =>
      rw [List.countP_cons]
      rcases List.mem_cons.mp ha with h | h
      · subst h
        rw [if_pos hp]
        omega
      · have := ih h
        omega

theorem two_le_countP {α : Type} (p : α → Bool) :
    ∀ (l : List α) (a b : α), a ∈ l → b ∈ l → a ≠ b → p a = true → p b = true →
      2 ≤ l.countP p := by
  intro l
  induction l with
  | nil => intro a b ha _ _ _ _; cases ha
  | cons x xs ih =>
      intro a b ha hb hne hpa hpb
      rw [List.countP_cons]
      rcases List.mem_cons.mp ha with h1 | h1
      · subst h1
        have hbxs : b ∈ xs := by
          rcases List.mem_cons.mp hb with h2 | h2
          · exact absurd h2.symm hne
          · exact h2
        have := countP_pos_of_mem p hbxs hpb
        rw [if_pos hpa]
        omega
      · rcases List.mem_cons.mp hb with h2 | h2
        · subst h2
          have := countP_pos_of_mem p h1 hpa
          rw [if_pos hpb]
          omega
        · have := ih a b h1 h2 hne hpa hpb
          omega

theorem countP_zero_of_none_found {α : Type} (p : α → Bool) :
    ∀ l : List α, l.findIdx? p = none → l.countP p = 0 := by
  intro l
  induction l with
  | nil => intro _; rfl
  | cons a as ih =>
      intro h
      by_cases hp : p a
      · have h0 : List.findIdx? p (a :: as) = some 0 := by
          simp [List.findIdx?_cons, hp]
        rw [h0] at h
        exact Option.noConfusion h
      · have h1 : List.findIdx? p (a :: as) = (List.findIdx? p as).map (· + 1) := by
          rw [List.findIdx?_cons]
          simp [hp, List.findIdx?_succ]
        rw [h1] at h
        cases hidx : List.findIdx? p as with
        | none =>
            rw [List.countP_cons, if_neg hp, ih hidx]
        | some j =>
            rw [hidx] at h
            exact Option.noConfusion h

theorem findIdx?_isSome_of_mem {α : Type} (p : α → Bool) {l : List α} {a : α}
    (ha : a ∈ l) (hp : p a = true) : ∃ i, l.findIdx? p = some i := by
  cases h : l.findIdx? p with
  | some i => exact ⟨i, rfl⟩
  | none =>
      have h1 := countP_pos_of_mem p ha hp
      have h2 := countP_zero_of_none_found p l h
      omega

theorem findIdx?_get {α : Type} (p : α → Bool) :
    ∀ (l : List α) (i : Nat), l.findIdx? p = some i →
      ∃ b, l.get? i = some b ∧ p b = true ∧ i < l.length := by
  intro l
  induction l with
  | nil =>
      intro i h
      simp at h
  | cons a as ih =>
      intro i h
      by_cases hp : p a
      · have h0 : List.findIdx? p (a :: as) = some 0 := by
          simp [List.findIdx?_cons, hp]
        rw [h0] at h
        cases Option.some.inj h
        exact ⟨a, rfl, hp, Nat.succ_pos _⟩
      · have h1 : List.findIdx? p (a :: as) = (List.findIdx? p as).map (· + 1) := by
          rw [List.findIdx?_cons]
          simp [hp, List.findIdx?_succ]
        rw [h1] at h
        cases hidx : List.findIdx? p as with
        | none =>
            rw [hidx] at h
            exact Option.noConfusion h
        | some j =>
            rw [hidx] at h
            simp at h
            obtain ⟨b, hb, hpb, hlt⟩ := ih j hidx
            subst h
            exact ⟨b, hb, hpb, Nat.succ_lt_succ hlt⟩

theorem mem_of_get? {α : Type} :
    ∀ (l : List α) (i : Nat) (b : α), l.get? i = some b → b ∈ l := by
  intro l
  induction l with
  | nil => intro i b h; exact Option.noConfusion h
  | cons x xs ih =>
      intro i b h
      cases i with
      | zero =>
          have h' : some x = some b := h
          cases Option.some.inj h'
          exact List.mem_cons_self _ _
      | succ j => exact List.mem_cons_of_mem _ (ih j b h)

theorem getD_of_get? {α : Type} (d : α) :
    ∀ (l : List α) (i : Nat) (b : α), l.get? i = some b → l.getD i d = b := by
  intro l
  induction l with
  | nil => intro i b h; exact Option.noConfusion h
  | cons x xs ih =>
      intro i b h
      cases i with
      | zero =>
          have h' : some x = some b := h
          cases Option.some.inj h'
          rfl
      | succ j => exact ih j b h

theorem set_of_get? {α : Type} :
    ∀ (l : List α) (i : Nat) (b : α), l.get? i = some b → l.set i b = l := by
  intro l
  induction l with
  | nil => intro i b h; exact Option.noConfusion h
  | cons x xs ih =>
      intro i b h
      cases i with
      | zero =>
          have h' : some x = some b := h
          cases Option.some.inj h'
          rfl
      | succ j =>
          show x :: xs.set j b = x :: xs
          rw [ih j b h]

theorem mem_set_self {α : Type} :
    ∀ (l : List α) (i : Nat) (v : α), i < l.length → v ∈ l.set i v := by
  intro l
  induction l with
  | nil => intro i v h; exact absurd h (Nat.not_lt_zero i)
  | cons x xs ih =>
      intro i v h
      cases i with
      | zero => exact List.mem_cons_self _ _
      | succ j => exact List.mem_cons_of_mem _ (ih j v (Nat.lt_of_succ_lt_succ h))

theorem mem_set_of_ne {α : Type} :
    ∀ (l : List α) (i : Nat) (v b a : α),
      a ∈ l → l.get? i = some b → a ≠ b → a ∈ l.set i v := by
  intro l
  induction l with
  | nil => intro i v b a ha _ _; cases ha
  | cons x xs ih =>
      intro i v b a ha hg hne
      cases i with
      | zero =>
          have h' : some x = some b := hg
          cases Option.some.inj h'
          show a ∈ v :: xs
          rcases List.mem_cons.mp ha with h | h
          · exact absurd h hne
          · exact List.mem_cons_of_mem _ h
      | succ j =>
          show a ∈ x :: xs.set j v
          rcases List.mem_cons.mp ha with h | h
          · subst h
            exact List.mem_cons_self _ _
          · exact List.mem_cons_of_mem _ (ih j v b a h hg hne)

theorem mem_of_mem_set {α : Type} :
    ∀ (l : List α) (i : Nat) (v a : α), a ∈ l.set i v → a ∈ l ∨ a = v := by
  intro l
  induction l with
  | nil => intro i v a h; cases h
  | cons x xs ih =>
      intro i v a h
      cases i with
      | zero =>
          have h' : a ∈ v :: xs := h
          rcases List.mem_cons.mp h' with h1 | h1
          · exact Or.inr h1
          · exact Or.inl (List.mem_cons_of_mem _ h1)
      | succ j =>
          have h' : a ∈ x :: xs.set j v := h
          rcases List.mem_cons.mp h' with h1 | h1
          · subst h1
            exact Or.inl (List.mem_cons_self _ _)
          · rcases ih j v a h1 with h2 | h2
            · exact Or.inl (List.mem_cons_of_mem _ h2)
            · exact Or.inr h2

theorem countP_set_congr {α : Type} (p : α → Bool) :
    ∀ (l : List α) (i : Nat) (v b : α),
      l.get? i = some b → p v = p b → (l.set i v).countP p = l.countP p := by
  intro l
  induction l with
  | nil => intro i v b hg _; exact Option.noConfusion hg
  | cons x xs ih =>
      intro i v b hg hp
      cases i with
      | zero =>
          have h' : some x = some b := hg
          cases Option.some.inj h'
          show (v :: xs).countP p = (x :: xs).countP p
          rw [List.countP_cons, List.countP_cons, hp]
      | succ j =>
          show (x :: xs.set j v).countP p = (x :: xs).countP p
          rw [List.countP_cons, List.countP_cons, ih j v b hg hp]

/-- Integral identities that round-trip through `String`/`Number` are
pairwise distinct as strings when each value occurs at most once. -/
theorem nodup_ids_of_count (fk : String) :
    ∀ Q : List Value,
      (∀ r ∈ Q, ∃ i : Int, r.vGet fk = Value.vNum i ∧
        jsToNumber (intRepr i) = Value.vNum i) →
      (∀ w, Q.countP (fun r => Value.jsStrictEq (r.vGet fk) w) ≤ 1) →
      (Q.map (fun r => jsToString (r.vGet fk))).Nodup := by
  intro Q
  induction Q with
  | nil => intro _ _; simp
  | cons r rest ih =>
      intro hids hcount
      simp only [List.map_cons, List.nodup_cons]
      constructor
      · intro hmem
        obtain ⟨r', hr', hkey⟩ := List.mem_map.mp hmem
        obtain ⟨i, hi, hrt⟩ := hids r (List.mem_cons_self _ _)
        obtain ⟨i', hi', hrt'⟩ := hids r' (List.mem_cons_of_mem _ hr')
        rw [hi, hi'] at hkey
        have hkey2 : intRepr i' = intRepr i := hkey
        have hnum : Value.vNum i' = Value.vNum i := by
          rw [← hrt, ← hrt', hkey2]
        have hii : i' = i := Value.vNum.inj hnum
        have hpr : Value.jsStrictEq (r.vGet fk) (Value.vNum i) = true := by
          rw [hi]
          simp [Value.jsStrictEq]
        have hpr' : Value.jsStrictEq (r'.vGet fk) (Value.vNum i) = true := by
          rw [hi', hii]
          simp [Value.jsStrictEq]
        have h1 := countP_pos_of_mem
          (fun x => Value.jsStrictEq (x.vGet fk) (Value.vNum i)) hr' hpr'
        have hc := hcount (Value.vNum i)
        simp only [List.countP_cons] at hc
        rw [if_pos hpr] at hc
        omega
      · exact ih (fun r' h => hids r' (List.mem_cons_of_mem _ h))
          (fun w => by
            have hc := hcount w
            simp only [List.countP_cons] at hc
            omega)

theorem eq_vNull_of_isNull {v : Value} (h : v.isNull = true) : v = Value.vNull := by
  cases v <;> simp_all [Value.isNull]

/-- Writing back fields that are already present with the same values
leaves an object unchanged (in-place update preserves field order). -/
theorem mergeFields_absorb (m : IdFieldMap) (idf cp : String)
    (fs : List (String × Value)) :
    ∀ entries : List (String × Value),
      (∀ kv ∈ entries, lookupA fs kv.1 = some kv.2) →
      (∀ kv ∈ entries, kv.2.isObj = false) →
      mergeFields m idf cp (Value.vObj fs) entries = Value.vObj fs := by
  intro entries
  induction entries with
  | nil => intro _ _; simp [mergeFields]
  | cons kv rest ih =>
      intro hsub hflat
      obtain ⟨k, sv⟩ := kv
      have hlk : lookupA fs k = some sv := hsub (k, sv) (List.mem_cons_self _ _)
      have hobj : sv.isObj = false := hflat (k, sv) (List.mem_cons_self _ _)
      have hset : (Value.vObj fs).vSet k sv = Value.vObj fs := by
        simp [Value.vSet, setA_of_lookupA hlk]
      have ihr := ih (fun kv hkv => hsub kv (List.mem_cons_of_mem _ hkv))
        (fun kv hkv => hflat kv (List.mem_cons_of_mem _ hkv))
      simp only [mergeFields]
      by_cases hnull : sv.isNull
      · have hsv : sv = Value.vNull := by
          cases sv <;> simp_all [Value.isNull]
        subst hsv
        rw [if_pos hnull, hset]
        exact ihr
      · rw [if_neg hnull, hobj]
        simp only [Bool.false_and, Bool.false_eq_true, if_false, hset]
        exact ihr

/-- Deep-merging a flat object into a record that already contains each
of its fields with the same value is the identity. -/
theorem mergeDeep_absorb (m : IdFieldMap) (gs fs : List (String × Value))
    (hsub : ∀ kv ∈ fs, lookupA gs kv.1 = some kv.2)
    (hflat : ∀ kv ∈ fs, kv.2.isObj = false) :
    mergeDeep m (Value.vObj gs) (Value.vObj fs) "" = Value.vObj gs :=
  mergeFields_absorb m (idFieldAt m "" "id") "" gs (jsEntriesOrder fs)
    (fun kv hkv => hsub kv (mem_jsEntriesOrder hkv))
    (fun kv hkv => hflat kv (mem_jsEntriesOrder hkv))

/-- Writing a list of non-object fields over an object: the result is an
object that contains each written field (for distinct keys) and agrees
with the target elsewhere. -/
theorem mergeFields_writes (m : IdFieldMap) (idf cp : String) :
    ∀ (entries gs : List (String × Value)),
      (∀ kv ∈ entries, kv.2.isObj = false) →
      ((entries.map Prod.fst).Nodup) →
      ∃ gs', mergeFields m idf cp (Value.vObj gs) entries = Value.vObj gs' ∧
        (∀ kv ∈ entries, lookupA gs' kv.1 = some kv.2) ∧
        (∀ k, (∀ kv ∈ entries, kv.1 ≠ k) → lookupA gs' k = lookupA gs k) := by
  intro entries
  induction entries with
  | nil =>
      intro gs _ _
      exact ⟨gs, by simp [mergeFields], by simp, fun k _ => rfl⟩
  | cons kv rest ih =>
      intro gs hflat hnd
      obtain ⟨k0, sv⟩ := kv
      simp only [List.map_cons, List.nodup_cons] at hnd
      have hobj : sv.isObj = false := hflat (k0, sv) (List.mem_cons_self _ _)
      have hstep : mergeFields m idf cp (Value.vObj gs) ((k0, sv) :: rest)
          = mergeFields m idf cp (Value.vObj (setA gs k0 sv)) rest := by
        simp only [mergeFields]
        by_cases hnull : sv.isNull
        · have hsv : sv = Value.vNull := eq_vNull_of_isNull hnull
          subst hsv
          rw [if_pos hnull]
          rfl
        · rw [if_neg hnull, hobj]
          simp only [Bool.false_and, Bool.false_eq_true, if_false]
          rfl
      rw [hstep]
      obtain ⟨gs', hgs', hcont, hframe⟩ := ih (setA gs k0 sv)
        (fun kv hkv => hflat kv (List.mem_cons_of_mem _ hkv)) hnd.2
      refine ⟨gs', hgs', ?_, ?_⟩
      · intro kv hkv
        rcases List.mem_cons.mp hkv with h | h
        · subst h
          show lookupA gs' k0 = some sv
          have hfr : lookupA gs' k0 = lookupA (setA gs k0 sv) k0 := by
            apply hframe
            intro kv' hkv' hcon
            exact hnd.1 (hcon ▸ List.mem_map_of_mem Prod.fst hkv')
          rw [hfr, lookupA_setA_self]
        · exact hcont kv h
      · intro k hk
        have h1 : lookupA gs' k = lookupA (setA gs k0 sv) k :=
          hframe k (fun kv hkv => hk kv (List.mem_cons_of_mem _ hkv))
        have h2 : k0 ≠ k := hk (k0, sv) (List.mem_cons_self _ _)
        rw [h1, lookupA_setA_ne gs k0 k sv (Ne.symm h2)]

/-- Deep-merging a flat patch object into any object yields an object
containing each patch field. -/
theorem mergeDeep_writes (m : IdFieldMap) (gs fs : List (String × Value))
    (hflat : ∀ kv ∈ fs, kv.2.isObj = false)
    (hnd : (fs.map Prod.fst).Nodup) :
    ∃ gs', mergeDeep m (Value.vObj gs) (Value.vObj fs) "" = Value.vObj gs' ∧
      (∀ kv ∈ fs, lookupA gs' kv.1 = some kv.2) := by
  obtain ⟨gs', hgs', hcont, _⟩ := mergeFields_writes m (idFieldAt m "" "id") ""
    (jsEntriesOrder fs) gs
    (fun kv hkv => hflat kv (mem_jsEntriesOrder hkv))
    (nodup_keys_jsEntriesOrder hnd)
  exact ⟨gs', hgs', fun kv hkv => hcont kv (mem_jsEntriesOrder_of_mem hkv)⟩

/-- Processing a mapping of flat patches with distinct integral
round-tripping keys over a collection of integral-identity records with
unique identities: the result's records stay flat-identified objects
with at most one record per identity, every patch has an absorbing
record in the result carrying its parsed identity and containing its
fields, every existing record keeps a representative with the same
identity, and records matched by no patch key survive unchanged. -/
theorem processUpdates_flat (m : IdFieldMap) (fk : String) :
    ∀ (ups : List (String × Option Value)) (P : List Value),
      (∀ e ∈ ups, ∃ fs n, e = (intRepr n, some (Value.vObj fs)) ∧
        (fs.map Prod.fst).Nodup ∧ lookupA fs fk = some (Value.vNum n) ∧
        jsToNumber (intRepr n) = Value.vNum n ∧ ∀ kv ∈ fs, kv.2.isObj = false) →
      ((ups.map Prod.fst).Nodup) →
      (∀ r ∈ P, ∃ gs i, r = Value.vObj gs ∧ r.vGet fk = Value.vNum i ∧
        jsToNumber (intRepr i) = Value.vNum i) →
      (∀ w, P.countP (fun r => Value.jsStrictEq (r.vGet fk) w) ≤ 1) →
      (∀ r ∈ processUpdates m fk P ups, ∃ gs i, r = Value.vObj gs ∧
        r.vGet fk = Value.vNum i ∧ jsToNumber (intRepr i) = Value.vNum i) ∧
      (∀ w, (processUpdates m fk P ups).countP
        (fun r => Value.jsStrictEq (r.vGet fk) w) ≤ 1) ∧
      (∀ e ∈ ups, ∃ fs n gs, e = (intRepr n, some (Value.vObj fs)) ∧
        Value.vObj gs ∈ processUpdates m fk P ups ∧
        (Value.vObj gs).vGet fk = Value.vNum n ∧
        (∀ kv ∈ fs, lookupA gs kv.1 = some kv.2) ∧
        (∀ kv ∈ fs, kv.2.isObj = false) ∧
        jsToNumber (intRepr n) = Value.vNum n) ∧
      (∀ r ∈ P, ∃ r', r' ∈ processUpdates m fk P ups ∧ r'.vGet fk = r.vGet fk) ∧
      (∀ r ∈ P, (∀ e ∈ ups, ∀ n' : Int, e.1 = intRepr n' →
          r.vGet fk ≠ Value.vNum n') →
        r ∈ processUpdates m fk P ups) := by
  intro ups
  induction ups with
  | nil =>
      intro P _ _ hP hcount
      exact ⟨hP, hcount, fun e he => absurd he (List.not_mem_nil e),
        fun r hr => ⟨r, hr, rfl⟩, fun r hr _ => hr⟩
  | cons e rest ih =>
      intro P hups hnd hP hcount
      obtain ⟨fs, n, he, hfsnd, hfk, hrt, hflat⟩ := hups e (List.mem_cons_self _ _)
      subst he
      simp only [List.map_cons, List.nodup_cons] at hnd
      obtain ⟨hnd1, hnd2⟩ := hnd
      have hups' : ∀ e' ∈ rest, ∃ fs' n', e' = (intRepr n', some (Value.vObj fs')) ∧
          (fs'.map Prod.fst).Nodup ∧ lookupA fs' fk = some (Value.vNum n') ∧
          jsToNumber (intRepr n') = Value.vNum n' ∧ ∀ kv ∈ fs', kv.2.isObj = false :=
        fun e' he' => hups e' (List.mem_cons_of_mem _ he')
      have hvg : (Value.vObj fs).vGet fk = Value.vNum n := by
        simp [Value.vGet, Value.vGetRaw, hfk]
      cases hidx : P.findIdx? (fun item => Value.jsStrictEq (item.vGet fk) (Value.vNum n)) with
      | none =>
          have hsynth : (Value.vObj fs).vSet fk (Value.vNum n) = Value.vObj fs := by
            simp [Value.vSet, setA_of_lookupA hfk]
          have hstep : processUpdates m fk P ((intRepr n, some (Value.vObj fs)) :: rest)
              = processUpdates m fk ((Value.vObj fs).vSet fk (Value.vNum n) :: P) rest := by
            simp only [processUpdates, hrt, Value.isNull, Value.isUndef, Value.ownFields,
              Bool.or_self, Bool.false_eq_true, if_false, Option.getD_some, hidx]
          rw [hsynth] at hstep
          have hP' : ∀ r ∈ Value.vObj fs :: P, ∃ gs i, r = Value.vObj gs ∧
              r.vGet fk = Value.vNum i ∧ jsToNumber (intRepr i) = Value.vNum i := by
            intro r hr
            rcases List.mem_cons.mp hr with h | h
            · subst h
              exact ⟨fs, n, rfl, hvg, hrt⟩
            · exact hP r h
          have hcount' : ∀ w, (Value.vObj fs :: P).countP
              (fun r => Value.jsStrictEq (r.vGet fk) w) ≤ 1 := by
            intro w
            simp only [List.countP_cons]
            by_cases hw : Value.jsStrictEq ((Value.vObj fs).vGet fk) w = true
            · have hw' : w = Value.vNum n := by
                rw [hvg] at hw
                exact (jsStrictEq_vNum_iff n w).mp hw
              have h0 : P.countP (fun r => Value.jsStrictEq (r.vGet fk) w) = 0 := by
                rw [hw']
                exact countP_zero_of_none_found _ P hidx
              rw [h0, if_pos hw]
            · rw [if_neg hw]
              have := hcount w
              omega
          obtain ⟨ih1, ih2, ih3, ih4, ih5⟩ := ih (Value.vObj fs :: P) hups' hnd2 hP' hcount'
          rw [hstep]
          refine ⟨ih1, ih2, ?_, ?_, ?_⟩
          · intro e' he'
            rcases List.mem_cons.mp he' with h | h
            · subst h
              refine ⟨fs, n, fs, rfl, ?_, hvg,
                fun kv hkv => lookupA_of_mem_nodup hkv hfsnd, hflat, hrt⟩
              apply ih5 (Value.vObj fs) (List.mem_cons_self _ _)
              intro e'' he'' n' hkey hcon
              rw [hvg] at hcon
              have hnn : n = n' := Value.vNum.inj hcon
              exact hnd1 (by rw [hnn, ← hkey]; exact List.mem_map_of_mem _ he'')
            · exact ih3 e' h
          · intro r hr
            exact ih4 r (List.mem_cons_of_mem _ hr)
          · intro r hr hun
            exact ih5 r (List.mem_cons_of_mem _ hr)
              (fun e'' he'' => hun e'' (List.mem_cons_of_mem _ he''))
      | some i =>
          obtain ⟨b, hgetb, hpredb, hlen⟩ := findIdx?_get
            (fun item => Value.jsStrictEq (item.vGet fk) (Value.vNum n)) P i hidx
          have hbmem : b ∈ P := mem_of_get? P i b hgetb
          have hbfk : b.vGet fk = Value.vNum n := jsStrictEq_eq hpredb
          obtain ⟨gs, ib, hbobj, hbid, hbrt⟩ := hP b hbmem
          obtain ⟨gs', hmw, hcontw⟩ := mergeDeep_writes m gs fs hflat hfsnd
          have hm : mergeDeep m (P.getD i Value.vNull) (Value.vObj fs) ""
              = Value.vObj gs' := by
            rw [getD_of_get? Value.vNull P i b hgetb, hbobj]
            exact hmw
          have hmid : (Value.vObj gs').vGet fk = Value.vNum n := by
            have h2 : lookupA gs' fk = some (Value.vNum n) :=
              hcontw (fk, Value.vNum n) (mem_of_lookupA hfk)
            simp [Value.vGet, Value.vGetRaw, h2]
          have hstep : processUpdates m fk P ((intRepr n, some (Value.vObj fs)) :: rest)
              = processUpdates m fk
                  (P.set i (mergeDeep m (P.getD i Value.vNull) (Value.vObj fs) "")) rest := by
            simp only [processUpdates, hrt, Value.isNull, Value.isUndef, Bool.or_self,
              Bool.false_eq_true, if_false, Option.getD_some, hidx]
          rw [hm] at hstep
          have hP' : ∀ r ∈ P.set i (Value.vObj gs'), ∃ gs0 i0, r = Value.vObj gs0 ∧
              r.vGet fk = Value.vNum i0 ∧ jsToNumber (intRepr i0) = Value.vNum i0 := by
            intro r hr
            rcases mem_of_mem_set P i (Value.vObj gs') r hr with h | h
            · exact hP r h
            · subst h
              exact ⟨gs', n, rfl, hmid, hrt⟩
          have hcount' : ∀ w, (P.set i (Value.vObj gs')).countP
              (fun r => Value.jsStrictEq (r.vGet fk) w) ≤ 1 := by
            intro w
            have hpeq : (fun r => Value.jsStrictEq (r.vGet fk) w) (Value.vObj gs')
                = (fun r => Value.jsStrictEq (r.vGet fk) w) b := by
              show Value.jsStrictEq ((Value.vObj gs').vGet fk) w
                  = Value.jsStrictEq (b.vGet fk) w
              rw [hmid, hbfk]
            rw [countP_set_congr (fun r => Value.jsStrictEq (r.vGet fk) w) P i
              (Value.vObj gs') b hgetb hpeq]
            exact hcount w
          obtain ⟨ih1, ih2, ih3, ih4, ih5⟩ :=
            ih (P.set i (Value.vObj gs')) hups' hnd2 hP' hcount'
          rw [hstep]
          refine ⟨ih1, ih2, ?_, ?_, ?_⟩
          · intro e' he'
            rcases List.mem_cons.mp he' with h | h
            · subst h
              refine ⟨fs, n, gs', rfl, ?_, hmid,
                fun kv hkv => hcontw kv hkv, hflat, hrt⟩
              apply ih5 (Value.vObj gs') (mem_set_self P i (Value.vObj gs') hlen)
              intro e'' he'' n' hkey hcon
              rw [hmid] at hcon
              have hnn : n = n' := Value.vNum.inj hcon
              exact hnd1 (by rw [hnn, ← hkey]; exact List.mem_map_of_mem _ he'')
            · exact ih3 e' h
          · intro r hr
            by_cases hrb : r = b
            · obtain ⟨r', hr', hid'⟩ :=
                ih4 (Value.vObj gs') (mem_set_self P i (Value.vObj gs') hlen)
              refine ⟨r', hr', ?_⟩
              rw [hid', hmid, hrb, hbfk]
            · exact ih4 r (mem_set_of_ne P i (Value.vObj gs') b r hr hgetb hrb)
          · intro r hr hun
            by_cases hrb : r = b
            · exact absurd (by rw [hrb]; exact hbfk)
                (hun (intRepr n, some (Value.vObj fs)) (List.mem_cons_self _ _) n rfl)
            · exact ih5 r (mem_set_of_ne P i (Value.vObj gs') b r hr hgetb hrb)
                (fun e'' he'' => hun e'' (List.mem_cons_of_mem _ he''))

/-- Processing a mapping of flat patches against a collection that
already absorbs every patch (each patch key parses to the identity of a
unique record containing the patch's fields) leaves the collection
unchanged: each patch is located and deep-merged over its absorber, a
no-op. -/
theorem processUpdates_absorb (m : IdFieldMap) (fk : String) :
    ∀ (ups : List (String × Option Value)) (E : List Value),
      (∀ e ∈ ups, ∃ fs n gs, e = (intRepr n, some (Value.vObj fs)) ∧
        jsToNumber (intRepr n) = Value.vNum n ∧
        (∀ kv ∈ fs, kv.2.isObj = false) ∧
        Value.vObj gs ∈ E ∧ (Value.vObj gs).vGet fk = Value.vNum n ∧
        (∀ kv ∈ fs, lookupA gs kv.1 = some kv.2)) →
      (∀ w, E.countP (fun r => Value.jsStrictEq (r.vGet fk) w) ≤ 1) →
      processUpdates m fk E ups = E := by
  intro ups
  induction ups with
  | nil => intro E _ _; rfl
  | cons e rest ih =>
      intro E hups hcount
      obtain ⟨fs, n, gs, he, hrt, hflat, hgsmem, hgsid, hcont⟩ :=
        hups e (List.mem_cons_self _ _)
      subst he
      have hpredgs : Value.jsStrictEq ((Value.vObj gs).vGet fk) (Value.vNum n) = true := by
        rw [hgsid]
        simp [Value.jsStrictEq]
      obtain ⟨i, hidx⟩ := findIdx?_isSome_of_mem
        (fun item => Value.jsStrictEq (item.vGet fk) (Value.vNum n)) hgsmem hpredgs
      obtain ⟨b, hgetb, hpredb, hlen⟩ := findIdx?_get
        (fun item => Value.jsStrictEq (item.vGet fk) (Value.vNum n)) E i hidx
      have hbmem : b ∈ E := mem_of_get? E i b hgetb
      have hbeq : b = Value.vObj gs := by
        by_contra hne
        have h2 := two_le_countP (fun r => Value.jsStrictEq (r.vGet fk) (Value.vNum n))
          E b (Value.vObj gs) hbmem hgsmem hne hpredb hpredgs
        have := hcount (Value.vNum n)
        omega
      have habs : mergeDeep m (E.getD i Value.vNull) (Value.vObj fs) ""
          = Value.vObj gs := by
        rw [getD_of_get? Value.vNull E i b hgetb, hbeq]
        exact mergeDeep_absorb m gs fs hcont hflat
      have hset : E.set i (mergeDeep m (E.getD i Value.vNull) (Value.vObj fs) "") = E := by
        rw [habs, ← hbeq]
        exact set_of_get? E i b hgetb
      have hstep : processUpdates m fk E ((intRepr n, some (Value.vObj fs)) :: rest)
          = processUpdates m fk E rest := by
        simp only [processUpdates, hrt, Value.isNull, Value.isUndef, Bool.or_self,
          Bool.false_eq_true, if_false, Option.getD_some, hidx]
        rw [hset]
      rw [hstep]
      exact ih E (fun e' he' => hups e' (List.mem_cons_of_mem _ he')) hcount

/-- The re-save fold of `mergeArrayDeep` over records with defined,
pairwise-distinct identity strings: the type's store afterwards contains
each record under its own key, every entry is a written record or an old
entry, key distinctness is preserved, and keys written by no record are
untouched. -/
theorem saveFold_store (t : String) (rpc : RpcDef) :
    ∀ Q : List Value,
      (∀ r ∈ Q, (r.vGet rpc.foreignKey).isUndef = false) →
      ((Q.map (fun r => jsToString (r.vGet rpc.foreignKey))).Nodup) →
      ∀ (repo : Repo) (msto : List (String × Value)),
        lookupA repo.data t = some msto →
        ∃ msto',
          lookupA ((Q.foldl (fun r item =>
              if (item.vGet rpc.foreignKey).isUndef then r else saveCore r t rpc item)
              repo).data) t = some msto' ∧
          (∀ r ∈ Q, lookupA msto' (jsToString (r.vGet rpc.foreignKey)) = some r) ∧
          (∀ kv ∈ msto',
            (∃ r, r ∈ Q ∧ kv = (jsToString (r.vGet rpc.foreignKey), r)) ∨ kv ∈ msto) ∧
          ((msto.map Prod.fst).Nodup → (msto'.map Prod.fst).Nodup) ∧
          (∀ k, (∀ r ∈ Q, jsToString (r.vGet rpc.foreignKey) ≠ k) →
            lookupA msto' k = lookupA msto k) := by
  intro Q
  induction Q with
  | nil =>
      intro _ _ repo msto hd
      exact ⟨msto, hd, fun r hr => absurd hr (List.not_mem_nil r),
        fun kv hkv => Or.inr hkv, fun h => h, fun k _ => rfl⟩
  | cons r0 rest ih =>
      intro hdef hnd repo msto hd
      simp only [List.map_cons, List.nodup_cons] at hnd
      have hr0 : (r0.vGet rpc.foreignKey).isUndef = false :=
        hdef r0 (List.mem_cons_self _ _)
      have hfold : (r0 :: rest).foldl (fun r item =>
            if (item.vGet rpc.foreignKey).isUndef then r else saveCore r t rpc item) repo
          = rest.foldl (fun r item =>
              if (item.vGet rpc.foreignKey).isUndef then r else saveCore r t rpc item)
              (saveCore repo t rpc r0) := by
        rw [List.foldl_cons]
        simp only [hr0, Bool.false_eq_true, if_false]
      have hd1 : lookupA (saveCore repo t rpc r0).data t
          = some (setA msto (jsToString (r0.vGet rpc.foreignKey)) r0) := by
        rw [saveCore_data_self, hd, Option.getD_some]
      obtain ⟨msto', h1, h2, h3, h4, h5⟩ := ih
        (fun r hr => hdef r (List.mem_cons_of_mem _ hr)) hnd.2
        (saveCore repo t rpc r0) (setA msto (jsToString (r0.vGet rpc.foreignKey)) r0) hd1
      refine ⟨msto', ?_, ?_, ?_, ?_, ?_⟩
      · rw [hfold]
        exact h1
      · intro r hr
        rcases List.mem_cons.mp hr with h | h
        · subst h
          have hk : ∀ r' ∈ rest, jsToString (r'.vGet rpc.foreignKey)
              ≠ jsToString (r.vGet rpc.foreignKey) := by
            intro r' hr' hcon
            exact hnd.1 (by rw [← hcon]; exact List.mem_map_of_mem _ hr')
          rw [h5 (jsToString (r.vGet rpc.foreignKey)) hk, lookupA_setA_self]
        · exact h2 r h
      · intro kv hkv
        rcases h3 kv hkv with ⟨r, hrrest, hkveq⟩ | hold
        · exact Or.inl ⟨r, List.mem_cons_of_mem _ hrrest, hkveq⟩
        · rcases mem_setA hold with heq | hmem
          · exact Or.inl ⟨r0, List.mem_cons_self _ _, heq⟩
          · exact Or.inr hmem
      · intro hndm
        exact h4 (nodup_keys_setA _ _ _ hndm)
      · intro k hk
        rw [h5 k (fun r' hr' => hk r' (List.mem_cons_of_mem _ hr'))]
        exact lookupA_setA_ne msto (jsToString (r0.vGet rpc.foreignKey)) k r0
          (Ne.symm (hk r0 (List.mem_cons_self _ _)))

/-- C6 counterexample: merging `[{id: "1"}]` twice into a fresh `"user"`
repository is *not* idempotent — the first merge synthesizes `{id: 1}`
(numeric identity forced by the parse of the record key), the second
locates that record numerically and deep-merges the original patch back
over it, restoring the *string* identity `{id: "1"}` in both the
returned list and the stored collection. -/
theorem C6_counterexample :
    mergeRpc userRepo "user" (.arr [c6Item])
      = some ([Value.vObj [("id", Value.vNum 1)]], c6Repo1) ∧
    (mergeRpc c6Repo1 "user" (.arr [c6Item])).map Prod.fst
      = some [Value.vObj [("id", Value.vStr "1")]] ∧
    (mergeRpc c6Repo1 "user" (.arr [c6Item])).map (fun pr => findAll pr.2 "user")
      = some [Value.vObj [("id", Value.vStr "1")]] ∧
    findAll c6Repo1 "user" = [Value.vObj [("id", Value.vNum 1)]] ∧
    ¬ ([Value.vObj [("id", Value.vNum 1)]] = [Value.vObj [("id", Value.vStr "1")]]) := by
  have hmd : mergeDeep [] (Value.vObj [("id", Value.vNum 1)]) c6Item ""
      = Value.vObj [("id", Value.vStr "1")] := by
    show mergeFields [] (idFieldAt [] "" "id") ""
        (copyOf (Value.vObj [("id", Value.vNum 1)]))
        (jsEntriesOrder (Value.ownFields c6Item)) = _
    have e1 : jsEntriesOrder (Value.ownFields c6Item)
        = [("id", Value.vStr "1")] := rfl
    have e0 : idFieldAt ([] : IdFieldMap) "" "id" = "id" := rfl
    rw [e1, e0]
    simp only [mergeFields]
    simp [Value.isNull, Value.isObj, Value.vSet, setA, copyOf]
  have hargs : processUpdates idRpc.mergePath
      (orElseOptStr (getIdFieldForPath idRpc.mergePath "" "") "id")
      (findAll c6Repo1 "user") (jsEntriesOrder (arrayToRecord idRpc [c6Item]))
      = [mergeDeep [] (Value.vObj [("id", Value.vNum 1)]) c6Item ""] := rfl
  have hpu2 : processUpdates idRpc.mergePath
      (orElseOptStr (getIdFieldForPath idRpc.mergePath "" "") "id")
      (findAll c6Repo1 "user") (jsEntriesOrder (arrayToRecord idRpc [c6Item]))
      = [Value.vObj [("id", Value.vStr "1")]] := by rw [hargs, hmd]
  refine ⟨rfl, ?_, ?_, rfl, ?_⟩
  · have h2a : (mergeRpc c6Repo1 "user" (.arr [c6Item])).map Prod.fst
        = some (processUpdates idRpc.mergePath
            (orElseOptStr (getIdFieldForPath idRpc.mergePath "" "") "id")
            (findAll c6Repo1 "user")
            (jsEntriesOrder (arrayToRecord idRpc [c6Item]))) := rfl
    rw [h2a, hpu2]
  · have h2b : (mergeRpc c6Repo1 "user" (.arr [c6Item])).map
          (fun pr => findAll pr.2 "user")
        = some (findAll
            (mergeArrayDeep c6Repo1 "user" idRpc (arrayToRecord idRpc [c6Item])).2
            "user") := rfl
    have hdata2 : (mergeArrayDeep c6Repo1 "user" idRpc (arrayToRecord idRpc [c6Item])).2.data
        = [("user", [("1", Value.vObj [("id", Value.vStr "1")])])] := by
      rw [mergeArrayDeep_data, hpu2]
      rfl
    rw [h2b]
    simp only [findAll]
    rw [hdata2]
    rfl
  · intro h
    have h1 : Value.vObj [("id", Value.vNum 1)] = Value.vObj [("id", Value.vStr "1")] :=
      (List.cons.inj h).1
    have h2 := Value.vObj.inj h1
    have h3 := (List.cons.inj h2).1
    exact Value.noConfusion (congrArg Prod.snd h3)

set_option maxHeartbeats 1600000 in
/-- C6 (amended): merging the same array twice in a row is idempotent on
the *stored collection* for arrays of flat records (no object-valued
fields) with pairwise-distinct integral identities that round-trip
through `String`/`Number`, over a well-keyed store of such records,
provided the type's declared identity field coincides with the root
merge-path identity field: after the first merge every stored record
absorbs its patch, so the second merge locates each record numerically,
deep-merges it over itself (a no-op), re-saves it under its own key and
purges nothing — it returns exactly the stored collection left by the
first merge and leaves the store unchanged. -/
theorem C6_theorem (repo : Repo) (t : String) (rpc : RpcDef)
    (msto : List (String × Value)) (items : List Value)
    (hrpc : lookupA repo.rpcs t = some rpc)
    (hroot : orElseOptStr (getIdFieldForPath rpc.mergePath "" "") "id" = rpc.foreignKey)
    (hdata : lookupA repo.data t = some msto)
    (hnd : (msto.map Prod.fst).Nodup)
    (hwk : ∀ kv ∈ msto, ∃ gs i, kv.2 = Value.vObj gs ∧
      kv.2.vGet rpc.foreignKey = Value.vNum i ∧ kv.1 = intRepr i ∧
      jsToNumber (intRepr i) = Value.vNum i)
    (hitems : ∀ it ∈ items, ∃ fs n, it = Value.vObj fs ∧
      (fs.map Prod.fst).Nodup ∧ lookupA fs rpc.foreignKey = some (Value.vNum n) ∧
      jsToNumber (intRepr n) = Value.vNum n ∧ ∀ kv ∈ fs, kv.2.isObj = false)
    (hikeys : (items.map (fun it => jsToString (it.vGet rpc.foreignKey))).Nodup) :
    ∃ res1 repo1 res2 repo2,
      mergeRpc repo t (.arr items) = some (res1, repo1) ∧
      mergeRpc repo1 t (.arr items) = some (res2, repo2) ∧
      res2 = findAll repo1 t ∧
      repo2.data = repo1.data ∧
      findAll repo2 t = findAll repo1 t := by
  have hdefs : ∀ it ∈ items, (it.vGet rpc.foreignKey).isUndef = false := by
    intro it hit
    obtain ⟨fs, n, hobj, _, hlk, _, _⟩ := hitems it hit
    have hv : it.vGet rpc.foreignKey = Value.vNum n := by
      rw [hobj]
      simp [Value.vGet, Value.vGetRaw, hlk]
    rw [hv]
    rfl
  have harr : arrayToRecord rpc items
      = items.map (fun it => (jsToString (it.vGet rpc.foreignKey), some it)) :=
    arrayToRecord_map rpc items hdefs hikeys
  have hupsnd : ((jsEntriesOrder (items.map
      (fun it => (jsToString (it.vGet rpc.foreignKey), some it)))).map Prod.fst).Nodup := by
    apply nodup_keys_jsEntriesOrder
    rw [List.map_map]
    exact hikeys
  have hupsgood : ∀ e ∈ jsEntriesOrder (items.map
      (fun it => (jsToString (it.vGet rpc.foreignKey), some it))),
      ∃ fs n, e = (intRepr n, some (Value.vObj fs)) ∧
        (fs.map Prod.fst).Nodup ∧ lookupA fs rpc.foreignKey = some (Value.vNum n) ∧
        jsToNumber (intRepr n) = Value.vNum n ∧ ∀ kv ∈ fs, kv.2.isObj = false := by
    intro e he
    obtain ⟨it, hit, rfl⟩ := List.mem_map.mp (mem_jsEntriesOrder he)
    obtain ⟨fs, n, hobj, hfsnd, hlk, hrt, hflat⟩ := hitems it hit
    subst hobj
    refine ⟨fs, n, ?_, hfsnd, hlk, hrt, hflat⟩
    have hv : (Value.vObj fs).vGet rpc.foreignKey = Value.vNum n := by
      simp [Value.vGet, Value.vGetRaw, hlk]
    rw [hv]
    rfl
  have hfa0 : findAll repo t = msto.map (fun kv => kv.2) := by
    simp [findAll, hdata]
  have hP0 : ∀ r ∈ findAll repo t, ∃ gs i, r = Value.vObj gs ∧
      r.vGet rpc.foreignKey = Value.vNum i ∧
      jsToNumber (intRepr i) = Value.vNum i := by
    intro r hr
    rw [hfa0] at hr
    obtain ⟨kv, hkv, rfl⟩ := List.mem_map.mp hr
    obtain ⟨gs, i, h1, h2, _, h4⟩ := hwk kv hkv
    exact ⟨gs, i, h1, h2, h4⟩
  have hcount0 : ∀ w, (findAll repo t).countP
      (fun r => Value.jsStrictEq (r.vGet rpc.foreignKey) w) ≤ 1 := by
    intro w
    rw [hfa0]
    exact countP_idMatch_le_one rpc.foreignKey msto w
      (fun kv hkv => by
        obtain ⟨gs, i, _, h2, h3, _⟩ := hwk kv hkv
        exact ⟨i, h2, h3⟩) hnd
  obtain ⟨hq1, hq2, hq3, hq4, hq5⟩ := processUpdates_flat rpc.mergePath rpc.foreignKey
    (jsEntriesOrder (items.map (fun it => (jsToString (it.vGet rpc.foreignKey), some it))))
    (findAll repo t) hupsgood hupsnd hP0 hcount0
  have hqdef : ∀ r ∈ processUpdates rpc.mergePath rpc.foreignKey (findAll repo t)
      (jsEntriesOrder (items.map
        (fun it => (jsToString (it.vGet rpc.foreignKey), some it)))),
      (r.vGet rpc.foreignKey).isUndef = false := by
    intro r hr
    obtain ⟨gs, i, _, h2, _⟩ := hq1 r hr
    rw [h2]
    rfl
  have hqnd : ((processUpdates rpc.mergePath rpc.foreignKey (findAll repo t)
      (jsEntriesOrder (items.map
        (fun it => (jsToString (it.vGet rpc.foreignKey), some it))))).map
      (fun r => jsToString (r.vGet rpc.foreignKey))).Nodup :=
    nodup_ids_of_count rpc.foreignKey _
      (fun r hr => by
        obtain ⟨gs, i, _, h2, h3⟩ := hq1 r hr
        exact ⟨i, h2, h3⟩) hq2
  obtain ⟨msto', hlkup, hper, hmemch, hndtr, hframe⟩ := saveFold_store t rpc
    (processUpdates rpc.mergePath rpc.foreignKey (findAll repo t)
      (jsEntriesOrder (items.map
        (fun it => (jsToString (it.vGet rpc.foreignKey), some it)))))
    hqdef hqnd repo msto hdata
  have hnd' : (msto'.map Prod.fst).Nodup := hndtr hnd
  have hwk' : ∀ kv ∈ msto', kv.1 = jsToString (kv.2.vGet rpc.foreignKey) := by
    intro kv hkv
    rcases hmemch kv hkv with ⟨r, hrQ, rfl⟩ | hold
    · rfl
    · obtain ⟨gs, i, _, h2, h3, _⟩ := hwk kv hold
      rw [h3, h2]
      rfl
  have hkeep : msto'.filter (fun kv =>
      ((processUpdates rpc.mergePath rpc.foreignKey (findAll repo t)
        (jsEntriesOrder (items.map
          (fun it => (jsToString (it.vGet rpc.foreignKey), some it))))).map
        (fun item => jsToString (item.vGet rpc.foreignKey))).contains kv.1)
      = msto' := by
    apply List.filter_eq_self.mpr
    intro kv hkv
    rcases hmemch kv hkv with ⟨r, hrQ, rfl⟩ | hold
    · exact List.elem_iff.mpr (List.mem_map_of_mem _ hrQ)
    · have hkvP : kv.2 ∈ findAll repo t := by
        rw [hfa0]
        exact List.mem_map_of_mem _ hold
      obtain ⟨r', hr'Q, hid⟩ := hq4 kv.2 hkvP
      have heq : kv.1 = jsToString (r'.vGet rpc.foreignKey) := by
        rw [hwk' kv hkv, hid]
      rw [heq]
      exact List.elem_iff.mpr (List.mem_map_of_mem _ hr'Q)
  have hdata1 : lookupA (emitEvent (mergeArrayDeep repo t rpc (items.map
      (fun it => (jsToString (it.vGet rpc.foreignKey), some it)))).2 t).data t
      = some msto' := by
    rw [emitEvent_data, mergeArrayDeep_data, hroot, lookupA_setA_self, hlkup,
      Option.getD_some, hkeep]
  have hfa1 : findAll (emitEvent (mergeArrayDeep repo t rpc (items.map
      (fun it => (jsToString (it.vGet rpc.foreignKey), some it)))).2 t) t
      = msto'.map (fun kv => kv.2) := by
    unfold findAll
    rw [hdata1, Option.getD_some]
  have hrpcs1 : (emitEvent (mergeArrayDeep repo t rpc (items.map
      (fun it => (jsToString (it.vGet rpc.foreignKey), some it)))).2 t).rpcs
      = repo.rpcs := by
    rw [emitEvent_rpcs, mergeArrayDeep_rpcs]
  have hm1 : mergeRpc repo t (.arr items)
      = some ((mergeArrayDeep repo t rpc (items.map
            (fun it => (jsToString (it.vGet rpc.foreignKey), some it)))).1,
          emitEvent (mergeArrayDeep repo t rpc (items.map
            (fun it => (jsToString (it.vGet rpc.foreignKey), some it)))).2 t) := by
    simp only [mergeRpc, hrpc]
    rw [harr]
  have hm2 : mergeRpc (emitEvent (mergeArrayDeep repo t rpc (items.map
        (fun it => (jsToString (it.vGet rpc.foreignKey), some it)))).2 t) t (.arr items)
      = some ((mergeArrayDeep (emitEvent (mergeArrayDeep repo t rpc (items.map
            (fun it => (jsToString (it.vGet rpc.foreignKey), some it)))).2 t) t rpc
            (items.map (fun it => (jsToString (it.vGet rpc.foreignKey), some it)))).1,
          emitEvent (mergeArrayDeep (emitEvent (mergeArrayDeep repo t rpc (items.map
            (fun it => (jsToString (it.vGet rpc.foreignKey), some it)))).2 t) t rpc
            (items.map (fun it =>
              (jsToString (it.vGet rpc.foreignKey), some it)))).2 t) := by
    simp only [mergeRpc, hrpcs1, hrpc]
    rw [harr]
  have hE : ∀ e ∈ jsEntriesOrder (items.map
      (fun it => (jsToString (it.vGet rpc.foreignKey), some it))),
      ∃ fs n gs, e = (intRepr n, some (Value.vObj fs)) ∧
        jsToNumber (intRepr n) = Value.vNum n ∧
        (∀ kv ∈ fs, kv.2.isObj = false) ∧
        Value.vObj gs ∈ findAll (emitEvent (mergeArrayDeep repo t rpc (items.map
          (fun it => (jsToString (it.vGet rpc.foreignKey), some it)))).2 t) t ∧
        (Value.vObj gs).vGet rpc.foreignKey = Value.vNum n ∧
        (∀ kv ∈ fs, lookupA gs kv.1 = some kv.2) := by
    intro e he
    obtain ⟨fs, n, gs, he', hgsQ, hgsid, hcont, hflat, hrt⟩ := hq3 e he
    refine ⟨fs, n, gs, he', hrt, hflat, ?_, hgsid, hcont⟩
    rw [hfa1]
    exact List.mem_map_of_mem _ (mem_of_lookupA (hper (Value.vObj gs) hgsQ))
  have hEcount : ∀ w, (findAll (emitEvent (mergeArrayDeep repo t rpc (items.map
      (fun it => (jsToString (it.vGet rpc.foreignKey), some it)))).2 t) t).countP
      (fun r => Value.jsStrictEq (r.vGet rpc.foreignKey) w) ≤ 1 := by
    intro w
    rw [hfa1]
    exact wellKeyed_count_le_one rpc.foreignKey msto' w (fun kv hkv => hwk' kv hkv) hnd'
  have habsorb2 : processUpdates rpc.mergePath rpc.foreignKey
      (findAll (emitEvent (mergeArrayDeep repo t rpc (items.map
        (fun it => (jsToString (it.vGet rpc.foreignKey), some it)))).2 t) t)
      (jsEntriesOrder (items.map
        (fun it => (jsToString (it.vGet rpc.foreignKey), some it))))
      = findAll (emitEvent (mergeArrayDeep repo t rpc (items.map
          (fun it => (jsToString (it.vGet rpc.foreignKey), some it)))).2 t) t :=
    processUpdates_absorb rpc.mergePath rpc.foreignKey _ _ hE hEcount
  have hitems2 : ∀ item ∈ findAll (emitEvent (mergeArrayDeep repo t rpc (items.map
      (fun it => (jsToString (it.vGet rpc.foreignKey), some it)))).2 t) t,
      ∃ kv ∈ msto', item = kv.2 ∧ jsToString (item.vGet rpc.foreignKey) = kv.1 := by
    intro item hitem
    rw [hfa1] at hitem
    obtain ⟨kv, hkv, rfl⟩ := List.mem_map.mp hitem
    exact ⟨kv, hkv, rfl, (hwk' kv hkv).symm⟩
  have hnoop := saveFold_data_noop t rpc msto' _ hitems2 hnd' _ hdata1
  have hids2 : (findAll (emitEvent (mergeArrayDeep repo t rpc (items.map
      (fun it => (jsToString (it.vGet rpc.foreignKey), some it)))).2 t) t).map
      (fun item => jsToString (item.vGet rpc.foreignKey)) = msto'.map Prod.fst := by
    rw [hfa1, List.map_map]
    exact List.map_congr_left (fun kv hkv => (hwk' kv hkv).symm)
  have hfilter : msto'.filter (fun kv => (msto'.map Prod.fst).contains kv.1) = msto' :=
    List.filter_eq_self.mpr
      (fun kv hkv => List.elem_iff.mpr (List.mem_map_of_mem Prod.fst hkv))
  have hdata2 : (emitEvent (mergeArrayDeep (emitEvent (mergeArrayDeep repo t rpc
        (items.map (fun it => (jsToString (it.vGet rpc.foreignKey), some it)))).2 t) t rpc
        (items.map (fun it => (jsToString (it.vGet rpc.foreignKey), some it)))).2 t).data
      = (emitEvent (mergeArrayDeep repo t rpc (items.map
          (fun it => (jsToString (it.vGet rpc.foreignKey), some it)))).2 t).data := by
    rw [emitEvent_data, mergeArrayDeep_data, hroot, habsorb2, hnoop, hdata1,
      Option.getD_some, hids2, hfilter]
    exact setA_of_lookupA hdata1
  refine ⟨_, _, _, _, hm1, hm2, ?_, hdata2, ?_⟩
  · rw [mergeArrayDeep_fst, hroot]
    exact habsorb2
  · exact findAll_congr _ _ t (by rw [hdata2])

/-- C6 witness: merging `[{id: 1}]` (integral identity) twice into a
fresh `"user"` repository — the second merge returns exactly the stored
collection left by the first and leaves the store unchanged. -/
theorem C6_witness :
    ∃ res1 repo1 res2 repo2,
      mergeRpc userRepo "user" (.arr [Value.vObj [("id", Value.vNum 1)]])
        = some (res1, repo1) ∧
      mergeRpc repo1 "user" (.arr [Value.vObj [("id", Value.vNum 1)]])
        = some (res2, repo2) ∧
      res2 = findAll repo1 "user" ∧
      repo2.data = repo1.data ∧
      findAll repo2 "user" = findAll repo1 "user" :=
  C6_theorem userRepo "user" idRpc [] [Value.vObj [("id", Value.vNum 1)]] rfl rfl rfl
    (by simp)
    (by intro kv hkv; simp at hkv)
    (by
      intro it hit
      rw [List.mem_singleton] at hit
      subst hit
      exact ⟨[("id", Value.vNum 1)], 1, rfl, by simp, rfl, rfl,
        by
          intro kv hkv
          rw [List.mem_singleton] at hkv
          subst hkv
          rfl⟩)
    (by simp)

end RpcSpec
